import Mathlib

/-!
# Verification of the hex-grid maze generator and BFS solver

Shallow embedding of `src/hexpathfinder.h` and `src/main.cpp`:
a randomized-Kruskal maze generator over a hexagonal grid (union-find with
path compression) and a breadth-first solver that labels every cell with its
hop distance from the goal cell and reconstructs the solution path.

Machine integers of the source (`uint8_t` cell bytes, `uint32_t` coordinates,
`int` intermediates of `getNeighbor`) are embedded as `Nat` / `Int`; the `int`
arithmetic of `getNeighbor` is exact for every dimension the program accepts
(`rows, cols ≤ 50`), so no wrap-around modelling is needed there.  The C++
recursion of `DSU::find` and the `while` loops of the solver are embedded
with explicit fuel; lemmas below show the chosen fuel never runs out on the
states the program actually reaches.
-/

set_option maxRecDepth 8000

namespace HexMaze

/-! ## Cell values (bitmasks) from `hexpathfinder.h` -/

def WALL_UP : Nat := 0x01
def WALL_UP_RIGHT : Nat := 0x02
def WALL_DOWN_RIGHT : Nat := 0x04
def WALL_DOWN : Nat := 0x08
def WALL_DOWN_LEFT : Nat := 0x10
def WALL_UP_LEFT : Nat := 0x20
def ALL_WALLS : Nat := 0x3F
def VISITED : Nat := 0x40
def DEAD_END : Nat := 0x80

/-- The six hex directions, in the order of the `directions[]` array used by
`solveMazeBFS` in `main.cpp`. -/
def dirs6 : List Nat :=
  [WALL_UP, WALL_DOWN, WALL_UP_LEFT, WALL_UP_RIGHT, WALL_DOWN_LEFT, WALL_DOWN_RIGHT]

/-- `getOppositeWall` from `hexpathfinder.h`. -/
def getOppositeWall (wallDirection : Nat) : Nat :=
  if wallDirection = WALL_UP then WALL_DOWN
  else if wallDirection = WALL_UP_RIGHT then WALL_DOWN_LEFT
  else if wallDirection = WALL_DOWN_RIGHT then WALL_UP_LEFT
  else if wallDirection = WALL_DOWN then WALL_UP
  else if wallDirection = WALL_DOWN_LEFT then WALL_UP_RIGHT
  else if wallDirection = WALL_UP_LEFT then WALL_DOWN_RIGHT
  else 0

/-! ## `getNeighbor` from `main.cpp`

The source computes tentative neighbor coordinates in signed `int`
arithmetic (`nc_int & 1` is the column parity, embedded as `% 2`) and then
checks `0 ≤ tempR < nR ∧ 0 ≤ tempC < nC`, writing the coordinates back as
`uint32_t` on success.  The final bounds check of the source is split off as
`boundsCheck` so that the direction dispatch reduces definitionally. -/

def boundsCheck (tempR tempC : Int) (nR nC : Nat) : Option (Nat × Nat) :=
  if 0 ≤ tempR ∧ tempR < (nR : Int) ∧ 0 ≤ tempC ∧ tempC < (nC : Int) then
    some (tempR.toNat, tempC.toNat)
  else none

def getNeighbor (r c wallDirection nR nC : Nat) : Option (Nat × Nat) :=
  if wallDirection = WALL_UP then boundsCheck ((r : Int) - 1) (c : Int) nR nC
  else if wallDirection = WALL_DOWN then boundsCheck ((r : Int) + 1) (c : Int) nR nC
  else if wallDirection = WALL_UP_RIGHT then
    boundsCheck ((r : Int) - 1 + (c : Int) % 2) ((c : Int) + 1) nR nC
  else if wallDirection = WALL_DOWN_RIGHT then
    boundsCheck ((r : Int) + (c : Int) % 2) ((c : Int) + 1) nR nC
  else if wallDirection = WALL_UP_LEFT then
    boundsCheck ((r : Int) - 1 + (c : Int) % 2) ((c : Int) - 1) nR nC
  else if wallDirection = WALL_DOWN_LEFT then
    boundsCheck ((r : Int) + (c : Int) % 2) ((c : Int) - 1) nR nC
  else none

/-! ### Nat-level characterizations of `getNeighbor`, one per direction -/

theorem getNeighbor_UP (r c nR nC : Nat) :
    getNeighbor r c WALL_UP nR nC =
      if 1 ≤ r ∧ r ≤ nR ∧ c < nC then some (r - 1, c) else none := by
  show boundsCheck _ _ _ _ = _
  unfold boundsCheck
  split_ifs with h1 h2 h2 <;>
    first
      | rfl
      | (exfalso; omega)
      | (simp only [Option.some.injEq, Prod.mk.injEq]; omega)

theorem getNeighbor_DOWN (r c nR nC : Nat) :
    getNeighbor r c WALL_DOWN nR nC =
      if r + 1 < nR ∧ c < nC then some (r + 1, c) else none := by
  show boundsCheck _ _ _ _ = _
  unfold boundsCheck
  split_ifs with h1 h2 h2 <;>
    first
      | rfl
      | (exfalso; omega)
      | (simp only [Option.some.injEq, Prod.mk.injEq]; omega)

theorem getNeighbor_UP_RIGHT (r c nR nC : Nat) :
    getNeighbor r c WALL_UP_RIGHT nR nC =
      if 1 ≤ r + c % 2 ∧ r + c % 2 ≤ nR ∧ c + 1 < nC then
        some (r + c % 2 - 1, c + 1) else none := by
  show boundsCheck _ _ _ _ = _
  unfold boundsCheck
  split_ifs with h1 h2 h2 <;>
    first
      | rfl
      | (exfalso; omega)
      | (simp only [Option.some.injEq, Prod.mk.injEq]; omega)

theorem getNeighbor_DOWN_RIGHT (r c nR nC : Nat) :
    getNeighbor r c WALL_DOWN_RIGHT nR nC =
      if r + c % 2 < nR ∧ c + 1 < nC then some (r + c % 2, c + 1) else none := by
  show boundsCheck _ _ _ _ = _
  unfold boundsCheck
  split_ifs with h1 h2 h2 <;>
    first
      | rfl
      | (exfalso; omega)
      | (simp only [Option.some.injEq, Prod.mk.injEq]; omega)

theorem getNeighbor_UP_LEFT (r c nR nC : Nat) :
    getNeighbor r c WALL_UP_LEFT nR nC =
      if 1 ≤ r + c % 2 ∧ r + c % 2 ≤ nR ∧ 1 ≤ c ∧ c ≤ nC then
        some (r + c % 2 - 1, c - 1) else none := by
  show boundsCheck _ _ _ _ = _
  unfold boundsCheck
  split_ifs with h1 h2 h2 <;>
    first
      | rfl
      | (exfalso; omega)
      | (simp only [Option.some.injEq, Prod.mk.injEq]; omega)

theorem getNeighbor_DOWN_LEFT (r c nR nC : Nat) :
    getNeighbor r c WALL_DOWN_LEFT nR nC =
      if r + c % 2 < nR ∧ 1 ≤ c ∧ c ≤ nC then some (r + c % 2, c - 1) else none := by
  show boundsCheck _ _ _ _ = _
  unfold boundsCheck
  split_ifs with h1 h2 h2 <;>
    first
      | rfl
      | (exfalso; omega)
      | (simp only [Option.some.injEq, Prod.mk.injEq]; omega)

/-- Full characterization of reverse neighbor resolution: the signed
coordinate arithmetic inverts exactly, so resolution from the landing cell in
the opposite direction recovers `(r,c)` — and its bounds check succeeds
precisely when `(r,c)` itself lies inside the grid. -/
theorem getNeighbor_rev {r c d nR nC r2 c2 : Nat}
    (hd : d ∈ dirs6) (h : getNeighbor r c d nR nC = some (r2, c2)) :
    getNeighbor r2 c2 (getOppositeWall d) nR nC =
      if r < nR ∧ c < nC then some (r, c) else none := by
  simp only [dirs6, List.mem_cons, List.not_mem_nil, or_false] at hd
  rcases hd with h1 | h1 | h1 | h1 | h1 | h1 <;> subst h1 <;>
    [ (rw [getNeighbor_UP] at h
       rw [show getOppositeWall WALL_UP = WALL_DOWN from rfl, getNeighbor_DOWN]);
      (rw [getNeighbor_DOWN] at h
       rw [show getOppositeWall WALL_DOWN = WALL_UP from rfl, getNeighbor_UP]);
      (rw [getNeighbor_UP_LEFT] at h
       rw [show getOppositeWall WALL_UP_LEFT = WALL_DOWN_RIGHT from rfl,
         getNeighbor_DOWN_RIGHT]);
      (rw [getNeighbor_UP_RIGHT] at h
       rw [show getOppositeWall WALL_UP_RIGHT = WALL_DOWN_LEFT from rfl,
         getNeighbor_DOWN_LEFT]);
      (rw [getNeighbor_DOWN_LEFT] at h
       rw [show getOppositeWall WALL_DOWN_LEFT = WALL_UP_RIGHT from rfl,
         getNeighbor_UP_RIGHT]);
      (rw [getNeighbor_DOWN_RIGHT] at h
       rw [show getOppositeWall WALL_DOWN_RIGHT = WALL_UP_LEFT from rfl,
         getNeighbor_UP_LEFT]) ] <;>
    split_ifs at h with hcond <;>
    simp only [Option.some.injEq, Prod.mk.injEq] at h <;>
    obtain ⟨hR2, hC2⟩ := h <;> subst hR2 <;> subst hC2 <;>
    split_ifs with hcond2 hcond3 hcond3 <;>
    first
      | rfl
      | (simp only [Option.some.injEq, Prod.mk.injEq, and_true, true_and]; omega)
      | (exact absurd (by omega) hcond2)
      | (exact absurd (by omega) hcond3)

/-- C2: the claimed symmetry of neighbor resolution.  If going from an
in-bounds cell `(r,c)` in direction `d` lands on `(r2,c2)`, then going from
`(r2,c2)` in the opposite direction lands back on `(r,c)`. -/
theorem getNeighbor_symm (r c d nR nC r2 c2 : Nat)
    (hr : r < nR) (hc : c < nC) (hd : d ∈ dirs6)
    (h : getNeighbor r c d nR nC = some (r2, c2)) :
    getNeighbor r2 c2 (getOppositeWall d) nR nC = some (r, c) := by
  rw [getNeighbor_rev hd h, if_pos ⟨hr, hc⟩]

/-- Witness for C2 at a concrete instance: `(1,1)` in a `2 × 2` grid, going
`UP` to `(0,1)` and back `DOWN`. -/
theorem getNeighbor_symm_witness :
    (1 < 2 ∧ 1 < 2 ∧ WALL_UP ∈ dirs6 ∧
      getNeighbor 1 1 WALL_UP 2 2 = some (0, 1)) ∧
    getNeighbor 0 1 (getOppositeWall WALL_UP) 2 2 = some (1, 1) :=
  ⟨⟨by decide, by decide, by decide, by decide⟩,
    getNeighbor_symm 1 1 WALL_UP 2 2 0 1 (by decide) (by decide) (by decide)
      (by decide)⟩

/-! ## The grid and the generator state

A grid is a total map from `(row, col)` to the packed cell byte of the
source (`uint8_t maze[][MAX_COLS]`); the program only ever reads and writes
cells with `r < nR ∧ c < nC`.  `&= ~mask` on a `uint8_t` is embedded as
`&&& (255 ^^^ mask)`. -/

def Grid := Nat → Nat → Nat

def setCell (g : Grid) (r c v : Nat) : Grid :=
  fun r' c' => if r' = r then (if c' = c then v else g r' c') else g r' c'

/-- The `Wall` candidate structure from `main.cpp`. -/
structure Wall where
  r : Nat
  c : Nat
  direction : Nat
deriving DecidableEq, Repr

/-- The candidates contributed by one cell in the enumeration loop of
`generateMaze` (directions `DOWN`, `UP_RIGHT`, `DOWN_RIGHT`, each kept only
when the neighbor is in bounds). -/
def cellCands (nR nC r c : Nat) : List Wall :=
  (if (getNeighbor r c WALL_DOWN nR nC).isSome then [⟨r, c, WALL_DOWN⟩] else []) ++
  (if (getNeighbor r c WALL_UP_RIGHT nR nC).isSome then [⟨r, c, WALL_UP_RIGHT⟩] else []) ++
  (if (getNeighbor r c WALL_DOWN_RIGHT nR nC).isSome then [⟨r, c, WALL_DOWN_RIGHT⟩] else [])

/-- The `internalWalls` list built by the double loop of `generateMaze`. -/
def internalWalls (nR nC : Nat) : List Wall :=
  (List.range nR).flatMap fun r => (List.range nC).flatMap fun c => cellCands nR nC r c

/-- `DSU::find` with path compression (`return parent[i] = find(parent[i])`).
The C++ recursion is unbounded; here it carries fuel, and the generator
always calls it with fuel `nR * nC`, which lemma `findAux_spec` below shows
is enough on every state the generator reaches. -/
def findAux : Nat → (Nat → Nat) → Nat → Nat × (Nat → Nat)
  | 0, parent, i => (i, parent)
  | fuel + 1, parent, i =>
    if parent i = i then (i, parent)
    else
      let res := findAux fuel parent (parent i)
      (res.1, fun j => if j = i then res.1 else res.2 j)

/-- `DSU::unite`: find both roots (compressing), then graft `root_i` onto
`root_j` when they differ. -/
def unite (n : Nat) (parent : Nat → Nat) (i j : Nat) : Nat → Nat :=
  let fi := findAux n parent i
  let fj := findAux n fi.2 j
  if fi.1 ≠ fj.1 then (fun k => if k = fi.1 then fj.1 else fj.2 k) else fj.2

structure GenState where
  maze : Grid
  parent : Nat → Nat
  wallsRemoved : Nat

/-- The two wall-clearing writes of `generateMaze`:
`maze[r1][c1] &= ~direction; maze[r2][c2] &= ~oppositeWall;`. -/
def removeWallPair (m : Grid) (r1 c1 direction r2 c2 : Nat) : Grid :=
  let m1 := setCell m r1 c1 (m r1 c1 &&& (255 ^^^ direction))
  setCell m1 r2 c2 (m1 r2 c2 &&& (255 ^^^ getOppositeWall direction))

/-- One iteration of the wall-removal loop of `generateMaze`.  The C++
`break` once `wallsRemoved ≥ target` is embedded as a skip guard: since
`wallsRemoved` never decreases, skipping every remaining candidate is
extensionally the same as exiting the loop. -/
def genStep (nR nC : Nat) (s : GenState) (wall : Wall) : GenState :=
  if nR * nC - 1 ≤ s.wallsRemoved then s
  else
    match getNeighbor wall.r wall.c wall.direction nR nC with
    | none => s
    | some (r2, c2) =>
      let cell1Idx := wall.r * nC + wall.c
      let cell2Idx := r2 * nC + c2
      let f1 := findAux (nR * nC) s.parent cell1Idx
      let f2 := findAux (nR * nC) f1.2 cell2Idx
      if f1.1 ≠ f2.1 then
        { maze := removeWallPair s.maze wall.r wall.c wall.direction r2 c2,
          parent := unite (nR * nC) f2.2 cell1Idx cell2Idx,
          wallsRemoved := s.wallsRemoved + 1 }
      else { s with parent := f2.2 }

/-- The maze after step 1 of `generateMaze`: every in-range cell holds
`ALL_WALLS`; cells outside the requested rectangle keep whatever the
caller's array held. -/
def initialMaze (g0 : Grid) (nR nC : Nat) : Grid :=
  fun r c => if r < nR ∧ c < nC then ALL_WALLS else g0 r c

/-- `generateMaze` from `main.cpp`, parameterized by the already-shuffled
candidate list (the only use the source makes of its `mt19937&` argument is
`std::shuffle` on `internalWalls`). -/
def generateMaze (g0 : Grid) (nR nC : Nat) (shuffledWalls : List Wall) : GenState :=
  shuffledWalls.foldl (genStep nR nC)
    { maze := initialMaze g0 nR nC, parent := fun i => i, wallsRemoved := 0 }

/-- C8: generation is deterministic in the candidate order — identical
shuffle output yields identical final grids and removed-wall counts. -/
theorem generateMaze_deterministic (g0 : Grid) (nR nC : Nat) (l1 l2 : List Wall)
    (h : l1 = l2) :
    (generateMaze g0 nR nC l1).maze = (generateMaze g0 nR nC l2).maze ∧
    (generateMaze g0 nR nC l1).wallsRemoved =
      (generateMaze g0 nR nC l2).wallsRemoved := by
  subst h
  exact ⟨rfl, rfl⟩

/-- Witness for C8 at a concrete run: `2 × 2`, the unshuffled candidate
order. -/
theorem generateMaze_deterministic_witness :
    (generateMaze (fun _ _ => 0) 2 2 (internalWalls 2 2)).maze =
      (generateMaze (fun _ _ => 0) 2 2 (internalWalls 2 2)).maze ∧
    (generateMaze (fun _ _ => 0) 2 2 (internalWalls 2 2)).wallsRemoved =
      (generateMaze (fun _ _ => 0) 2 2 (internalWalls 2 2)).wallsRemoved :=
  generateMaze_deterministic (fun _ _ => 0) 2 2 (internalWalls 2 2)
    (internalWalls 2 2) rfl

/-! ## Small facts about directions, bits, and cell updates -/

theorem getNeighbor_dir_mem {r c d nR nC : Nat} {x : Nat × Nat}
    (h : getNeighbor r c d nR nC = some x) : d ∈ dirs6 := by
  by_contra hd
  simp only [dirs6, List.mem_cons, List.not_mem_nil, or_false, not_or] at hd
  obtain ⟨h1, h2, h3, h4, h5, h6⟩ := hd
  unfold getNeighbor at h
  rw [if_neg h1, if_neg h2, if_neg h4, if_neg h6, if_neg h3, if_neg h5] at h
  exact Option.noConfusion h

theorem getNeighbor_target_lt {r c d nR nC r2 c2 : Nat}
    (h : getNeighbor r c d nR nC = some (r2, c2)) : r2 < nR ∧ c2 < nC := by
  have hd := getNeighbor_dir_mem h
  simp only [dirs6, List.mem_cons, List.not_mem_nil, or_false] at hd
  rcases hd with h1 | h1 | h1 | h1 | h1 | h1 <;> subst h1 <;>
    [ rw [getNeighbor_UP] at h; rw [getNeighbor_DOWN] at h;
      rw [getNeighbor_UP_LEFT] at h; rw [getNeighbor_UP_RIGHT] at h;
      rw [getNeighbor_DOWN_LEFT] at h; rw [getNeighbor_DOWN_RIGHT] at h ] <;>
    split_ifs at h with hcond <;>
    simp only [Option.some.injEq, Prod.mk.injEq] at h <;> omega

theorem getNeighbor_target_ne {r c d nR nC r2 c2 : Nat}
    (h : getNeighbor r c d nR nC = some (r2, c2)) : (r2, c2) ≠ (r, c) := by
  have hd := getNeighbor_dir_mem h
  simp only [dirs6, List.mem_cons, List.not_mem_nil, or_false] at hd
  simp only [ne_eq, Prod.mk.injEq, not_and]
  rcases hd with h1 | h1 | h1 | h1 | h1 | h1 <;> subst h1 <;>
    [ rw [getNeighbor_UP] at h; rw [getNeighbor_DOWN] at h;
      rw [getNeighbor_UP_LEFT] at h; rw [getNeighbor_UP_RIGHT] at h;
      rw [getNeighbor_DOWN_LEFT] at h; rw [getNeighbor_DOWN_RIGHT] at h ] <;>
    split_ifs at h with hcond <;>
    simp only [Option.some.injEq, Prod.mk.injEq] at h <;> omega

theorem getOppositeWall_mem {d : Nat} (hd : d ∈ dirs6) :
    getOppositeWall d ∈ dirs6 := by
  fin_cases hd <;> decide

theorem getOppositeWall_opp {d : Nat} (hd : d ∈ dirs6) :
    getOppositeWall (getOppositeWall d) = d := by
  fin_cases hd <;> decide

theorem getOppositeWall_inj {d e : Nat} (hd : d ∈ dirs6) (he : e ∈ dirs6)
    (h : getOppositeWall d = getOppositeWall e) : d = e := by
  have := getOppositeWall_opp hd
  rw [h, getOppositeWall_opp he] at this
  exact this.symm

theorem land_absorb {m b : Nat} (v : Nat) (h : m &&& b = b) :
    (v &&& m) &&& b = v &&& b := by
  rw [Nat.land_assoc, h]

theorem land_kill {m b : Nat} (v : Nat) (h : m &&& b = 0) :
    (v &&& m) &&& b = 0 := by
  rw [Nat.land_assoc, h]
  simp

/-- Clearing a direction bit zeroes exactly that bit. -/
theorem dir_clear_same {d : Nat} (hd : d ∈ dirs6) (v : Nat) :
    (v &&& (255 ^^^ d)) &&& d = 0 := by
  fin_cases hd <;> exact land_kill v (by decide)

/-- Clearing one direction bit leaves every other direction bit alone. -/
theorem dir_clear_other {d e : Nat} (hd : d ∈ dirs6) (he : e ∈ dirs6)
    (hne : e ≠ d) (v : Nat) : (v &&& (255 ^^^ d)) &&& e = v &&& e := by
  fin_cases hd <;> fin_cases he <;>
    first
      | (exact absurd rfl hne)
      | (exact land_absorb v (by decide))

theorem setCell_self (g : Grid) (r c v : Nat) : setCell g r c v r c = v := by
  simp [setCell]

theorem setCell_other (g : Grid) (r c v r' c' : Nat) (h : (r', c') ≠ (r, c)) :
    setCell g r c v r' c' = g r' c' := by
  unfold setCell
  by_cases h1 : r' = r
  · by_cases h2 : c' = c
    · exact absurd (by rw [h1, h2]) h
    · simp [h1, h2]
  · simp [h1]

theorem removeWallPair_apply (m : Grid) {r1 c1 r2 c2 : Nat} (d0 : Nat)
    (hne : (r2, c2) ≠ (r1, c1)) (X Y : Nat) :
    removeWallPair m r1 c1 d0 r2 c2 X Y =
      if (X, Y) = (r2, c2) then m r2 c2 &&& (255 ^^^ getOppositeWall d0)
      else if (X, Y) = (r1, c1) then m r1 c1 &&& (255 ^^^ d0)
      else m X Y := by
  unfold removeWallPair
  by_cases hB : (X, Y) = (r2, c2)
  · obtain ⟨hX, hY⟩ := Prod.mk.injEq .. ▸ hB
    subst hX; subst hY
    rw [if_pos rfl, setCell_self, setCell_other _ _ _ _ _ _ hne]
  · rw [if_neg hB, setCell_other _ _ _ _ _ _ hB]
    by_cases hA : (X, Y) = (r1, c1)
    · obtain ⟨hX, hY⟩ := Prod.mk.injEq .. ▸ hA
      subst hX; subst hY
      rw [if_pos rfl, setCell_self]
    · rw [if_neg hA, setCell_other _ _ _ _ _ _ hA]

/-- A wall-bit read that touches neither of the two cleared bits is
unchanged by `removeWallPair`. -/
theorem removeWallPair_land_untouched (m : Grid) {r1 c1 d0 r2 c2 X Y e : Nat}
    (hne : (r2, c2) ≠ (r1, c1)) (hd0 : d0 ∈ dirs6) (he : e ∈ dirs6)
    (hB : (X, Y) ≠ (r2, c2) ∨ e ≠ getOppositeWall d0)
    (hA : (X, Y) ≠ (r1, c1) ∨ e ≠ d0) :
    removeWallPair m r1 c1 d0 r2 c2 X Y &&& e = m X Y &&& e := by
  rw [removeWallPair_apply m d0 hne]
  by_cases h1 : (X, Y) = (r2, c2)
  · rw [if_pos h1]
    obtain ⟨hX, hY⟩ := Prod.mk.injEq .. ▸ h1
    subst hX; subst hY
    rcases hB with hB | hB
    · exact absurd rfl hB
    · exact dir_clear_other (getOppositeWall_mem hd0) he hB _
  · rw [if_neg h1]
    by_cases h2 : (X, Y) = (r1, c1)
    · rw [if_pos h2]
      obtain ⟨hX, hY⟩ := Prod.mk.injEq .. ▸ h2
      subst hX; subst hY
      rcases hA with hA | hA
      · exact absurd rfl hA
      · exact dir_clear_other hd0 he hA _
    · rw [if_neg h2]

theorem removeWallPair_land_clearedA (m : Grid) {r1 c1 d0 r2 c2 : Nat}
    (hne : (r2, c2) ≠ (r1, c1)) (hd0 : d0 ∈ dirs6) :
    removeWallPair m r1 c1 d0 r2 c2 r1 c1 &&& d0 = 0 := by
  rw [removeWallPair_apply m d0 hne, if_neg (Ne.symm hne), if_pos rfl]
  exact dir_clear_same hd0 _

theorem removeWallPair_land_clearedB (m : Grid) {r1 c1 d0 r2 c2 : Nat}
    (hne : (r2, c2) ≠ (r1, c1)) (hd0 : d0 ∈ dirs6) :
    removeWallPair m r1 c1 d0 r2 c2 r2 c2 &&& getOppositeWall d0 = 0 := by
  rw [removeWallPair_apply m d0 hne, if_pos rfl]
  exact dir_clear_same (getOppositeWall_mem hd0) _

/-! ## Generic fold invariants -/

theorem foldl_inv {α σ : Type _} (step : σ → α → σ) (P : σ → Prop)
    (h : ∀ s a, P s → P (step s a)) :
    ∀ (l : List α) (s : σ), P s → P (l.foldl step s)
  | [], _, hs => hs
  | a :: l, s, hs => foldl_inv step P h l (step s a) (h s a hs)

theorem foldl_inv_mem {α σ : Type _} (step : σ → α → σ) (P : σ → Prop)
    (Q : α → Prop) (h : ∀ s a, Q a → P s → P (step s a)) :
    ∀ (l : List α), (∀ a ∈ l, Q a) → ∀ (s : σ), P s → P (l.foldl step s)
  | [], _, _, hs => hs
  | a :: l, hQ, s, hs =>
    foldl_inv_mem step P Q h l (fun b hb => hQ b (List.mem_cons_of_mem a hb))
      (step s a) (h s a (hQ a (List.mem_cons_self a l)) hs)

/-- Case analysis on the grid effect of one generator iteration: either the
maze is untouched, or one candidate wall with a valid neighbor is removed. -/
theorem genStep_maze_cases (nR nC : Nat) (s : GenState) (w : Wall) :
    (genStep nR nC s w).maze = s.maze ∨
    ∃ r2 c2, getNeighbor w.r w.c w.direction nR nC = some (r2, c2) ∧
      (genStep nR nC s w).maze =
        removeWallPair s.maze w.r w.c w.direction r2 c2 := by
  unfold genStep
  split_ifs with hbreak
  · exact Or.inl rfl
  · rcases hn : getNeighbor w.r w.c w.direction nR nC with _ | ⟨r2, c2⟩
    · exact Or.inl rfl
    · simp only []
      split_ifs with hroot

      · exact Or.inr ⟨r2, c2, rfl, rfl⟩
      · exact Or.inl rfl

/-! ## C3: wall symmetry is an invariant of generation -/

/-- Wall symmetry: for every in-grid cell and every resolvable direction,
the wall bit toward the neighbor is cleared iff the neighbor's opposite
wall bit is cleared. -/
def WallSymm (m : Grid) (nR nC : Nat) : Prop :=
  ∀ r c d r2 c2, r < nR → c < nC → d ∈ dirs6 →
    getNeighbor r c d nR nC = some (r2, c2) →
    (m r c &&& d = 0 ↔ m r2 c2 &&& getOppositeWall d = 0)

theorem WallSymm_removeWallPair {m : Grid} {nR nC : Nat} (hs : WallSymm m nR nC)
    {r1 c1 d0 r2 c2 : Nat} (h0 : getNeighbor r1 c1 d0 nR nC = some (r2, c2)) :
    WallSymm (removeWallPair m r1 c1 d0 r2 c2) nR nC := by
  have hd0 : d0 ∈ dirs6 := getNeighbor_dir_mem h0
  have hne : (r2, c2) ≠ (r1, c1) := getNeighbor_target_ne h0
  intro r c d r' c' hr hc hd hn
  by_cases hPB : (r, c) = (r2, c2)
  · obtain ⟨rfl, rfl⟩ : r = r2 ∧ c = c2 := Prod.mk.injEq .. ▸ hPB
    by_cases hdo : d = getOppositeWall d0
    · subst hdo
      have hrev := getNeighbor_rev hd0 h0
      rw [hn] at hrev
      by_cases hA : r1 < nR ∧ c1 < nC
      · rw [if_pos hA] at hrev
        obtain ⟨rfl, rfl⟩ : r' = r1 ∧ c' = c1 :=
          Prod.mk.injEq .. ▸ (Option.some.injEq .. ▸ hrev)
        rw [removeWallPair_land_clearedB m hne hd0, getOppositeWall_opp hd0,
          removeWallPair_land_clearedA m hne hd0]
      · rw [if_neg hA] at hrev
        exact Option.noConfusion hrev
    · have hA2 : getOppositeWall d ≠ d0 := fun hqq => by
        rw [← getOppositeWall_opp hd, hqq] at hdo
        exact hdo rfl
      rw [removeWallPair_land_untouched m hne hd0 hd (Or.inr hdo) (Or.inl hne),
        removeWallPair_land_untouched m hne hd0 (getOppositeWall_mem hd)
          (Or.inl (getNeighbor_target_ne hn)) (Or.inr hA2)]
      exact hs r c d r' c' hr hc hd hn
  · by_cases hPA : (r, c) = (r1, c1) ∧ d = d0
    · obtain ⟨hp, rfl⟩ := hPA
      obtain ⟨rfl, rfl⟩ : r = r1 ∧ c = c1 := Prod.mk.injEq .. ▸ hp
      rw [hn] at h0
      obtain ⟨rfl, rfl⟩ : r' = r2 ∧ c' = c2 :=
        Prod.mk.injEq .. ▸ (Option.some.injEq .. ▸ h0)
      rw [removeWallPair_land_clearedA m hne hd0,
        removeWallPair_land_clearedB m hne hd0]
    · have hAdisj := not_and_or.mp hPA
      have hQB : (r', c') ≠ (r2, c2) ∨ getOppositeWall d ≠ getOppositeWall d0 := by
        by_cases hq : (r', c') = (r2, c2) ∧ getOppositeWall d = getOppositeWall d0
        · exfalso
          obtain ⟨hq1, hq2⟩ := hq
          have hdd0 : d = d0 := getOppositeWall_inj hd hd0 hq2
          subst hdd0
          have hrev1 := getNeighbor_rev hd hn
          rw [if_pos ⟨hr, hc⟩] at hrev1
          have hrev0 := getNeighbor_rev hd h0
          obtain ⟨rfl, rfl⟩ : r' = r2 ∧ c' = c2 := Prod.mk.injEq .. ▸ hq1
          rw [hrev1] at hrev0
          by_cases hA : r1 < nR ∧ c1 < nC
          · rw [if_pos hA] at hrev0
            obtain ⟨h1, h2⟩ : r = r1 ∧ c = c1 :=
              Prod.mk.injEq .. ▸ (Option.some.injEq .. ▸ hrev0)
            exact hPA ⟨by rw [h1, h2], rfl⟩
          · rw [if_neg hA] at hrev0
            exact Option.noConfusion hrev0
        · exact not_and_or.mp hq
      have hQA : (r', c') ≠ (r1, c1) ∨ getOppositeWall d ≠ d0 := by
        by_cases hq : (r', c') = (r1, c1) ∧ getOppositeWall d = d0
        · exfalso
          obtain ⟨hq1, hq2⟩ := hq
          have hrev1 := getNeighbor_rev hd hn
          rw [if_pos ⟨hr, hc⟩] at hrev1
          obtain ⟨rfl, rfl⟩ : r' = r1 ∧ c' = c1 := Prod.mk.injEq .. ▸ hq1
          rw [hq2, h0] at hrev1
          obtain ⟨h1, h2⟩ : r2 = r ∧ c2 = c :=
            Prod.mk.injEq .. ▸ (Option.some.injEq .. ▸ hrev1)
          exact hPB (by rw [h1, h2])
        · exact not_and_or.mp hq
      rw [removeWallPair_land_untouched m hne hd0 hd (Or.inl hPB) hAdisj,
        removeWallPair_land_untouched m hne hd0 (getOppositeWall_mem hd) hQB hQA]
      exact hs r c d r' c' hr hc hd hn

theorem WallSymm_initialMaze (g0 : Grid) (nR nC : Nat) :
    WallSymm (initialMaze g0 nR nC) nR nC := by
  intro r c d r2 c2 hr hc hd hn
  have hlt := getNeighbor_target_lt hn
  unfold initialMaze
  rw [if_pos ⟨hr, hc⟩, if_pos ⟨hlt.1, hlt.2⟩]
  fin_cases hd <;> decide

/-- Wall symmetry holds for the state reached after processing any list of
candidates, starting from the all-walls grid — in particular at every point
between wall-removal steps and after generation completes. -/
theorem wallSymm_generateMaze (g0 : Grid) (nR nC : Nat) (l : List Wall) :
    WallSymm ((generateMaze g0 nR nC l).maze) nR nC := by
  unfold generateMaze
  refine foldl_inv (genStep nR nC) (fun s => WallSymm s.maze nR nC) ?_ l _
    (WallSymm_initialMaze g0 nR nC)
  intro s w hP
  rcases genStep_maze_cases nR nC s w with h | ⟨r2, c2, hnb, h⟩
  · rw [h]; exact hP
  · rw [h]; exact WallSymm_removeWallPair hP hnb

/-- C3: wall symmetry of the grid state.  Starting from the all-walls grid,
after processing any prefix of the candidate list (hence between any two
wall-removal steps, and after generation completes), for adjacent cells
`A → d → B` the wall bit `d` is set in `A` iff the opposite bit is set in
`B`. -/
theorem generateMaze_wall_symmetry (g0 : Grid) (nR nC : Nat) (l : List Wall)
    (r c d r2 c2 : Nat) (hr : r < nR) (hc : c < nC) (hd : d ∈ dirs6)
    (hn : getNeighbor r c d nR nC = some (r2, c2)) :
    ((generateMaze g0 nR nC l).maze r c &&& d = 0 ↔
      (generateMaze g0 nR nC l).maze r2 c2 &&& getOppositeWall d = 0) :=
  wallSymm_generateMaze g0 nR nC l r c d r2 c2 hr hc hd hn

/-- Witness for C3: the completed generation on a `2 × 2` grid with the
unshuffled candidate list, at the removed edge `(0,0) → DOWN → (1,0)`. -/
theorem generateMaze_wall_symmetry_witness :
    (0 < 2 ∧ 0 < 2 ∧ WALL_DOWN ∈ dirs6 ∧
      getNeighbor 0 0 WALL_DOWN 2 2 = some (1, 0)) ∧
    ((generateMaze (fun _ _ => 0) 2 2 (internalWalls 2 2)).maze 0 0 &&&
        WALL_DOWN = 0 ↔
      (generateMaze (fun _ _ => 0) 2 2 (internalWalls 2 2)).maze 1 0 &&&
        getOppositeWall WALL_DOWN = 0) :=
  ⟨⟨by decide, by decide, by decide, by decide⟩,
    generateMaze_wall_symmetry (fun _ _ => 0) 2 2 (internalWalls 2 2)
      0 0 WALL_DOWN 1 0 (by decide) (by decide) (by decide) (by decide)⟩

/-! ## C10: generation never opens a boundary wall -/

/-- Every in-grid wall bit whose neighbor resolution fails is still set. -/
def BoundarySet (m : Grid) (nR nC : Nat) : Prop :=
  ∀ r c d, r < nR → c < nC → d ∈ dirs6 → getNeighbor r c d nR nC = none →
    m r c &&& d = d

theorem BoundarySet_removeWallPair {m : Grid} {nR nC : Nat}
    (hs : BoundarySet m nR nC) {r1 c1 d0 r2 c2 : Nat}
    (h0 : getNeighbor r1 c1 d0 nR nC = some (r2, c2))
    (hA : r1 < nR ∧ c1 < nC) :
    BoundarySet (removeWallPair m r1 c1 d0 r2 c2) nR nC := by
  have hd0 : d0 ∈ dirs6 := getNeighbor_dir_mem h0
  have hne : (r2, c2) ≠ (r1, c1) := getNeighbor_target_ne h0
  intro r c d hr hc hd hn
  have hB : (r, c) ≠ (r2, c2) ∨ d ≠ getOppositeWall d0 := by
    by_cases hq : (r, c) = (r2, c2) ∧ d = getOppositeWall d0
    · exfalso
      obtain ⟨hq1, hq2⟩ := hq
      have hrev := getNeighbor_rev hd0 h0
      rw [if_pos hA] at hrev
      obtain ⟨rfl, rfl⟩ : r = r2 ∧ c = c2 := Prod.mk.injEq .. ▸ hq1
      rw [hq2, hrev] at hn
      exact Option.noConfusion hn
    · exact not_and_or.mp hq
  have hA2 : (r, c) ≠ (r1, c1) ∨ d ≠ d0 := by
    by_cases hq : (r, c) = (r1, c1) ∧ d = d0
    · exfalso
      obtain ⟨hq1, hq2⟩ := hq
      obtain ⟨rfl, rfl⟩ : r = r1 ∧ c = c1 := Prod.mk.injEq .. ▸ hq1
      rw [hq2, h0] at hn
      exact Option.noConfusion hn
    · exact not_and_or.mp hq
  rw [removeWallPair_land_untouched m hne hd0 hd hB hA2]
  exact hs r c d hr hc hd hn

theorem BoundarySet_initialMaze (g0 : Grid) (nR nC : Nat) :
    BoundarySet (initialMaze g0 nR nC) nR nC := by
  intro r c d hr hc hd _
  unfold initialMaze
  rw [if_pos ⟨hr, hc⟩]
  fin_cases hd <;> decide

/-- Every member of the enumerated candidate list names an in-grid cell and
one of the three enumerated directions, and its neighbor resolves. -/
theorem internalWalls_mem {nR nC : Nat} {w : Wall}
    (h : w ∈ internalWalls nR nC) :
    w.r < nR ∧ w.c < nC ∧
      (w.direction = WALL_DOWN ∨ w.direction = WALL_UP_RIGHT ∨
        w.direction = WALL_DOWN_RIGHT) ∧
      (getNeighbor w.r w.c w.direction nR nC).isSome := by
  simp only [internalWalls, List.mem_flatMap, List.mem_range] at h
  obtain ⟨r, hr, c, hc, hw⟩ := h
  simp only [cellCands, List.mem_append] at hw
  rcases hw with (hw | hw) | hw <;> split_ifs at hw with hsome <;>
    simp only [List.mem_singleton, List.not_mem_nil] at hw <;>
    subst hw <;> exact ⟨hr, hc, by simp, hsome⟩

theorem boundarySet_generateMaze (g0 : Grid) (nR nC : Nat) (l : List Wall)
    (hl : ∀ w ∈ l, w.r < nR ∧ w.c < nC) :
    BoundarySet ((generateMaze g0 nR nC l).maze) nR nC := by
  unfold generateMaze
  refine foldl_inv_mem (genStep nR nC) (fun s => BoundarySet s.maze nR nC)
    (fun w => w.r < nR ∧ w.c < nC) ?_ l hl _ (BoundarySet_initialMaze g0 nR nC)
  intro s w hQ hP
  rcases genStep_maze_cases nR nC s w with h | ⟨r2, c2, hnb, h⟩
  · rw [h]; exact hP
  · rw [h]; exact BoundarySet_removeWallPair hP hnb hQ

/-- C10: generation never opens the grid boundary.  After `generateMaze` on
a shuffle of the enumerated candidate list, every in-grid wall bit whose
neighbor resolution fails is still set. -/
theorem generateMaze_boundary (g0 : Grid) (nR nC : Nat) (l : List Wall)
    (hl : l.Perm (internalWalls nR nC)) (r c d : Nat)
    (hr : r < nR) (hc : c < nC) (hd : d ∈ dirs6)
    (hn : getNeighbor r c d nR nC = none) :
    (generateMaze g0 nR nC l).maze r c &&& d = d := by
  refine boundarySet_generateMaze g0 nR nC l ?_ r c d hr hc hd hn
  intro w hw
  have := internalWalls_mem (hl.mem_iff.mp hw)
  exact ⟨this.1, this.2.1⟩

/-- Witness for C10: on the generated `2 × 2` grid, the `UP` wall of the
top-left corner is still present. -/
theorem generateMaze_boundary_witness :
    ((internalWalls 2 2).Perm (internalWalls 2 2) ∧ 0 < 2 ∧ 0 < 2 ∧
      WALL_UP ∈ dirs6 ∧ getNeighbor 0 0 WALL_UP 2 2 = none) ∧
    (generateMaze (fun _ _ => 0) 2 2 (internalWalls 2 2)).maze 0 0 &&&
      WALL_UP = WALL_UP :=
  ⟨⟨List.Perm.refl _, by decide, by decide, by decide, by decide⟩,
    generateMaze_boundary (fun _ _ => 0) 2 2 (internalWalls 2 2)
      (List.Perm.refl _) 0 0 WALL_UP (by decide) (by decide) (by decide)
      (by decide)⟩

/-! ## C6: the candidate enumeration lists every internal edge exactly once -/

/-- Coordinate shape of a successful neighbor resolution, with the direction
recovered. -/
theorem getNeighbor_some_shape {r c d nR nC r2 c2 : Nat}
    (h : getNeighbor r c d nR nC = some (r2, c2)) :
    (d = WALL_UP ∧ r2 + 1 = r ∧ c2 = c) ∨
    (d = WALL_DOWN ∧ r2 = r + 1 ∧ c2 = c) ∨
    (d = WALL_UP_RIGHT ∧ r2 + 1 = r + c % 2 ∧ c2 = c + 1) ∨
    (d = WALL_DOWN_RIGHT ∧ r2 = r + c % 2 ∧ c2 = c + 1) ∨
    (d = WALL_UP_LEFT ∧ r2 + 1 = r + c % 2 ∧ c2 + 1 = c) ∨
    (d = WALL_DOWN_LEFT ∧ r2 = r + c % 2 ∧ c2 + 1 = c) := by
  have hd := getNeighbor_dir_mem h
  simp only [dirs6, List.mem_cons, List.not_mem_nil, or_false] at hd
  rcases hd with h1 | h1 | h1 | h1 | h1 | h1 <;> subst h1 <;>
    [ rw [getNeighbor_UP] at h; rw [getNeighbor_DOWN] at h;
      rw [getNeighbor_UP_LEFT] at h; rw [getNeighbor_UP_RIGHT] at h;
      rw [getNeighbor_DOWN_LEFT] at h; rw [getNeighbor_DOWN_RIGHT] at h ] <;>
    split_ifs at h with hcond <;>
    simp only [Option.some.injEq, Prod.mk.injEq] at h <;>
    [ exact Or.inl ⟨rfl, by omega⟩;
      exact Or.inr (Or.inl ⟨rfl, by omega⟩);
      exact Or.inr (Or.inr (Or.inr (Or.inr (Or.inl ⟨rfl, by omega⟩))));
      exact Or.inr (Or.inr (Or.inl ⟨rfl, by omega⟩));
      exact Or.inr (Or.inr (Or.inr (Or.inr (Or.inr ⟨rfl, by omega⟩))));
      exact Or.inr (Or.inr (Or.inr (Or.inl ⟨rfl, by omega⟩))) ]

/-- Two directions from the same cell that resolve to the same neighbor are
equal. -/
theorem getNeighbor_inj_dir {r c d1 d2 nR nC : Nat} {p : Nat × Nat}
    (h1 : getNeighbor r c d1 nR nC = some p)
    (h2 : getNeighbor r c d2 nR nC = some p) : d1 = d2 := by
  obtain ⟨pr, pc⟩ := p
  have s1 := getNeighbor_some_shape h1
  have s2 := getNeighbor_some_shape h2
  rcases s1 with ⟨e1, v1⟩ | ⟨e1, v1⟩ | ⟨e1, v1⟩ | ⟨e1, v1⟩ | ⟨e1, v1⟩ | ⟨e1, v1⟩ <;>
    rcases s2 with ⟨e2, v2⟩ | ⟨e2, v2⟩ | ⟨e2, v2⟩ | ⟨e2, v2⟩ | ⟨e2, v2⟩ | ⟨e2, v2⟩ <;>
    subst e1 <;> subst e2 <;>
    first
      | rfl
      | (exfalso; revert v1 v2; decide)
      | (exfalso; omega)

theorem cellCands_mem {nR nC r c : Nat} {w : Wall} (h : w ∈ cellCands nR nC r c) :
    w.r = r ∧ w.c = c ∧
      (w.direction = WALL_DOWN ∨ w.direction = WALL_UP_RIGHT ∨
        w.direction = WALL_DOWN_RIGHT) ∧
      (getNeighbor r c w.direction nR nC).isSome := by
  simp only [cellCands, List.mem_append] at h
  rcases h with (h | h) | h <;> split_ifs at h with hs <;>
    simp only [List.mem_singleton, List.not_mem_nil] at h <;>
    subst h <;> exact ⟨rfl, rfl, by simp, hs⟩

theorem mem_internalWalls_of {nR nC x y δ : Nat} (hx : x < nR) (hy : y < nC)
    (hδ : δ = WALL_DOWN ∨ δ = WALL_UP_RIGHT ∨ δ = WALL_DOWN_RIGHT)
    (hs : (getNeighbor x y δ nR nC).isSome = true) :
    (⟨x, y, δ⟩ : Wall) ∈ internalWalls nR nC := by
  simp only [internalWalls, List.mem_flatMap, List.mem_range]
  refine ⟨x, hx, y, hy, ?_⟩
  simp only [cellCands, List.mem_append]
  rcases hδ with rfl | rfl | rfl
  · exact Or.inl (Or.inl (by rw [if_pos hs]; exact List.mem_singleton_self _))
  · exact Or.inl (Or.inr (by rw [if_pos hs]; exact List.mem_singleton_self _))
  · exact Or.inr (by rw [if_pos hs]; exact List.mem_singleton_self _)

theorem internalWalls_nodup (nR nC : Nat) : (internalWalls nR nC).Nodup := by
  unfold internalWalls
  rw [List.nodup_flatMap]
  constructor
  · intro r _
    rw [List.nodup_flatMap]
    constructor
    · intro c _
      unfold cellCands
      split_ifs <;> simp [Wall.mk.injEq, WALL_DOWN, WALL_UP_RIGHT, WALL_DOWN_RIGHT]
    · refine List.Pairwise.imp ?_ (List.nodup_range nC)
      intro c1 c2 hne
      simp only [Function.onFun]
      intro w hw1 hw2
      exact hne ((cellCands_mem hw1).2.1 ▸ (cellCands_mem hw2).2.1 ▸ rfl)
  · refine List.Pairwise.imp ?_ (List.nodup_range nR)
    intro r1 r2 hne
    simp only [Function.onFun]
    intro w hw1 hw2
    simp only [List.mem_flatMap, List.mem_range] at hw1 hw2
    obtain ⟨c1, _, hm1⟩ := hw1
    obtain ⟨c2, _, hm2⟩ := hw2
    exact hne ((cellCands_mem hm1).1 ▸ (cellCands_mem hm2).1 ▸ rfl)

/-- `w` denotes the undirected edge `{A, B}`: it is a candidate triple whose
cell is one endpoint and whose resolved neighbor is the other. -/
def denotes (nR nC : Nat) (A B : Nat × Nat) (w : Wall) : Bool :=
  ((getNeighbor w.r w.c w.direction nR nC == some B) && ((w.r, w.c) == A)) ||
  ((getNeighbor w.r w.c w.direction nR nC == some A) && ((w.r, w.c) == B))

theorem denotes_iff {nR nC : Nat} {A B : Nat × Nat} {w : Wall} :
    denotes nR nC A B w = true ↔
      (getNeighbor w.r w.c w.direction nR nC = some B ∧ (w.r, w.c) = A) ∨
      (getNeighbor w.r w.c w.direction nR nC = some A ∧ (w.r, w.c) = B) := by
  simp [denotes]

/-- The three enumerated directions are never the opposite of one another. -/
theorem enum_dir_not_opp {δ1 δ2 : Nat}
    (h1 : δ1 = WALL_DOWN ∨ δ1 = WALL_UP_RIGHT ∨ δ1 = WALL_DOWN_RIGHT)
    (h2 : δ2 = WALL_DOWN ∨ δ2 = WALL_UP_RIGHT ∨ δ2 = WALL_DOWN_RIGHT) :
    δ2 ≠ getOppositeWall δ1 := by
  rcases h1 with rfl | rfl | rfl <;> rcases h2 with rfl | rfl | rfl <;> decide

theorem denotes_unique {nR nC : Nat} {A B : Nat × Nat} {w1 w2 : Wall}
    (h1 : w1 ∈ internalWalls nR nC) (h2 : w2 ∈ internalWalls nR nC)
    (hd1 : denotes nR nC A B w1 = true) (hd2 : denotes nR nC A B w2 = true) :
    w1 = w2 := by
  obtain ⟨a1, a2⟩ := A
  obtain ⟨b1, b2⟩ := B
  obtain ⟨u1, v1, δ1⟩ := w1
  obtain ⟨u2, v2, δ2⟩ := w2
  obtain ⟨hx1, hy1, hδ1, _⟩ := internalWalls_mem h1
  obtain ⟨hx2, hy2, hδ2, _⟩ := internalWalls_mem h2
  simp only at hx1 hy1 hδ1 hx2 hy2 hδ2
  have hδ1' : δ1 ∈ dirs6 := by rcases hδ1 with rfl | rfl | rfl <;> decide
  have hδ2' : δ2 ∈ dirs6 := by rcases hδ2 with rfl | rfl | rfl <;> decide
  rw [denotes_iff] at hd1 hd2
  simp only at hd1 hd2
  rcases hd1 with ⟨hn1, he1⟩ | ⟨hn1, he1⟩ <;>
    rcases hd2 with ⟨hn2, he2⟩ | ⟨hn2, he2⟩ <;>
    obtain ⟨rfl, rfl⟩ : _ ∧ _ := Prod.mk.injEq .. ▸ he1 <;>
    obtain ⟨e1, e2⟩ : _ ∧ _ := Prod.mk.injEq .. ▸ he2
  · -- both candidates sit at A and point to B
    subst e1; subst e2
    rw [getNeighbor_inj_dir hn1 hn2]
  · -- w1 at A pointing to B, w2 at B pointing to A: impossible
    exfalso
    subst e1; subst e2
    have hrev := getNeighbor_rev hδ1' hn1
    rw [if_pos ⟨hx1, hy1⟩] at hrev
    exact enum_dir_not_opp hδ1 hδ2 (getNeighbor_inj_dir hn2 hrev)
  · -- symmetric cross case
    exfalso
    subst e1; subst e2
    have hrev := getNeighbor_rev hδ2' hn2
    rw [if_pos ⟨hx2, hy2⟩] at hrev
    exact enum_dir_not_opp hδ2 hδ1 (getNeighbor_inj_dir hn1 hrev)
  · -- both candidates sit at B and point to A
    subst e1; subst e2
    rw [getNeighbor_inj_dir hn1 hn2]

theorem countP_eq_one_of_unique {α : Type _} {l : List α} {p : α → Bool} {w : α}
    (hnd : l.Nodup) (hw : w ∈ l) (hpw : p w = true)
    (huniq : ∀ x ∈ l, p x = true → x = w) : l.countP p = 1 := by
  induction l with
  | nil => cases hw
  | cons a l ih =>
    rw [List.countP_cons]
    rcases List.mem_cons.mp hw with rfl | hwl
    · rw [hpw, if_pos rfl]
      have h0 : l.countP p = 0 := by
        rw [List.countP_eq_zero]
        intro x hx hpx
        have := huniq x (List.mem_cons_of_mem _ hx) hpx
        subst this
        exact (List.nodup_cons.mp hnd).1 hx
      omega
    · have hpa : p a = false := by
        by_contra hpa
        have := huniq a (List.mem_cons_self a l) (Bool.of_not_eq_false hpa)
        subst this
        exact (List.nodup_cons.mp hnd).1 hwl
      rw [hpa, if_neg Bool.false_ne_true]
      have := ih (List.nodup_cons.mp hnd).2 hwl
        (fun x hx hpx => huniq x (List.mem_cons_of_mem _ hx) hpx)
      omega

/-- C6: the candidate enumeration produces every undirected internal edge of
the grid exactly once — for every adjacent pair `{A, B}` exactly one triple
in `internalWalls` denotes it. -/
theorem internalWalls_edge_once (nR nC : Nat) (A B : Nat × Nat)
    (hA : A.1 < nR ∧ A.2 < nC)
    (hadj : ∃ d ∈ dirs6, getNeighbor A.1 A.2 d nR nC = some B) :
    (internalWalls nR nC).countP (denotes nR nC A B) = 1 := by
  obtain ⟨d, hd, hn⟩ := hadj
  have hBlt : B.1 < nR ∧ B.2 < nC := by
    obtain ⟨b1, b2⟩ := B
    exact getNeighbor_target_lt hn
  have hrev := getNeighbor_rev hd (show getNeighbor A.1 A.2 d nR nC =
    some (B.1, B.2) by rw [hn])
  rw [if_pos hA] at hrev
  -- pick the canonical candidate for this edge
  have key : ∃ w ∈ internalWalls nR nC, denotes nR nC A B w = true := by
    fin_cases hd
    · -- UP: candidate is (B, DOWN)
      have hrev' : getNeighbor B.1 B.2 WALL_DOWN nR nC = some (A.1, A.2) := hrev
      refine ⟨⟨B.1, B.2, WALL_DOWN⟩, mem_internalWalls_of hBlt.1 hBlt.2
        (Or.inl rfl) (by rw [hrev']; rfl), ?_⟩
      rw [denotes_iff]
      exact Or.inr ⟨hrev', rfl⟩
    · -- DOWN: candidate is (A, DOWN)
      refine ⟨⟨A.1, A.2, WALL_DOWN⟩, mem_internalWalls_of hA.1 hA.2
        (Or.inl rfl) (by rw [hn]; rfl), ?_⟩
      rw [denotes_iff]
      exact Or.inl ⟨hn, rfl⟩
    · -- UP_LEFT: candidate is (B, DOWN_RIGHT)
      have hrev' : getNeighbor B.1 B.2 WALL_DOWN_RIGHT nR nC =
        some (A.1, A.2) := hrev
      refine ⟨⟨B.1, B.2, WALL_DOWN_RIGHT⟩, mem_internalWalls_of hBlt.1 hBlt.2
        (Or.inr (Or.inr rfl)) (by rw [hrev']; rfl), ?_⟩
      rw [denotes_iff]
      exact Or.inr ⟨hrev', rfl⟩
    · -- UP_RIGHT: candidate is (A, UP_RIGHT)
      refine ⟨⟨A.1, A.2, WALL_UP_RIGHT⟩, mem_internalWalls_of hA.1 hA.2
        (Or.inr (Or.inl rfl)) (by rw [hn]; rfl), ?_⟩
      rw [denotes_iff]
      exact Or.inl ⟨hn, rfl⟩
    · -- DOWN_LEFT: candidate is (B, UP_RIGHT)
      have hrev' : getNeighbor B.1 B.2 WALL_UP_RIGHT nR nC =
        some (A.1, A.2) := hrev
      refine ⟨⟨B.1, B.2, WALL_UP_RIGHT⟩, mem_internalWalls_of hBlt.1 hBlt.2
        (Or.inr (Or.inl rfl)) (by rw [hrev']; rfl), ?_⟩
      rw [denotes_iff]
      exact Or.inr ⟨hrev', rfl⟩
    · -- DOWN_RIGHT: candidate is (A, DOWN_RIGHT)
      refine ⟨⟨A.1, A.2, WALL_DOWN_RIGHT⟩, mem_internalWalls_of hA.1 hA.2
        (Or.inr (Or.inr rfl)) (by rw [hn]; rfl), ?_⟩
      rw [denotes_iff]
      exact Or.inl ⟨hn, rfl⟩
  obtain ⟨w, hwmem, hwden⟩ := key
  exact countP_eq_one_of_unique (internalWalls_nodup nR nC) hwmem hwden
    (fun x hx hpx => denotes_unique hx hwmem hpx hwden)

/-- Witness for C6: the edge `{(0,0), (1,0)}` of the `2 × 2` grid is
denoted by exactly one candidate. -/
theorem internalWalls_edge_once_witness :
    (((0 : Nat), (0 : Nat)).1 < 2 ∧ ((0 : Nat), (0 : Nat)).2 < 2 ∧
      (∃ d ∈ dirs6, getNeighbor 0 0 d 2 2 = some (1, 0))) ∧
    (internalWalls 2 2).countP (denotes 2 2 (0, 0) (1, 0)) = 1 :=
  ⟨⟨by decide, by decide, by decide⟩,
    internalWalls_edge_once 2 2 (0, 0) (1, 0) ⟨by decide, by decide⟩
      (by decide)⟩

/-! ## `solveMazeBFS` from `main.cpp`

The solver clears all `VISITED` flags, runs a breadth-first traversal from
the goal cell (bottom-right) filling the `count` table, and then traces the
path from the start cell (top-left) marking cells with `VISITED`.

The `count` array of the source is embedded as a total map defaulting to
`-1`; the queue of cell indices is a FIFO list.  The BFS `while` loop gets
fuel `2 * nR * nC`, shown sufficient by `bfsLoop_complete` below; the trace
loop gets fuel `count[start] + 1`, sufficient because the traced distance
decreases by one each step.  The ghost `pushes` component records every
index ever enqueued (it does not influence the computation) so that the
"each cell enters the queue at most once" part of the spec can be stated. -/

def updateCount (count : Nat → Nat → Int) (r c : Nat) (v : Int) :
    Nat → Nat → Int :=
  fun r' c' => if r' = r then (if c' = c then v else count r' c') else count r' c'

def clearVisited (g : Grid) (nR nC : Nat) : Grid :=
  fun r c => if r < nR ∧ c < nC then g r c &&& (255 ^^^ VISITED) else g r c

/-- BFS state: the `count` table, the queue, and the ghost push log. -/
def BfsState : Type := (Nat → Nat → Int) × List Nat × List Nat

/-- Processing of a single direction for the dequeued cell `(r,c)`:
if no wall blocks it, the neighbor resolves, and the neighbor is unvisited,
assign `count[r][c] + 1` and enqueue it. -/
def bfsVisit (nR nC : Nat) (maze : Grid) (r c : Nat) (st : BfsState)
    (dir : Nat) : BfsState :=
  if maze r c &&& dir = 0 then
    match getNeighbor r c dir nR nC with
    | some (nbR, nbC) =>
      if st.1 nbR nbC = -1 then
        (updateCount st.1 nbR nbC (st.1 r c + 1),
          st.2.1 ++ [nbR * nC + nbC], st.2.2 ++ [nbR * nC + nbC])
      else st
    | none => st
  else st

/-- The BFS `while (!q.empty())` loop. -/
def bfsLoop (nR nC : Nat) (maze : Grid) : Nat → BfsState → BfsState
  | 0, st => st
  | fuel + 1, st =>
    match h : st.2.1 with
    | [] => st
    | currentIdx :: rest =>
      bfsLoop nR nC maze fuel
        (dirs6.foldl (bfsVisit nR nC maze (currentIdx / nC) (currentIdx % nC))
          (st.1, rest, st.2.2))

/-- Distance-labeling phase of `solveMazeBFS` (steps 1–3 of the source):
clear `VISITED`, seed the goal cell with distance 0, and run the BFS. -/
def solveCountsFull (g : Grid) (nR nC : Nat) : BfsState :=
  bfsLoop nR nC (clearVisited g nR nC) (2 * (nR * nC))
    (updateCount (fun _ _ => -1) (nR - 1) (nC - 1) 0,
      [(nR - 1) * nC + (nC - 1)], [(nR - 1) * nC + (nC - 1)])

def solveCounts (g : Grid) (nR nC : Nat) : Nat → Nat → Int :=
  (solveCountsFull g nR nC).1

/-- The scan over the six directions in the path-trace loop, in source
order, returning the first open neighbor whose count is one less. -/
def scanDirs (maze : Grid) (count : Nat → Nat → Int) (nR nC r c : Nat) :
    List Nat → Option (Nat × Nat)
  | [] => none
  | d :: ds =>
    if maze r c &&& d = 0 then
      match getNeighbor r c d nR nC with
      | some (nbR, nbC) =>
        if count nbR nbC = count r c - 1 then some (nbR, nbC)
        else scanDirs maze count nR nC r c ds
      | none => scanDirs maze count nR nC r c ds
    else scanDirs maze count nR nC r c ds

/-- The `while (count[currentR][currentC] != 0)` trace loop: step to the
first open neighbor with count one less and mark it `VISITED`; abort when
no such neighbor exists. -/
def traceLoop (nR nC : Nat) (count : Nat → Nat → Int) :
    Nat → Grid → Nat → Nat → Grid
  | 0, maze, _, _ => maze
  | fuel + 1, maze, r, c =>
    if count r c ≠ 0 then
      match scanDirs maze count nR nC r c dirs6 with
      | some (nbR, nbC) =>
        traceLoop nR nC count fuel
          (setCell maze nbR nbC (maze nbR nbC ||| VISITED)) nbR nbC
      | none => maze
    else maze

/-- `solveMazeBFS` from `main.cpp`.  The `endR >= nR || endC >= nC` guard of
the source fires (after `uint32_t` wrap-around of `nR - 1`) exactly when
`nR = 0 ∨ nC = 0`, in which case the function returns right after the
clearing loop (which touched nothing). -/
def solveMazeBFS (g : Grid) (nR nC : Nat) : Grid :=
  if nR = 0 ∨ nC = 0 then clearVisited g nR nC
  else if solveCounts g nR nC 0 0 = -1 then clearVisited g nR nC
  else
    traceLoop nR nC (solveCounts g nR nC) ((solveCounts g nR nC 0 0).toNat + 1)
      (setCell (clearVisited g nR nC) 0 0
        ((clearVisited g nR nC) 0 0 ||| VISITED)) 0 0

/-! ## C9: the solver only ever touches the `VISITED` bit -/

theorem lor_land_of_land_eq_zero (v a b : Nat) (h : a &&& b = 0) :
    (v ||| a) &&& b = v &&& b := by
  apply Nat.eq_of_testBit_eq
  intro i
  have h0 : (a &&& b).testBit i = false := by rw [h]; exact Nat.zero_testBit i
  rw [Nat.testBit_land] at h0
  simp only [Nat.testBit_land, Nat.testBit_lor]
  cases hva : v.testBit i <;> cases ha : a.testBit i <;> cases hb : b.testBit i <;>
    simp_all

theorem traceLoop_mask (nR nC : Nat) (count : Nat → Nat → Int) :
    ∀ (fuel : Nat) (m : Grid) (r c X Y : Nat),
      traceLoop nR nC count fuel m r c X Y &&& (255 ^^^ VISITED) =
        m X Y &&& (255 ^^^ VISITED)
  | 0, m, r, c, X, Y => rfl
  | fuel + 1, m, r, c, X, Y => by
    unfold traceLoop
    split_ifs with h
    · rcases hs : scanDirs m count nR nC r c dirs6 with _ | ⟨nbR, nbC⟩
      · rfl
      · rw [traceLoop_mask nR nC count fuel _ nbR nbC X Y]
        by_cases hxy : (X, Y) = (nbR, nbC)
        · obtain ⟨rfl, rfl⟩ : X = nbR ∧ Y = nbC := Prod.mk.injEq .. ▸ hxy
          rw [setCell_self]
          exact lor_land_of_land_eq_zero _ _ _ (by decide)
        · rw [setCell_other _ _ _ _ _ _ hxy]
    · rfl

/-- C9: the solver mutates only the path flag.  For every cell (inside the
grid or not) and on every execution path (success, unreachable goal, or
trace abort), all bits other than `VISITED` — the six wall bits and the
dead-end bit — survive `solveMazeBFS` unchanged. -/
theorem solveMazeBFS_frame (g : Grid) (nR nC X Y : Nat) :
    solveMazeBFS g nR nC X Y &&& (255 ^^^ VISITED) =
      g X Y &&& (255 ^^^ VISITED) := by
  have hclear : ∀ X Y : Nat, clearVisited g nR nC X Y &&& (255 ^^^ VISITED) =
      g X Y &&& (255 ^^^ VISITED) := by
    intro X Y
    unfold clearVisited
    split_ifs with h
    · exact land_absorb _ (by decide)
    · rfl
  unfold solveMazeBFS
  split_ifs with h1 h2
  · exact hclear X Y
  · exact hclear X Y
  · rw [traceLoop_mask]
    by_cases hxy : (X, Y) = (0, 0)
    · obtain ⟨rfl, rfl⟩ : X = 0 ∧ Y = 0 := Prod.mk.injEq .. ▸ hxy
      rw [setCell_self, lor_land_of_land_eq_zero _ _ _ (by decide)]
      exact hclear 0 0
    · rw [setCell_other _ _ _ _ _ _ hxy]
      exact hclear X Y

/-! ## C7: unreachable goal — no path flags set, walls untouched -/

/-- C7: when the start cell keeps the `-1` sentinel after distance labeling,
the solver stops after the flag-clearing pass: every in-grid cell has a
clear path flag and its six wall bits exactly as on entry. -/
theorem solveMazeBFS_unreachable (g : Grid) (nR nC : Nat)
    (hR : 1 ≤ nR) (hC : 1 ≤ nC) (hcount : solveCounts g nR nC 0 0 = -1) :
    ∀ r c, r < nR → c < nC →
      solveMazeBFS g nR nC r c &&& VISITED = 0 ∧
      solveMazeBFS g nR nC r c &&& ALL_WALLS = g r c &&& ALL_WALLS := by
  intro r c hr hc
  unfold solveMazeBFS
  rw [if_neg (by omega), if_pos hcount]
  unfold clearVisited
  rw [if_pos ⟨hr, hc⟩]
  exact ⟨land_kill _ (by decide), land_absorb _ (by decide)⟩

/-- Witness for C7: the all-walls `2 × 2` grid, where BFS from the goal
reaches nothing, in particular not the start. -/
theorem solveMazeBFS_unreachable_witness :
    (1 ≤ 2 ∧ 1 ≤ 2 ∧ solveCounts (fun _ _ => ALL_WALLS) 2 2 0 0 = -1) ∧
    (0 < 2 → 0 < 2 →
      solveMazeBFS (fun _ _ => ALL_WALLS) 2 2 0 0 &&& VISITED = 0 ∧
      solveMazeBFS (fun _ _ => ALL_WALLS) 2 2 0 0 &&& ALL_WALLS =
        (fun _ _ => ALL_WALLS : Grid) 0 0 &&& ALL_WALLS) :=
  ⟨⟨by decide, by decide, by decide⟩, fun h1 h2 =>
    solveMazeBFS_unreachable (fun _ _ => ALL_WALLS) 2 2 (by decide) (by decide)
      (by decide) 0 0 h1 h2⟩

/-! ## Semantics of the union-find structure

`iterP p k i` follows `k` parent links; `rootD n p i = iterP p n i` is the
representative of `i` (the chain fixpoint, reached within `n` steps on every
state the generator produces).  `DSUInv` packages wellformedness: `parent`
is the identity outside `0..n-1`, closed below `n`, and every chain reaches
a root in at most `n - numClasses` steps — the slack that keeps fuel `n`
sufficient even after a `unite` lengthens chains by one. -/

def iterP (p : Nat → Nat) : Nat → Nat → Nat
  | 0, i => i
  | k + 1, i => iterP p k (p i)

def rootD (n : Nat) (p : Nat → Nat) (i : Nat) : Nat := iterP p n i

def isRoot (p : Nat → Nat) (i : Nat) : Prop := p i = i

def numClasses (n : Nat) (p : Nat → Nat) : Nat :=
  ((Finset.range n).image (rootD n p)).card

def DSUInv (n : Nat) (p : Nat → Nat) : Prop :=
  (∀ i, n ≤ i → p i = i) ∧ (∀ i, i < n → p i < n) ∧
  (∀ i, i < n → ∃ k, k + numClasses n p ≤ n ∧ isRoot p (iterP p k i))

theorem iterP_succ_out (p : Nat → Nat) :
    ∀ (k i : Nat), iterP p (k + 1) i = p (iterP p k i)
  | 0, _ => rfl
  | k + 1, i => iterP_succ_out p k (p i)

theorem iterP_add (p : Nat → Nat) (a b i : Nat) :
    iterP p (a + b) i = iterP p b (iterP p a i) := by
  induction a generalizing i with
  | zero => rw [Nat.zero_add]; rfl
  | succ a ih =>
    have h1 : a + 1 + b = (a + b) + 1 := by omega
    rw [h1]
    show iterP p (a + b) (p i) = iterP p b (iterP p a (p i))
    exact ih (p i)

theorem isRoot_iterP {p : Nat → Nat} {r : Nat} (h : isRoot p r) (k : Nat) :
    iterP p k r = r := by
  induction k with
  | zero => rfl
  | succ k ih => rw [iterP_succ_out, ih, h]

theorem iterP_root_unique {p : Nat → Nat} {a b i : Nat}
    (ha : isRoot p (iterP p a i)) (hb : isRoot p (iterP p b i)) :
    iterP p a i = iterP p b i := by
  rcases Nat.le_total a b with h | h
  · obtain ⟨d, rfl⟩ := Nat.le.dest h
    rw [iterP_add, isRoot_iterP ha]
  · obtain ⟨d, rfl⟩ := Nat.le.dest h
    rw [iterP_add, isRoot_iterP hb]

theorem rootD_of_reach {n : Nat} {p : Nat → Nat} {i k : Nat} (hk : k ≤ n)
    (h : isRoot p (iterP p k i)) :
    rootD n p i = iterP p k i ∧ isRoot p (rootD n p i) := by
  obtain ⟨d, rfl⟩ := Nat.le.dest hk
  unfold rootD
  rw [iterP_add, isRoot_iterP h]
  exact ⟨rfl, h⟩

theorem iterP_lt {n : Nat} {p : Nat → Nat} (hc : ∀ i, i < n → p i < n)
    {i : Nat} (hi : i < n) (k : Nat) : iterP p k i < n := by
  induction k generalizing i with
  | zero => exact hi
  | succ k ih => exact ih (hc i hi)

theorem numClasses_pos {n : Nat} (p : Nat → Nat) (hn : 1 ≤ n) :
    1 ≤ numClasses n p := by
  have : rootD n p 0 ∈ (Finset.range n).image (rootD n p) :=
    Finset.mem_image_of_mem _ (Finset.mem_range.mpr hn)
  exact Finset.card_pos.mpr ⟨_, this⟩

/-- For a wellformed DSU state, the root of every element is a fixpoint
reached within `n - numClasses` steps. -/
theorem DSUInv_root {n : Nat} {p : Nat → Nat} (h : DSUInv n p) (i : Nat) :
    isRoot p (rootD n p i) := by
  by_cases hi : i < n
  · obtain ⟨k, hk, hr⟩ := h.2.2 i hi
    have h1 : 1 ≤ numClasses n p := numClasses_pos p (by omega)
    exact (rootD_of_reach (by omega) hr).2
  · have hfix : p i = i := h.1 i (by omega)
    have : iterP p n i = i := isRoot_iterP hfix n
    unfold rootD
    rw [this]
    exact hfix

theorem rootD_lt {n : Nat} {p : Nat → Nat} (h : DSUInv n p) {i : Nat}
    (hi : i < n) : rootD n p i < n :=
  iterP_lt h.2.1 hi n

theorem rootD_of_isRoot {n : Nat} {p : Nat → Nat} {r : Nat}
    (h : isRoot p r) : rootD n p r = r :=
  isRoot_iterP h n

/-- Specification of `findAux`: if `i` reaches a root within the fuel, the
first component is that root, and the returned parent map agrees with `p`
except that some elements whose root is `r` now point directly at `r`. -/
theorem findAux_spec (p : Nat → Nat) :
    ∀ (f k i : Nat), k < f → isRoot p (iterP p k i) →
      (findAux f p i).1 = iterP p k i ∧
      (∀ j, (findAux f p i).2 j = p j ∨
        ((findAux f p i).2 j = iterP p k i ∧
          ∃ m, iterP p m j = iterP p k i)) := by
  intro f
  induction f with
  | zero => intro k i hk; omega
  | succ f ih =>
    intro k i hk hr
    unfold findAux
    by_cases hroot : p i = i
    · rw [if_pos hroot]
      have : iterP p k i = i := isRoot_iterP hroot k
      exact ⟨this.symm, fun j => Or.inl rfl⟩
    · rw [if_neg hroot]
      rcases k with _ | k'
      · exact absurd hr hroot
      · have hr' : isRoot p (iterP p k' (p i)) := hr
        have hk' : k' < f := by omega
        obtain ⟨ih1, ih2⟩ := ih k' (p i) hk' hr'
        constructor
        · show (findAux f p (p i)).1 = iterP p (k' + 1) i
          rw [ih1]
          rfl
        · intro j
          show (if j = i then (findAux f p (p i)).1
              else (findAux f p (p i)).2 j) = p j ∨
            ((if j = i then (findAux f p (p i)).1
              else (findAux f p (p i)).2 j) = iterP p (k' + 1) i ∧
              ∃ m, iterP p m j = iterP p (k' + 1) i)
          by_cases hj : j = i
          · subst hj
            rw [if_pos rfl, ih1]
            exact Or.inr ⟨rfl, ⟨k' + 1, rfl⟩⟩
          · rw [if_neg hj]
            rcases ih2 j with h | ⟨h1, m, h2⟩
            · exact Or.inl h
            · exact Or.inr ⟨by rw [h1]; rfl, ⟨m, h2⟩⟩

/-- Path compression preserves chains: any element whose chain reaches a
`p`-root reaches the same value, in the same number of steps, in the
compressed map. -/
theorem compress_iterP {p q : Nat → Nat} {r : Nat} (hr : isRoot p r)
    (hq : ∀ j, q j = p j ∨ (q j = r ∧ ∃ m, iterP p m j = r)) :
    ∀ (k j : Nat), isRoot p (iterP p k j) →
      iterP q k j = iterP p k j ∧ isRoot q (iterP q k j) := by
  have hqr : q r = r := by
    rcases hq r with h | ⟨h, _⟩
    · rw [h]; exact hr
    · exact h
  intro k
  induction k with
  | zero =>
    intro j hj
    have hj' : isRoot p j := hj
    have hqj : q j = j := by
      rcases hq j with h | ⟨h1, m, h2⟩
      · rw [h]; exact hj'
      · rw [isRoot_iterP hj' m] at h2
        rw [h1, ← h2]
    exact ⟨rfl, by rw [iterP]; exact hqj⟩
  | succ k ih =>
    intro j hj
    rcases hq j with h | ⟨h1, m, h2⟩
    · have : iterP q (k + 1) j = iterP q k (p j) := by
        show iterP q k (q j) = _
        rw [h]
      rw [this]
      exact ih (p j) hj
    · -- j's root is r; the whole remaining chain collapses to r
      have hroot_eq : iterP p (k + 1) j = r := by
        have h2' : isRoot p (iterP p m j) := by rw [h2]; exact hr
        rw [iterP_root_unique hj h2', h2]
      have : iterP q (k + 1) j = iterP q k r := by
        show iterP q k (q j) = _
        rw [h1]
      rw [this, isRoot_iterP (show isRoot q r from hqr) k, hroot_eq]
      exact ⟨rfl, hqr⟩

/-- `findAux` with fuel `n` on a wellformed state: the result is the
representative of `i`, wellformedness is preserved, and every element keeps
its representative. -/
theorem find_preserves {n : Nat} {p : Nat → Nat} (hinv : DSUInv n p)
    {i : Nat} (hi : i < n) :
    (findAux n p i).1 = rootD n p i ∧
    (∀ j, rootD n (findAux n p i).2 j = rootD n p j) ∧
    numClasses n (findAux n p i).2 = numClasses n p ∧
    DSUInv n (findAux n p i).2 := by
  obtain ⟨k, hk, hr⟩ := hinv.2.2 i hi
  have hC := numClasses_pos p (show 1 ≤ n by omega)
  have hkn : k < n := by omega
  obtain ⟨h1, h2⟩ := findAux_spec p n k i hkn hr
  have hcomp := compress_iterP hr h2
  have hrootD : rootD n p i = iterP p k i := (rootD_of_reach (by omega) hr).1
  have hroots : ∀ j, rootD n (findAux n p i).2 j = rootD n p j ∧
      isRoot (findAux n p i).2 (rootD n p j) := by
    intro j
    by_cases hjn : j < n
    · obtain ⟨kj, hkj, hrj⟩ := hinv.2.2 j hjn
      have hrn : isRoot p (iterP p n j) := by
        obtain ⟨e, hroot⟩ := rootD_of_reach (show kj ≤ n by omega) hrj
        rw [show iterP p n j = rootD n p j from rfl, e, ← e]
        exact hroot
      obtain ⟨hv, hR⟩ := hcomp n j hrn
      refine ⟨hv, ?_⟩
      rw [show rootD n p j = iterP p n j from rfl, ← hv]
      exact hR
    · have hfix : p j = j := hinv.1 j (by omega)
      have hrj : isRoot p (iterP p 0 j) := hfix
      obtain ⟨hv, hR⟩ := hcomp 0 j hrj
      have hq0 : (findAux n p i).2 j = j := by
        have : isRoot (findAux n p i).2 j := hR
        exact this
      have hqroot : isRoot (findAux n p i).2 j := hq0
      have e1 : rootD n (findAux n p i).2 j = j := rootD_of_isRoot hqroot
      have e2 : rootD n p j = j := rootD_of_isRoot hfix
      rw [e1, e2]
      exact ⟨rfl, hqroot⟩
  have hclasses : numClasses n (findAux n p i).2 = numClasses n p := by
    unfold numClasses
    congr 1
    apply Finset.image_congr
    intro x _
    exact (hroots x).1
  refine ⟨by rw [h1, hrootD], fun j => (hroots j).1, hclasses, ?_, ?_, ?_⟩
  · -- identity outside range
    intro j hjn
    have hfix : p j = j := hinv.1 j hjn
    rcases h2 j with h | ⟨hv, m, hm⟩
    · rw [h]; exact hfix
    · rw [isRoot_iterP (show isRoot p j from hfix) m] at hm
      rw [hv, ← hm]
  · -- closure
    intro j hjn
    rcases h2 j with h | ⟨hv, _⟩
    · rw [h]; exact hinv.2.1 j hjn
    · rw [hv]; exact iterP_lt hinv.2.1 hi k
  · -- chains
    intro j hjn
    obtain ⟨kj, hkj, hrj⟩ := hinv.2.2 j hjn
    obtain ⟨hv, hR⟩ := hcomp kj j hrj
    exact ⟨kj, by rw [hclasses]; exact hkj, by rw [hv] at hR ⊢; exact hR⟩

/-- Grafting root `ra` onto root `rb`: wellformedness is preserved, the
class of `ra` is absorbed into that of `rb`, and the class count drops by
exactly one. -/
theorem link_spec {n : Nat} {p : Nat → Nat} (hinv : DSUInv n p)
    {ra rb : Nat} (hra : isRoot p ra) (hrb : isRoot p rb)
    (hran : ra < n) (hrbn : rb < n) (hne : ra ≠ rb) :
    (∀ j, rootD n (fun k => if k = ra then rb else p k) j =
      (if rootD n p j = ra then rb else rootD n p j)) ∧
    numClasses n (fun k => if k = ra then rb else p k) + 1 = numClasses n p ∧
    DSUInv n (fun k => if k = ra then rb else p k) := by
  set q : Nat → Nat := fun k => if k = ra then rb else p k with hq
  have hqrb : isRoot q rb := by
    show (if rb = ra then rb else p rb) = rb
    rw [if_neg (Ne.symm hne)]
    exact hrb
  have hqra : q ra = rb := by
    show (if ra = ra then rb else p ra) = rb
    rw [if_pos rfl]
  -- chain behavior under the graft
  have hchain : ∀ (k j : Nat), isRoot p (iterP p k j) →
      (iterP p k j = ra → iterP q (k + 1) j = rb) ∧
      (iterP p k j ≠ ra → iterP q k j = iterP p k j ∧
        isRoot q (iterP p k j)) := by
    intro k
    induction k with
    | zero =>
      intro j hj
      constructor
      · intro h
        have hj0 : j = ra := h
        show q j = rb
        rw [hj0, hqra]
      · intro h
        have hj0 : j ≠ ra := h
        refine ⟨rfl, ?_⟩
        show (if j = ra then rb else p j) = iterP p 0 j
        rw [if_neg hj0]
        exact hj
    | succ k ih =>
      intro j hj
      by_cases hja : j = ra
      · subst hja
        have hstay : ∀ m, iterP p m j = j := fun m => isRoot_iterP hra m
        constructor
        · intro _
          have : iterP q (k + 2) j = iterP q (k + 1) (q j) := rfl
          rw [this, hqra, isRoot_iterP hqrb (k + 1)]
        · intro h
          exact absurd (hstay (k + 1)) h
      · have hstep : isRoot p (iterP p k (p j)) := hj
        obtain ⟨ih1, ih2⟩ := ih (p j) hstep
        have hqj : q j = p j := by
          show (if j = ra then rb else p j) = p j
          rw [if_neg hja]
        constructor
        · intro h
          have : iterP q (k + 2) j = iterP q (k + 1) (q j) := rfl
          rw [this, hqj]
          exact ih1 h
        · intro h
          have : iterP q (k + 1) j = iterP q k (q j) := rfl
          rw [this, hqj]
          exact ih2 h
  have hC2 : 2 ≤ numClasses n p := by
    have hsub : ({ra, rb} : Finset Nat) ⊆ (Finset.range n).image (rootD n p) := by
      intro z hz
      simp only [Finset.mem_insert, Finset.mem_singleton] at hz
      rcases hz with rfl | rfl
      · exact Finset.mem_image.mpr ⟨z, Finset.mem_range.mpr hran,
          rootD_of_isRoot hra⟩
      · exact Finset.mem_image.mpr ⟨z, Finset.mem_range.mpr hrbn,
          rootD_of_isRoot hrb⟩
    have : ({ra, rb} : Finset Nat).card = 2 := by
      rw [Finset.card_insert_of_not_mem (by simp [hne]), Finset.card_singleton]
    calc 2 = ({ra, rb} : Finset Nat).card := this.symm
      _ ≤ _ := Finset.card_le_card hsub
  -- the rootD characterization
  have hchar : ∀ j, rootD n q j = (if rootD n p j = ra then rb else rootD n p j) := by
    intro j
    by_cases hjn : j < n
    · obtain ⟨kj, hkj, hrj⟩ := hinv.2.2 j hjn
      have hval : rootD n p j = iterP p kj j := (rootD_of_reach (by omega) hrj).1
      by_cases hrja : iterP p kj j = ra
      · rw [if_pos (by rw [hval]; exact hrja)]
        have h1 := (hchain kj j hrj).1 hrja
        have : isRoot q (iterP q (kj + 1) j) := by rw [h1]; exact hqrb
        obtain ⟨e, _⟩ := rootD_of_reach (n := n) (by omega) this
        rw [e, h1]
      · rw [if_neg (by rw [hval]; exact hrja)]
        obtain ⟨h1, h2⟩ := (hchain kj j hrj).2 hrja
        have : isRoot q (iterP q kj j) := by rw [h1]; exact h2
        obtain ⟨e, _⟩ := rootD_of_reach (n := n) (by omega) this
        rw [e, h1, hval]
    · have hfix : p j = j := hinv.1 j (by omega)
      have hjra : j ≠ ra := by omega
      have hqfix : q j = j := by
        show (if j = ra then rb else p j) = j
        rw [if_neg hjra]
        exact hfix
      have e2 : rootD n p j = j := rootD_of_isRoot hfix
      rw [e2, if_neg hjra, rootD_of_isRoot (show isRoot q j from hqfix)]
  -- class count
  have himg : (Finset.range n).image (rootD n q) =
      ((Finset.range n).image (rootD n p)).erase ra := by
    ext z
    simp only [Finset.mem_image, Finset.mem_erase, Finset.mem_range]
    constructor
    · rintro ⟨x, hx, hz⟩
      rw [hchar x] at hz
      split_ifs at hz with h
      · subst hz
        exact ⟨Ne.symm hne, ⟨rb, hrbn, rootD_of_isRoot hrb⟩⟩
      · exact ⟨by rw [← hz]; exact h, ⟨x, hx, hz⟩⟩
    · rintro ⟨hza, x, hx, hz⟩
      refine ⟨x, hx, ?_⟩
      rw [hchar x]
      split_ifs with h
      · exact absurd (by rw [← hz, h]) hza
      · exact hz
  have hclasses : numClasses n q + 1 = numClasses n p := by
    unfold numClasses
    rw [himg, Finset.card_erase_of_mem (Finset.mem_image.mpr
      ⟨ra, Finset.mem_range.mpr hran, rootD_of_isRoot hra⟩)]
    have : 1 ≤ ((Finset.range n).image (rootD n p)).card := by
      unfold numClasses at hC2
      omega
    omega
  refine ⟨hchar, hclasses, ?_, ?_, ?_⟩
  · intro j hjn
    show (if j = ra then rb else p j) = j
    rw [if_neg (by omega)]
    exact hinv.1 j hjn
  · intro j hjn
    show (if j = ra then rb else p j) < n
    split_ifs
    · exact hrbn
    · exact hinv.2.1 j hjn
  · intro j hjn
    obtain ⟨kj, hkj, hrj⟩ := hinv.2.2 j hjn
    by_cases hrja : iterP p kj j = ra
    · have h1 := (hchain kj j hrj).1 hrja
      refine ⟨kj + 1, ?_, ?_⟩
      · omega
      · rw [h1]; exact hqrb
    · obtain ⟨h1, h2⟩ := (hchain kj j hrj).2 hrja
      refine ⟨kj, ?_, ?_⟩
      · omega
      · rw [h1]; exact h2

/-- Specification of `unite` on a wellformed state. -/
theorem unite_spec {n : Nat} {p : Nat → Nat} (hinv : DSUInv n p) {i j : Nat}
    (hi : i < n) (hj : j < n) :
    (∀ x, rootD n (unite n p i j) x =
      (if rootD n p x = rootD n p i ∧ rootD n p i ≠ rootD n p j
       then rootD n p j else rootD n p x)) ∧
    (numClasses n (unite n p i j) +
      (if rootD n p i = rootD n p j then 0 else 1) = numClasses n p) ∧
    DSUInv n (unite n p i j) := by
  obtain ⟨hf1, hr1, hc1, hinv1⟩ := find_preserves hinv hi
  obtain ⟨hf2, hr2, hc2, hinv2⟩ := find_preserves hinv1 hj
  set p2 := (findAux n (findAux n p i).2 j).2 with hp2
  have hra : (findAux n p i).1 = rootD n p i := hf1
  have hrb : (findAux n (findAux n p i).2 j).1 = rootD n p j := by
    rw [hf2, hr1]
  have hroots2 : ∀ x, rootD n p2 x = rootD n p x := fun x => by
    rw [hr2, hr1]
  have hclasses2 : numClasses n p2 = numClasses n p := by rw [hc2, hc1]
  have hunite : unite n p i j =
      (if (findAux n p i).1 ≠ (findAux n (findAux n p i).2 j).1
       then fun k => if k = (findAux n p i).1
            then (findAux n (findAux n p i).2 j).1 else p2 k
       else p2) := rfl
  rw [hunite, hra, hrb]
  by_cases hcase : rootD n p i = rootD n p j
  · rw [if_neg (by simpa using hcase)]
    refine ⟨?_, ?_, hinv2⟩
    · intro x
      rw [if_neg (by simp [hcase]), hroots2]
    · rw [if_pos hcase, hclasses2]
      omega
  · rw [if_pos (by simpa using hcase)]
    have hisra : isRoot p2 (rootD n p i) := by
      have := DSUInv_root hinv2 i
      rwa [hroots2] at this
    have hisrb : isRoot p2 (rootD n p j) := by
      have := DSUInv_root hinv2 j
      rwa [hroots2] at this
    have hlt_a : rootD n p i < n := rootD_lt hinv hi
    have hlt_b : rootD n p j < n := rootD_lt hinv hj
    obtain ⟨hchar, hcl, hinv3⟩ := link_spec hinv2 hisra hisrb hlt_a hlt_b hcase
    refine ⟨?_, ?_, hinv3⟩
    · intro x
      rw [hchar x, hroots2 x]
      by_cases hx : rootD n p x = rootD n p i
      · rw [if_pos hx, if_pos ⟨hx, hcase⟩]
      · rw [if_neg hx, if_neg (by simp [hx])]
    · rw [if_neg hcase, ← hclasses2]
      exact hcl

/-! ## The graph of removed walls

During generation the set of removed walls is tracked as a list of oriented
cell pairs; `AdjE` ignores the orientation, `ReachE` is connectivity.
`IsForest` says every recorded edge is a bridge — the acyclicity invariant
the DSU guard maintains. -/

def AdjE (R : List ((Nat × Nat) × (Nat × Nat))) (x y : Nat × Nat) : Prop :=
  (x, y) ∈ R ∨ (y, x) ∈ R

def ReachE (R : List ((Nat × Nat) × (Nat × Nat))) (x y : Nat × Nat) : Prop :=
  Relation.ReflTransGen (AdjE R) x y

def IsForest (R : List ((Nat × Nat) × (Nat × Nat))) : Prop :=
  R.Nodup ∧ ∀ e ∈ R, ¬ ReachE (R.erase e) e.1 e.2

theorem AdjE_symm {R : List ((Nat × Nat) × (Nat × Nat))} {x y : Nat × Nat}
    (h : AdjE R x y) : AdjE R y x := h.symm

theorem ReachE_symm {R : List ((Nat × Nat) × (Nat × Nat))} {x y : Nat × Nat}
    (h : ReachE R x y) : ReachE R y x :=
  Relation.ReflTransGen.symmetric (fun _ _ h => AdjE_symm h) h

theorem ReachE_mono {R R' : List ((Nat × Nat) × (Nat × Nat))}
    (hsub : ∀ e ∈ R, e ∈ R') {x y : Nat × Nat} (h : ReachE R x y) :
    ReachE R' x y :=
  Relation.ReflTransGen.mono
    (fun _ _ ha => ha.imp (fun h1 => hsub _ h1) (fun h1 => hsub _ h1)) h

theorem ReachE_nil {x y : Nat × Nat} : ReachE [] x y ↔ x = y := by
  constructor
  · intro h
    induction h with
    | refl => rfl
    | tail _ hzy ih =>
      rcases hzy with h | h <;> exact absurd h (List.not_mem_nil _)
  · rintro rfl
    exact Relation.ReflTransGen.refl

theorem AdjE_single {R : List ((Nat × Nat) × (Nat × Nat))} {x y : Nat × Nat}
    (h : AdjE R x y) : ReachE R x y :=
  Relation.ReflTransGen.single h

/-- Decomposition of reachability after appending one edge `(a,b)`. -/
theorem ReachE_append_iff {R : List ((Nat × Nat) × (Nat × Nat))}
    {a b x y : Nat × Nat} :
    ReachE (R ++ [(a, b)]) x y ↔
      ReachE R x y ∨ (ReachE R x a ∧ ReachE R b y) ∨
        (ReachE R x b ∧ ReachE R a y) := by
  constructor
  · intro h
    induction h with
    | refl => exact Or.inl Relation.ReflTransGen.refl
    | @tail z w _ hzw ih =>
      have hstep : AdjE R z w ∨ (z = a ∧ w = b) ∨ (z = b ∧ w = a) := by
        rcases hzw with h | h <;>
          rcases List.mem_append.mp h with h' | h'
        · exact Or.inl (Or.inl h')
        · obtain ⟨h1, h2⟩ : (z, w) = (a, b) := List.mem_singleton.mp h'
          · exact Or.inr (Or.inl ⟨rfl, rfl⟩)
        · exact Or.inl (Or.inr h')
        · obtain ⟨h1, h2⟩ : (w, z) = (a, b) := List.mem_singleton.mp h'
          · exact Or.inr (Or.inr ⟨rfl, rfl⟩)
      rcases ih with hxz | ⟨hxa, hbz⟩ | ⟨hxb, haz⟩ <;>
        rcases hstep with hadj | ⟨rfl, rfl⟩ | ⟨rfl, rfl⟩
      · exact Or.inl (hxz.tail hadj)
      · exact Or.inr (Or.inl ⟨hxz, Relation.ReflTransGen.refl⟩)
      · exact Or.inr (Or.inr ⟨hxz, Relation.ReflTransGen.refl⟩)
      · exact Or.inr (Or.inl ⟨hxa, hbz.tail hadj⟩)
      · exact Or.inr (Or.inl ⟨hxa, Relation.ReflTransGen.refl⟩)
      · exact Or.inl hxa
      · exact Or.inr (Or.inr ⟨hxb, haz.tail hadj⟩)
      · exact Or.inl hxb
      · exact Or.inr (Or.inr ⟨hxb, Relation.ReflTransGen.refl⟩)
  · have hsub : ∀ e ∈ R, e ∈ R ++ [(a, b)] :=
      fun e he => List.mem_append.mpr (Or.inl he)
    have hedge : ReachE (R ++ [(a, b)]) a b :=
      AdjE_single (Or.inl (List.mem_append.mpr (Or.inr (List.mem_singleton.mpr rfl))))
    rintro (h | ⟨h1, h2⟩ | ⟨h1, h2⟩)
    · exact ReachE_mono hsub h
    · exact ((ReachE_mono hsub h1).trans hedge).trans (ReachE_mono hsub h2)
    · exact ((ReachE_mono hsub h1).trans (ReachE_symm hedge)).trans
        (ReachE_mono hsub h2)

/-- Adding a bridge between two components keeps the graph a forest. -/
theorem add_edge_forest {R : List ((Nat × Nat) × (Nat × Nat))}
    {a b : Nat × Nat} (hf : IsForest R) (hnr : ¬ ReachE R a b) :
    IsForest (R ++ [(a, b)]) := by
  have hab_notmem : (a, b) ∉ R := fun hmem => hnr (AdjE_single (Or.inl hmem))
  constructor
  · rw [List.nodup_append]
    exact ⟨hf.1, List.nodup_singleton _,
      fun e he he' => hab_notmem (List.mem_singleton.mp he' ▸ he)⟩
  · intro e he
    rcases List.mem_append.mp he with heR | heNew
    · -- an old edge stays a bridge
      have herase : (R ++ [(a, b)]).erase e = R.erase e ++ [(a, b)] :=
        List.erase_append_left _ heR
      rw [herase]
      intro hreach
      have hsub : ∀ f ∈ R.erase e, f ∈ R := fun f hf => List.mem_of_mem_erase hf
      have hstep : ReachE R e.1 e.2 := AdjE_single (Or.inl (by
        obtain ⟨e1, e2⟩ := e
        exact heR))
      rcases ReachE_append_iff.mp hreach with h | ⟨h1, h2⟩ | ⟨h1, h2⟩
      · exact hf.2 e heR h
      · -- e.1 ~ a and b ~ e.2 without e would close a path a ~ b in R
        exact hnr (((ReachE_symm (ReachE_mono hsub h1)).trans hstep).trans
          (ReachE_symm (ReachE_mono hsub h2)))
      · -- e.1 ~ b and a ~ e.2 likewise
        exact hnr (((ReachE_mono hsub h2).trans (ReachE_symm hstep)).trans
          (ReachE_mono hsub h1))
  -- for the new edge: erasing it leaves exactly R
    · have hednew : e = (a, b) := List.mem_singleton.mp heNew
      subst hednew
      have herase : (R ++ [(a, b)]).erase (a, b) = R := by
        rw [List.erase_append_right _ hab_notmem]
        simp
      rw [herase]
      exact hnr

/-! ## The generation invariant -/

def idxOf (nC : Nat) (x : Nat × Nat) : Nat := x.1 * nC + x.2

theorem idxOf_lt {nR nC : Nat} {x : Nat × Nat} (h1 : x.1 < nR) (h2 : x.2 < nC) :
    idxOf nC x < nR * nC := by
  unfold idxOf
  calc x.1 * nC + x.2 < x.1 * nC + nC := by omega
    _ = (x.1 + 1) * nC := by ring
    _ ≤ nR * nC := Nat.mul_le_mul_right nC (by omega)

theorem idxOf_inj {nC : Nat} {x y : Nat × Nat} (hx : x.2 < nC) (hy : y.2 < nC)
    (h : idxOf nC x = idxOf nC y) : x = y := by
  unfold idxOf at h
  have hc : x.2 = y.2 := by
    have e1 : (x.1 * nC + x.2) % nC = x.2 % nC := Nat.mul_add_mod' _ _ _
    have e2 : (y.1 * nC + y.2) % nC = y.2 % nC := Nat.mul_add_mod' _ _ _
    rw [Nat.mod_eq_of_lt hx] at e1
    rw [Nat.mod_eq_of_lt hy] at e2
    rw [← e1, ← e2, h]
  have hr : x.1 = y.1 := by
    have hnC : 0 < nC := by omega
    have : x.1 * nC = y.1 * nC := by omega
    exact Nat.eq_of_mul_eq_mul_right hnC this
  obtain ⟨x1, x2⟩ := x
  obtain ⟨y1, y2⟩ := y
  simp only at hc hr
  rw [hc, hr]

theorem AdjE_append_single {R : List ((Nat × Nat) × (Nat × Nat))}
    {A B x y : Nat × Nat} :
    AdjE (R ++ [(A, B)]) x y ↔
      AdjE R x y ∨ (x = A ∧ y = B) ∨ (x = B ∧ y = A) := by
  unfold AdjE
  simp only [List.mem_append, List.mem_singleton, Prod.mk.injEq]
  tauto

/-- The full generation invariant, with the removed-wall list `R` as a
ghost parameter: the wall bits encode exactly the edges of `R`; the DSU is
wellformed and its partition is the connectivity of `R`; the number of
removals, classes and edges balance; and `R` is a forest. -/
structure GenInvAt (nR nC : Nat) (s : GenState)
    (R : List ((Nat × Nat) × (Nat × Nat))) : Prop where
  edges_valid : ∀ e ∈ R, e.1.1 < nR ∧ e.1.2 < nC ∧
    ∃ d ∈ dirs6, getNeighbor e.1.1 e.1.2 d nR nC = some e.2
  bit_char : ∀ r c d r2 c2, r < nR → c < nC → d ∈ dirs6 →
    getNeighbor r c d nR nC = some (r2, c2) →
    (s.maze r c &&& d = 0 ↔ AdjE R (r, c) (r2, c2))
  dsu : DSUInv (nR * nC) s.parent
  partition : ∀ x y : Nat × Nat, x.1 < nR → x.2 < nC → y.1 < nR → y.2 < nC →
    (rootD (nR * nC) s.parent (idxOf nC x) =
        rootD (nR * nC) s.parent (idxOf nC y) ↔ ReachE R x y)
  count_eq : R.length = s.wallsRemoved
  classes : numClasses (nR * nC) s.parent + R.length = nR * nC
  forest : IsForest R

theorem iterP_id : ∀ (k i : Nat), iterP (fun i => i) k i = i
  | 0, _ => rfl
  | k + 1, i => iterP_id k i

theorem numClasses_id (n : Nat) : numClasses n (fun i => i) = n := by
  unfold numClasses
  have : ∀ x ∈ Finset.range n, rootD n (fun i => i) x = x := by
    intro x _
    exact iterP_id n x
  rw [Finset.image_congr (fun x hx => this x hx)]
  rw [Finset.image_id', Finset.card_range]

theorem genInv_init (g0 : Grid) (nR nC : Nat) :
    GenInvAt nR nC
      ⟨initialMaze g0 nR nC, fun i => i, 0⟩ [] := by
  constructor
  · intro e he
    exact absurd he (List.not_mem_nil e)
  · intro r c d r2 c2 hr hc hd hn
    have hwall : initialMaze g0 nR nC r c &&& d ≠ 0 := by
      unfold initialMaze
      rw [if_pos ⟨hr, hc⟩]
      fin_cases hd <;> decide
    constructor
    · intro h; exact absurd h hwall
    · intro h
      rcases h with h | h <;> exact absurd h (List.not_mem_nil _)
  · exact ⟨fun i _ => rfl, fun i hi => hi,
      fun i hi => ⟨0, by rw [numClasses_id]; omega, rfl⟩⟩
  · intro x y hx1 hx2 hy1 hy2
    have ex : rootD (nR * nC) (fun i => i) (idxOf nC x) = idxOf nC x :=
      iterP_id _ _
    have ey : rootD (nR * nC) (fun i => i) (idxOf nC y) = idxOf nC y :=
      iterP_id _ _
    rw [ex, ey, ReachE_nil]
    constructor
    · exact fun h => idxOf_inj hx2 hy2 h
    · rintro rfl; rfl
  · rfl
  · rw [numClasses_id]
    simp
  · exact ⟨List.nodup_nil, fun e he => absurd he (List.not_mem_nil e)⟩

/-- Zeta-reduced shape of `genStep`, for rewriting. -/
theorem genStep_eq (nR nC : Nat) (s : GenState) (w : Wall) :
    genStep nR nC s w =
      if nR * nC - 1 ≤ s.wallsRemoved then s
      else
        match getNeighbor w.r w.c w.direction nR nC with
        | none => s
        | some (r2, c2) =>
          if (findAux (nR * nC) s.parent (w.r * nC + w.c)).1 ≠
              (findAux (nR * nC) (findAux (nR * nC) s.parent (w.r * nC + w.c)).2
                (r2 * nC + c2)).1
          then { maze := removeWallPair s.maze w.r w.c w.direction r2 c2,
                 parent := unite (nR * nC)
                   (findAux (nR * nC)
                     (findAux (nR * nC) s.parent (w.r * nC + w.c)).2
                     (r2 * nC + c2)).2
                   (w.r * nC + w.c) (r2 * nC + c2),
                 wallsRemoved := s.wallsRemoved + 1 }
          else { s with parent :=
            (findAux (nR * nC) (findAux (nR * nC) s.parent (w.r * nC + w.c)).2
              (r2 * nC + c2)).2 } := by
  unfold genStep
  rcases getNeighbor w.r w.c w.direction nR nC with _ | ⟨r2, c2⟩ <;> rfl

/-- One generator iteration preserves the invariant; representatives only
merge (never split); and whenever the break guard is open, the processed
candidate's endpoints are united afterwards. -/
theorem genInv_step {nR nC : Nat} {s : GenState}
    {R : List ((Nat × Nat) × (Nat × Nat))} (hinv : GenInvAt nR nC s R)
    {w : Wall} (hw : w.r < nR ∧ w.c < nC) :
    ∃ R', GenInvAt nR nC (genStep nR nC s w) R' ∧
      (∀ x y : Nat, rootD (nR * nC) s.parent x = rootD (nR * nC) s.parent y →
        rootD (nR * nC) (genStep nR nC s w).parent x =
          rootD (nR * nC) (genStep nR nC s w).parent y) ∧
      (¬ (nR * nC - 1 ≤ s.wallsRemoved) →
        ∀ r2 c2, getNeighbor w.r w.c w.direction nR nC = some (r2, c2) →
          rootD (nR * nC) (genStep nR nC s w).parent (idxOf nC (w.r, w.c)) =
            rootD (nR * nC) (genStep nR nC s w).parent (idxOf nC (r2, c2))) := by
  rw [genStep_eq]
  split_ifs with hbreak
  · exact ⟨R, hinv, fun x y h => h, fun hb => absurd hbreak hb⟩
  · rcases hn : getNeighbor w.r w.c w.direction nR nC with _ | ⟨r2, c2⟩
    · refine ⟨R, hinv, fun x y h => h, ?_⟩
      intro _ r2 c2 hn2
      exact Option.noConfusion hn2
    · simp only [hn]
      have hd0 : w.direction ∈ dirs6 := getNeighbor_dir_mem hn
      have hB : r2 < nR ∧ c2 < nC := getNeighbor_target_lt hn
      have hne : (r2, c2) ≠ (w.r, w.c) := getNeighbor_target_ne hn
      have hidx1 : w.r * nC + w.c < nR * nC := idxOf_lt (x := (w.r, w.c)) hw.1 hw.2
      have hidx2 : r2 * nC + c2 < nR * nC := idxOf_lt (x := (r2, c2)) hB.1 hB.2
      obtain ⟨hf1, hr1, hc1, hinv1⟩ := find_preserves hinv.dsu hidx1
      obtain ⟨hf2', hr2', hc2', hinv2⟩ := find_preserves hinv1 hidx2
      have hf2 : (findAux (nR * nC) (findAux (nR * nC) s.parent
          (w.r * nC + w.c)).2 (r2 * nC + c2)).1 =
          rootD (nR * nC) s.parent (r2 * nC + c2) := by
        rw [hf2', hr1]
      have hroots2 : ∀ x, rootD (nR * nC) (findAux (nR * nC)
          (findAux (nR * nC) s.parent (w.r * nC + w.c)).2 (r2 * nC + c2)).2 x =
          rootD (nR * nC) s.parent x := by
        intro x
        rw [hr2', hr1]
      have hclasses2 : numClasses (nR * nC) (findAux (nR * nC)
          (findAux (nR * nC) s.parent (w.r * nC + w.c)).2 (r2 * nC + c2)).2 =
          numClasses (nR * nC) s.parent := by
        rw [hc2', hc1]
      have hidx1' : idxOf nC (w.r, w.c) = w.r * nC + w.c := rfl
      have hidx2' : idxOf nC (r2, c2) = r2 * nC + c2 := rfl
      split_ifs with hguard
      · -- roots differ: remove the wall and unite
        have hab : rootD (nR * nC) s.parent (w.r * nC + w.c) ≠
            rootD (nR * nC) s.parent (r2 * nC + c2) := by
          rw [hf1, hf2] at hguard
          exact hguard
        obtain ⟨huc, hucl, huinv⟩ := unite_spec hinv2 hidx1 hidx2
        -- translate the characterization to the original parent map
        have huc' : ∀ x, rootD (nR * nC) (unite (nR * nC) (findAux (nR * nC)
            (findAux (nR * nC) s.parent (w.r * nC + w.c)).2 (r2 * nC + c2)).2
            (w.r * nC + w.c) (r2 * nC + c2)) x =
            (if rootD (nR * nC) s.parent x =
              rootD (nR * nC) s.parent (w.r * nC + w.c)
             then rootD (nR * nC) s.parent (r2 * nC + c2)
             else rootD (nR * nC) s.parent x) := by
          intro x
          rw [huc x, hroots2, hroots2, hroots2]
          by_cases hx : rootD (nR * nC) s.parent x =
              rootD (nR * nC) s.parent (w.r * nC + w.c)
          · rw [if_pos ⟨hx, hab⟩, if_pos hx]
          · rw [if_neg (by simp [hx]), if_neg hx]
        have hucl' : numClasses (nR * nC) (unite (nR * nC) (findAux (nR * nC)
            (findAux (nR * nC) s.parent (w.r * nC + w.c)).2 (r2 * nC + c2)).2
            (w.r * nC + w.c) (r2 * nC + c2)) + 1 =
            numClasses (nR * nC) s.parent := by
          rw [hroots2, hroots2, if_neg hab] at hucl
          rw [← hclasses2]
          exact hucl
        have hnotreach : ¬ ReachE R (w.r, w.c) (r2, c2) := by
          rw [← hinv.partition (w.r, w.c) (r2, c2) hw.1 hw.2 hB.1 hB.2]
          rw [hidx1', hidx2']
          exact hab
        refine ⟨R ++ [((w.r, w.c), (r2, c2))], ?_, ?_, ?_⟩
        · constructor
          · -- edges_valid
            intro e he
            rcases List.mem_append.mp he with he | he
            · exact hinv.edges_valid e he
            · rw [List.mem_singleton.mp he]
              exact ⟨hw.1, hw.2, w.direction, hd0, hn⟩
          · -- bit_char
            intro r c d r2' c2' hr hc hd hnn
            show removeWallPair s.maze w.r w.c w.direction r2 c2 r c &&& d = 0 ↔ _
            rw [AdjE_append_single]
            by_cases hPA : (r, c) = (w.r, w.c) ∧ d = w.direction
            · obtain ⟨hp, rfl⟩ := hPA
              obtain ⟨rfl, rfl⟩ : r = w.r ∧ c = w.c := Prod.mk.injEq .. ▸ hp
              rw [hnn] at hn
              obtain ⟨rfl, rfl⟩ : r2' = r2 ∧ c2' = c2 :=
                Prod.mk.injEq .. ▸ (Option.some.injEq .. ▸ hn)
              exact iff_of_true (removeWallPair_land_clearedA s.maze hne hd0)
                (Or.inr (Or.inl ⟨rfl, rfl⟩))
            · by_cases hPB : (r, c) = (r2, c2) ∧ d = getOppositeWall w.direction
              · obtain ⟨hp, rfl⟩ := hPB
                obtain ⟨rfl, rfl⟩ : r = r2 ∧ c = c2 := Prod.mk.injEq .. ▸ hp
                have hrev := getNeighbor_rev hd0 hn
                rw [if_pos ⟨hw.1, hw.2⟩] at hrev
                rw [hnn] at hrev
                obtain ⟨rfl, rfl⟩ : r2' = w.r ∧ c2' = w.c :=
                  Prod.mk.injEq .. ▸ (Option.some.injEq .. ▸ hrev)
                exact iff_of_true (removeWallPair_land_clearedB s.maze hne hd0)
                  (Or.inr (Or.inr ⟨rfl, rfl⟩))
              · have hAdisj : (r, c) ≠ (w.r, w.c) ∨ d ≠ w.direction :=
                  not_and_or.mp hPA
                have hBdisj : (r, c) ≠ (r2, c2) ∨
                    d ≠ getOppositeWall w.direction := not_and_or.mp hPB
                rw [removeWallPair_land_untouched s.maze hne hd0 hd hBdisj hAdisj,
                  hinv.bit_char r c d r2' c2' hr hc hd hnn]
                constructor
                · exact fun h => Or.inl h
                · rintro (h | ⟨he1, he2⟩ | ⟨he1, he2⟩)
                  · exact h
                  · exfalso
                    obtain ⟨rfl, rfl⟩ : r = w.r ∧ c = w.c := Prod.mk.injEq .. ▸ he1
                    obtain ⟨rfl, rfl⟩ : r2' = r2 ∧ c2' = c2 :=
                      Prod.mk.injEq .. ▸ he2
                    rcases hAdisj with h' | h'
                    · exact h' rfl
                    · exact h' (getNeighbor_inj_dir hnn hn)
                  · exfalso
                    obtain ⟨rfl, rfl⟩ : r = r2 ∧ c = c2 := Prod.mk.injEq .. ▸ he1
                    obtain ⟨rfl, rfl⟩ : r2' = w.r ∧ c2' = w.c :=
                      Prod.mk.injEq .. ▸ he2
                    have hrev := getNeighbor_rev hd0 hn
                    rw [if_pos ⟨hw.1, hw.2⟩] at hrev
                    rcases hBdisj with h' | h'
                    · exact h' rfl
                    · exact h' (getNeighbor_inj_dir hnn hrev)
          · -- dsu
            exact huinv
          · -- partition
            intro x y hx1 hx2 hy1 hy2
            show rootD (nR * nC) (unite _ _ _ _) (idxOf nC x) =
                rootD (nR * nC) (unite _ _ _ _) (idxOf nC y) ↔ _
            rw [huc' (idxOf nC x), huc' (idxOf nC y), ReachE_append_iff,
              ← hinv.partition x y hx1 hx2 hy1 hy2,
              ← hinv.partition x (w.r, w.c) hx1 hx2 hw.1 hw.2,
              ← hinv.partition (r2, c2) y hB.1 hB.2 hy1 hy2,
              ← hinv.partition x (r2, c2) hx1 hx2 hB.1 hB.2,
              ← hinv.partition (w.r, w.c) y hw.1 hw.2 hy1 hy2,
              hidx1', hidx2']
            split_ifs with h1 h2 h2 <;> omega
          · -- count
            rw [List.length_append, List.length_singleton, hinv.count_eq]
          · -- classes
            show numClasses (nR * nC) (unite (nR * nC) (findAux (nR * nC)
              (findAux (nR * nC) s.parent (w.r * nC + w.c)).2 (r2 * nC + c2)).2
              (w.r * nC + w.c) (r2 * nC + c2)) +
              (R ++ [((w.r, w.c), (r2, c2))]).length = nR * nC
            rw [List.length_append, List.length_singleton]
            have := hinv.classes
            omega
          · -- forest
            exact add_edge_forest hinv.forest hnotreach
        · -- roots only merge
          intro x y h
          show rootD (nR * nC) (unite _ _ _ _) x =
            rootD (nR * nC) (unite _ _ _ _) y
          rw [huc' x, huc' y, h]
        · -- the processed edge's endpoints are now united
          intro _ r2' c2' hn2
          obtain ⟨rfl, rfl⟩ : r2 = r2' ∧ c2 = c2' :=
            Prod.mk.injEq .. ▸ (Option.some.injEq .. ▸ hn2)
          show rootD (nR * nC) (unite _ _ _ _) (idxOf nC (w.r, w.c)) =
            rootD (nR * nC) (unite _ _ _ _) (idxOf nC (r2, c2))
          rw [huc' _, huc' _, hidx1', hidx2', if_pos rfl,
            if_neg (by exact fun h => hab h.symm)]
      · -- roots already equal: only compression happened
        have hab : rootD (nR * nC) s.parent (w.r * nC + w.c) =
            rootD (nR * nC) s.parent (r2 * nC + c2) := by
          rw [hf1, hf2] at hguard
          exact not_not.mp hguard
        refine ⟨R, ?_, ?_, ?_⟩
        · constructor
          · exact hinv.edges_valid
          · exact hinv.bit_char
          · exact hinv2
          · intro x y hx1 hx2 hy1 hy2
            show rootD (nR * nC) _ (idxOf nC x) =
                rootD (nR * nC) _ (idxOf nC y) ↔ _
            rw [hroots2, hroots2]
            exact hinv.partition x y hx1 hx2 hy1 hy2
          · exact hinv.count_eq
          · show numClasses (nR * nC) (findAux _ _ _).2 + R.length = nR * nC
            rw [hclasses2]
            exact hinv.classes
          · exact hinv.forest
        · intro x y h
          show rootD (nR * nC) (findAux _ _ _).2 x =
            rootD (nR * nC) (findAux _ _ _).2 y
          rw [hroots2, hroots2, h]
        · intro _ r2' c2' hn2
          obtain ⟨rfl, rfl⟩ : r2 = r2' ∧ c2 = c2' :=
            Prod.mk.injEq .. ▸ (Option.some.injEq .. ▸ hn2)
          show rootD (nR * nC) (findAux _ _ _).2 (idxOf nC (w.r, w.c)) =
            rootD (nR * nC) (findAux _ _ _).2 (idxOf nC (r2, c2))
          rw [hroots2, hroots2, hidx1', hidx2']
          exact hab

theorem genStep_wallsRemoved_mono (nR nC : Nat) (s : GenState) (w : Wall) :
    s.wallsRemoved ≤ (genStep nR nC s w).wallsRemoved := by
  rw [genStep_eq]
  split_ifs with h
  · exact Nat.le_refl _
  · rcases getNeighbor w.r w.c w.direction nR nC with _ | ⟨r2, c2⟩
    · exact Nat.le_refl _
    · dsimp only
      split_ifs
      · show s.wallsRemoved ≤ s.wallsRemoved + 1
        omega
      · show s.wallsRemoved ≤ s.wallsRemoved
        omega

theorem foldl_wallsRemoved_mono (nR nC : Nat) :
    ∀ (l : List Wall) (s : GenState),
      s.wallsRemoved ≤ (l.foldl (genStep nR nC) s).wallsRemoved
  | [], _ => Nat.le_refl _
  | w :: l, s =>
    Nat.le_trans (genStep_wallsRemoved_mono nR nC s w)
      (foldl_wallsRemoved_mono nR nC l (genStep nR nC s w))

/-- Folding the invariant over a candidate list.  If the final removal
count is still below the target, every processed candidate has united
endpoints in the final DSU state. -/
theorem genInv_fold {nR nC : Nat} :
    ∀ (l : List Wall) (s : GenState) (R : List ((Nat × Nat) × (Nat × Nat))),
      GenInvAt nR nC s R → (∀ w ∈ l, w.r < nR ∧ w.c < nC) →
      ∃ R', GenInvAt nR nC (l.foldl (genStep nR nC) s) R' ∧
        (∀ x y : Nat,
          rootD (nR * nC) s.parent x = rootD (nR * nC) s.parent y →
          rootD (nR * nC) (l.foldl (genStep nR nC) s).parent x =
            rootD (nR * nC) (l.foldl (genStep nR nC) s).parent y) ∧
        ((l.foldl (genStep nR nC) s).wallsRemoved < nR * nC - 1 →
          ∀ w ∈ l, ∀ r2 c2,
            getNeighbor w.r w.c w.direction nR nC = some (r2, c2) →
            rootD (nR * nC) (l.foldl (genStep nR nC) s).parent
              (idxOf nC (w.r, w.c)) =
            rootD (nR * nC) (l.foldl (genStep nR nC) s).parent
              (idxOf nC (r2, c2))) := by
  intro l
  induction l with
  | nil =>
    intro s R hinv _
    exact ⟨R, hinv, fun x y h => h, fun _ w hw => absurd hw (List.not_mem_nil w)⟩
  | cons w l ih =>
    intro s R hinv hmem
    obtain ⟨R1, hinv1, hmono1, hconn1⟩ :=
      genInv_step hinv (hmem w (List.mem_cons_self w l))
    obtain ⟨R', hinv', hmono', hconn'⟩ := ih (genStep nR nC s w) R1 hinv1
      (fun v hv => hmem v (List.mem_cons_of_mem w hv))
    refine ⟨R', hinv', fun x y h => hmono' x y (hmono1 x y h), ?_⟩
    intro hlt v hv r2 c2 hn
    rcases List.mem_cons.mp hv with rfl | hv'
    · -- the head candidate: its guard was open at processing time
      have hs_lt : ¬ (nR * nC - 1 ≤ s.wallsRemoved) := by
        have h1 := genStep_wallsRemoved_mono nR nC s v
        have h2 := foldl_wallsRemoved_mono nR nC l (genStep nR nC s v)
        rw [List.foldl_cons] at hlt
        omega
      exact hmono' _ _ (hconn1 hs_lt r2 c2 hn)
    · exact hconn' hlt v hv' r2 c2 hn

/-- If every enumerated candidate has united endpoints, every cell is in
the class of the origin: the candidate graph spans the grid (each cell is a
candidate-neighbor of the cell above or of the cell to its left). -/
theorem conn_to_origin {nR nC : Nat} {p : Nat → Nat}
    (hconn : ∀ w ∈ internalWalls nR nC, ∀ r2 c2,
      getNeighbor w.r w.c w.direction nR nC = some (r2, c2) →
      rootD (nR * nC) p (idxOf nC (w.r, w.c)) =
        rootD (nR * nC) p (idxOf nC (r2, c2))) :
    ∀ (k : Nat) (x : Nat × Nat), x.1 + x.2 = k → x.1 < nR → x.2 < nC →
      rootD (nR * nC) p (idxOf nC x) = rootD (nR * nC) p (idxOf nC (0, 0)) := by
  intro k
  induction k using Nat.strong_induction_on with
  | _ k ih =>
    rintro ⟨r, c⟩ hk hr hc
    simp only at hk hr hc
    by_cases hc0 : 1 ≤ c
    · -- connect (r, c) to (r, c - 1)
      have hkey : ∃ δ, (δ = WALL_DOWN ∨ δ = WALL_UP_RIGHT ∨ δ = WALL_DOWN_RIGHT) ∧
          getNeighbor r (c - 1) δ nR nC = some (r, c) := by
        rcases Nat.even_or_odd c with he | ho
        · refine ⟨WALL_UP_RIGHT, Or.inr (Or.inl rfl), ?_⟩
          rw [getNeighbor_UP_RIGHT]
          have hpar : (c - 1) % 2 = 1 := by
            rcases he with ⟨m, hm⟩
            omega
          rw [if_pos (by omega)]
          have e1 : r + (c - 1) % 2 - 1 = r := by omega
          have e2 : c - 1 + 1 = c := by omega
          rw [e1, e2]
        · refine ⟨WALL_DOWN_RIGHT, Or.inr (Or.inr rfl), ?_⟩
          rw [getNeighbor_DOWN_RIGHT]
          have hpar : (c - 1) % 2 = 0 := by
            rcases ho with ⟨m, hm⟩
            omega
          rw [if_pos (by omega)]
          have e1 : r + (c - 1) % 2 = r := by omega
          have e2 : c - 1 + 1 = c := by omega
          rw [e1, e2]
      obtain ⟨δ, hδ, hnb⟩ := hkey
      have hmem : (⟨r, c - 1, δ⟩ : Wall) ∈ internalWalls nR nC :=
        mem_internalWalls_of hr (by omega) hδ (by rw [hnb]; rfl)
      have hstep := hconn _ hmem r c hnb
      have hprev := ih (r + (c - 1)) (by omega) (r, c - 1) rfl hr (by omega)
      exact Eq.trans (Eq.symm hstep) hprev
    · by_cases hr0 : 1 ≤ r
      · -- connect (r, c) to (r - 1, c)
        have hnb : getNeighbor (r - 1) c WALL_DOWN nR nC = some (r, c) := by
          rw [getNeighbor_DOWN, if_pos (by omega)]
          have e1 : r - 1 + 1 = r := by omega
          rw [e1]
        have hmem : (⟨r - 1, c, WALL_DOWN⟩ : Wall) ∈ internalWalls nR nC :=
          mem_internalWalls_of (by omega) hc (Or.inl rfl) (by rw [hnb]; rfl)
        have hstep := hconn _ hmem r c hnb
        have hprev := ih ((r - 1) + c) (by omega) (r - 1, c) rfl (by omega) hc
        exact Eq.trans (Eq.symm hstep) hprev
      · have : r = 0 ∧ c = 0 := by omega
        rw [this.1, this.2]

/-- The open-passage adjacency of a maze grid: an in-grid cell with a
resolvable direction whose wall bit is cleared. -/
def openAdj (m : Grid) (nR nC : Nat) (x y : Nat × Nat) : Prop :=
  x.1 < nR ∧ x.2 < nC ∧ ∃ d ∈ dirs6, getNeighbor x.1 x.2 d nR nC = some y ∧
    m x.1 x.2 &&& d = 0

/-- Under the invariant, edge-list adjacency and open-passage adjacency
coincide. -/
theorem AdjE_iff_openAdj {nR nC : Nat} {s : GenState}
    {R : List ((Nat × Nat) × (Nat × Nat))} (hinv : GenInvAt nR nC s R)
    (x y : Nat × Nat) : AdjE R x y ↔ openAdj s.maze nR nC x y := by
  constructor
  · rintro (h | h)
    · obtain ⟨hx1, hx2, d, hd, hn⟩ := hinv.edges_valid _ h
      obtain ⟨y1, y2⟩ := y
      refine ⟨hx1, hx2, d, hd, hn, ?_⟩
      rw [hinv.bit_char x.1 x.2 d y1 y2 hx1 hx2 hd hn]
      exact Or.inl (by obtain ⟨x1, x2⟩ := x; exact h)
    · obtain ⟨hy1, hy2, d, hd, hn⟩ := hinv.edges_valid _ h
      obtain ⟨x1, x2⟩ := x
      have hx : x1 < nR ∧ x2 < nC := getNeighbor_target_lt hn
      have hrev := getNeighbor_rev hd hn
      rw [if_pos ⟨hy1, hy2⟩] at hrev
      refine ⟨hx.1, hx.2, getOppositeWall d, getOppositeWall_mem hd, ?_, ?_⟩
      · obtain ⟨y1, y2⟩ := y
        exact hrev
      · obtain ⟨y1, y2⟩ := y
        rw [hinv.bit_char x1 x2 (getOppositeWall d) y1 y2 hx.1 hx.2
          (getOppositeWall_mem hd) hrev]
        exact Or.inr h
  · rintro ⟨hx1, hx2, d, hd, hn, hbit⟩
    obtain ⟨y1, y2⟩ := y
    rw [← hinv.bit_char x.1 x.2 d y1 y2 hx1 hx2 hd hn]
    exact hbit

/-- A step of a deleted-edge open walk lands in the edge list with the
deleted edge erased. -/
theorem openAdjMinus_to_erase {nR nC : Nat} {s : GenState}
    {R : List ((Nat × Nat) × (Nat × Nat))} (hinv : GenInvAt nR nC s R)
    {x y : Nat × Nat} {e0 : (Nat × Nat) × (Nat × Nat)} {u v : Nat × Nat}
    (he0 : e0 = (x, y) ∨ e0 = (y, x))
    (h : openAdj s.maze nR nC u v ∧ ¬(u = x ∧ v = y) ∧ ¬(u = y ∧ v = x)) :
    AdjE (R.erase e0) u v := by
  obtain ⟨hadj, hn1, hn2⟩ := h
  have hmem := (AdjE_iff_openAdj hinv u v).mpr hadj
  have hne : ∀ m : (Nat × Nat) × (Nat × Nat),
      (m = (u, v) ∨ m = (v, u)) → m ≠ e0 := by
    rintro m (rfl | rfl) <;> rcases he0 with rfl | rfl <;> intro hc
    · exact hn1 ⟨congrArg Prod.fst hc, congrArg Prod.snd hc⟩
    · exact hn2 ⟨congrArg Prod.fst hc, congrArg Prod.snd hc⟩
    · exact hn2 ⟨congrArg Prod.snd hc, congrArg Prod.fst hc⟩
    · exact hn1 ⟨congrArg Prod.snd hc, congrArg Prod.fst hc⟩
  rcases hmem with hm | hm
  · exact Or.inl ((List.Nodup.mem_erase_iff hinv.forest.1).mpr
      ⟨hne _ (Or.inl rfl), hm⟩)
  · exact Or.inr ((List.Nodup.mem_erase_iff hinv.forest.1).mpr
      ⟨hne _ (Or.inr rfl), hm⟩)

/-- C1: on every supported dimension pair and every shuffle of the full
candidate enumeration, generation removes exactly `rows*cols - 1` walls and
the open-passage graph is connected and acyclic (every open passage is a
bridge) — a spanning tree of the hex grid. -/
theorem generateMaze_spanning_tree (g0 : Grid) (nR nC : Nat)
    (hR1 : 1 ≤ nR) (hR50 : nR ≤ 50) (hC1 : 1 ≤ nC) (hC50 : nC ≤ 50)
    (l : List Wall) (hl : l.Perm (internalWalls nR nC)) :
    (generateMaze g0 nR nC l).wallsRemoved = nR * nC - 1 ∧
    (∀ x y : Nat × Nat, x.1 < nR → x.2 < nC → y.1 < nR → y.2 < nC →
      Relation.ReflTransGen (openAdj (generateMaze g0 nR nC l).maze nR nC) x y) ∧
    (∀ x y : Nat × Nat, openAdj (generateMaze g0 nR nC l).maze nR nC x y →
      ¬ Relation.ReflTransGen (fun u v =>
          openAdj (generateMaze g0 nR nC l).maze nR nC u v ∧
          ¬(u = x ∧ v = y) ∧ ¬(u = y ∧ v = x)) x y) := by
  have hbounds : ∀ w ∈ l, w.r < nR ∧ w.c < nC := by
    intro w hw
    have := internalWalls_mem (hl.mem_iff.mp hw)
    exact ⟨this.1, this.2.1⟩
  obtain ⟨R', hinv, hmono, hconn⟩ :=
    genInv_fold l ⟨initialMaze g0 nR nC, fun i => i, 0⟩ []
      (genInv_init g0 nR nC) hbounds
  have hn1 : 1 ≤ nR * nC := by
    have := Nat.mul_pos (show 0 < nR by omega) (show 0 < nC by omega)
    omega
  have hgen : generateMaze g0 nR nC l =
      l.foldl (genStep nR nC) ⟨initialMaze g0 nR nC, fun i => i, 0⟩ := rfl
  rw [hgen]
  set s' := l.foldl (genStep nR nC) ⟨initialMaze g0 nR nC, fun i => i, 0⟩
    with hs'
  have hCpos : 1 ≤ numClasses (nR * nC) s'.parent :=
    numClasses_pos s'.parent hn1
  have hle : s'.wallsRemoved ≤ nR * nC - 1 := by
    have h1 := hinv.classes
    have h2 := hinv.count_eq
    omega
  -- exact removal count
  have hcount : s'.wallsRemoved = nR * nC - 1 := by
    by_contra hnc
    have hlt : s'.wallsRemoved < nR * nC - 1 := by omega
    have hconn2 : ∀ w ∈ internalWalls nR nC, ∀ r2 c2,
        getNeighbor w.r w.c w.direction nR nC = some (r2, c2) →
        rootD (nR * nC) s'.parent (idxOf nC (w.r, w.c)) =
          rootD (nR * nC) s'.parent (idxOf nC (r2, c2)) :=
      fun w hw => hconn hlt w (hl.mem_iff.mpr hw)
    have hall := conn_to_origin hconn2
    have hcell : ∀ i, i < nR * nC →
        rootD (nR * nC) s'.parent i =
          rootD (nR * nC) s'.parent (idxOf nC (0, 0)) := by
      intro i hi
      have h2 : i % nC < nC := Nat.mod_lt _ (by omega)
      have h1 : i / nC < nR := by
        by_contra hge
        have : nR * nC ≤ i := by
          calc nR * nC ≤ (i / nC) * nC :=
                Nat.mul_le_mul_right nC (by omega)
            _ ≤ (i / nC) * nC + i % nC := by omega
            _ = i := by
                rw [Nat.mul_comm]
                exact Nat.div_add_mod i nC
        omega
      have hidx : idxOf nC (i / nC, i % nC) = i := by
        show i / nC * nC + i % nC = i
        rw [Nat.mul_comm]
        exact Nat.div_add_mod i nC
      have := hall (i / nC + i % nC) (i / nC, i % nC) rfl h1 h2
      rw [hidx] at this
      exact this
    have hone : numClasses (nR * nC) s'.parent = 1 := by
      apply le_antisymm
      · apply Finset.card_le_one.mpr
        intro a ha b hb
        simp only [Finset.mem_image, Finset.mem_range] at ha hb
        obtain ⟨i, hi, rfl⟩ := ha
        obtain ⟨j, hj, rfl⟩ := hb
        rw [hcell i hi, hcell j hj]
      · exact hCpos
    have h1 := hinv.classes
    have h2 := hinv.count_eq
    omega
  -- one class remains
  have hone : numClasses (nR * nC) s'.parent = 1 := by
    have h1 := hinv.classes
    have h2 := hinv.count_eq
    omega
  have hallEq : ∀ i j, i < nR * nC → j < nR * nC →
      rootD (nR * nC) s'.parent i = rootD (nR * nC) s'.parent j := by
    intro i j hi hj
    have hmi : rootD (nR * nC) s'.parent i ∈
        (Finset.range (nR * nC)).image (rootD (nR * nC) s'.parent) :=
      Finset.mem_image_of_mem _ (Finset.mem_range.mpr hi)
    have hmj : rootD (nR * nC) s'.parent j ∈
        (Finset.range (nR * nC)).image (rootD (nR * nC) s'.parent) :=
      Finset.mem_image_of_mem _ (Finset.mem_range.mpr hj)
    exact Finset.card_le_one.mp (le_of_eq hone) _ hmi _ hmj
  refine ⟨hcount, ?_, ?_⟩
  · -- connectivity
    intro x y hx1 hx2 hy1 hy2
    have hreach : ReachE R' x y := by
      rw [← hinv.partition x y hx1 hx2 hy1 hy2]
      exact hallEq _ _ (idxOf_lt hx1 hx2) (idxOf_lt hy1 hy2)
    exact Relation.ReflTransGen.mono
      (fun u v h => (AdjE_iff_openAdj hinv u v).mp h) hreach
  · -- acyclicity: every open passage is a bridge
    intro x y hxy hpath
    have hadj : AdjE R' x y := (AdjE_iff_openAdj hinv x y).mpr hxy
    rcases hadj with hm | hm
    · have hbridge := hinv.forest.2 (x, y) hm
      exact hbridge (Relation.ReflTransGen.mono
        (fun u v h => openAdjMinus_to_erase hinv (Or.inl rfl) h) hpath)
    · have hbridge := hinv.forest.2 (y, x) hm
      apply hbridge
      apply ReachE_symm
      exact Relation.ReflTransGen.mono
        (fun u v h => openAdjMinus_to_erase hinv (Or.inr rfl) h) hpath

/-- Witness for C1: the `2 × 2` grid with the unshuffled candidate list. -/
theorem generateMaze_spanning_tree_witness :
    (1 ≤ 2 ∧ 2 ≤ 50 ∧ (internalWalls 2 2).Perm (internalWalls 2 2)) ∧
    ((generateMaze (fun _ _ => 0) 2 2 (internalWalls 2 2)).wallsRemoved =
        2 * 2 - 1 ∧
      (∀ x y : Nat × Nat, x.1 < 2 → x.2 < 2 → y.1 < 2 → y.2 < 2 →
        Relation.ReflTransGen
          (openAdj (generateMaze (fun _ _ => 0) 2 2 (internalWalls 2 2)).maze
            2 2) x y) ∧
      (∀ x y : Nat × Nat,
        openAdj (generateMaze (fun _ _ => 0) 2 2 (internalWalls 2 2)).maze
          2 2 x y →
        ¬ Relation.ReflTransGen (fun u v =>
            openAdj (generateMaze (fun _ _ => 0) 2 2
              (internalWalls 2 2)).maze 2 2 u v ∧
            ¬(u = x ∧ v = y) ∧ ¬(u = y ∧ v = x)) x y)) :=
  ⟨⟨by decide, by decide, List.Perm.refl _⟩,
    generateMaze_spanning_tree (fun _ _ => 0) 2 2 (by decide) (by decide)
      (by decide) (by decide) (internalWalls 2 2) (List.Perm.refl _)⟩

/-! ## Open walks and the BFS invariant -/

/-- `OpenWalk m nR nC x y k`: there is a walk of exactly `k` open-passage
hops from `x` to `y`. -/
def OpenWalk (m : Grid) (nR nC : Nat) : (Nat × Nat) → (Nat × Nat) → Nat → Prop
  | x, y, 0 => x = y
  | x, y, k + 1 => ∃ z, openAdj m nR nC x z ∧ OpenWalk m nR nC z y k

theorem OpenWalk_snoc {m : Grid} {nR nC : Nat} {x z y : Nat × Nat} {k : Nat}
    (h : OpenWalk m nR nC x z k) (hzy : openAdj m nR nC z y) :
    OpenWalk m nR nC x y (k + 1) := by
  induction k generalizing x with
  | zero =>
    have hx : x = z := h
    exact ⟨y, hx ▸ hzy, rfl⟩
  | succ k ih =>
    obtain ⟨w, hxw, hwz⟩ := h
    exact ⟨w, hxw, ih hwz⟩

theorem openAdj_symm {g : Grid} {nR nC : Nat} (hsym : WallSymm g nR nC)
    {x y : Nat × Nat} (h : openAdj g nR nC x y) : openAdj g nR nC y x := by
  obtain ⟨hx1, hx2, d, hd, hn, hbit⟩ := h
  obtain ⟨y1, y2⟩ := y
  have hy := getNeighbor_target_lt hn
  have hrev := getNeighbor_rev hd hn
  rw [if_pos ⟨hx1, hx2⟩] at hrev
  refine ⟨hy.1, hy.2, getOppositeWall d, getOppositeWall_mem hd, hrev, ?_⟩
  rw [← hsym x.1 x.2 d y1 y2 hx1 hx2 hd hn]
  exact hbit

theorem OpenWalk_symm {g : Grid} {nR nC : Nat} (hsym : WallSymm g nR nC)
    {x y : Nat × Nat} {k : Nat} (h : OpenWalk g nR nC x y k) :
    OpenWalk g nR nC y x k := by
  induction k generalizing x with
  | zero =>
    exact (show x = y from h).symm
  | succ k ih =>
    obtain ⟨z, hxz, hzy⟩ := h
    exact OpenWalk_snoc (ih hzy) (openAdj_symm hsym hxz)

theorem clearVisited_openAdj (g : Grid) (nR nC : Nat) (x y : Nat × Nat) :
    openAdj (clearVisited g nR nC) nR nC x y ↔ openAdj g nR nC x y := by
  unfold openAdj
  constructor <;> rintro ⟨h1, h2, d, hd, hn, hbit⟩ <;>
    refine ⟨h1, h2, d, hd, hn, ?_⟩
  · rw [show clearVisited g nR nC x.1 x.2 = g x.1 x.2 &&& (255 ^^^ VISITED) from
      by unfold clearVisited; rw [if_pos ⟨h1, h2⟩]] at hbit
    have habs : (g x.1 x.2 &&& (255 ^^^ VISITED)) &&& d = g x.1 x.2 &&& d := by
      fin_cases hd <;> exact land_absorb _ (by decide)
    rw [habs] at hbit
    exact hbit
  · show clearVisited g nR nC x.1 x.2 &&& d = 0
    unfold clearVisited
    rw [if_pos ⟨h1, h2⟩]
    have habs : (g x.1 x.2 &&& (255 ^^^ VISITED)) &&& d = g x.1 x.2 &&& d := by
      fin_cases hd <;> exact land_absorb _ (by decide)
    rw [habs]
    exact hbit

theorem clearVisited_WallSymm {g : Grid} {nR nC : Nat}
    (hsym : WallSymm g nR nC) : WallSymm (clearVisited g nR nC) nR nC := by
  intro r c d r2 c2 hr hc hd hn
  have hlt := getNeighbor_target_lt hn
  unfold clearVisited
  rw [if_pos ⟨hr, hc⟩, if_pos ⟨hlt.1, hlt.2⟩]
  have h1 : (g r c &&& (255 ^^^ VISITED)) &&& d = g r c &&& d := by
    fin_cases hd <;> exact land_absorb _ (by decide)
  have h2 : (g r2 c2 &&& (255 ^^^ VISITED)) &&& getOppositeWall d =
      g r2 c2 &&& getOppositeWall d := by
    fin_cases hd <;> exact land_absorb _ (by decide)
  rw [h1, h2]
  exact hsym r c d r2 c2 hr hc hd hn

/-- Decoding the canonical index of an in-grid cell. -/
theorem decode_idx {nC r c : Nat} (hc : c < nC) :
    (r * nC + c) / nC = r ∧ (r * nC + c) % nC = c := by
  constructor
  · rw [Nat.mul_comm, Nat.mul_add_div (by omega)]
    rw [Nat.div_eq_of_lt hc]
    omega
  · rw [Nat.mul_add_mod' r nC c]
    exact Nat.mod_eq_of_lt hc

/-- Number of unvisited in-grid cells — the BFS progress measure. -/
def uncounted (nR nC : Nat) (count : Nat → Nat → Int) : Nat :=
  ((Finset.range nR ×ˢ Finset.range nC).filter
    (fun p => count p.1 p.2 = -1)).card

theorem updateCount_self (count : Nat → Nat → Int) (r c : Nat) (v : Int) :
    updateCount count r c v r c = v := by
  simp [updateCount]

theorem updateCount_other (count : Nat → Nat → Int) (r c : Nat) (v : Int)
    {r' c' : Nat} (h : (r', c') ≠ (r, c)) :
    updateCount count r c v r' c' = count r' c' := by
  unfold updateCount
  by_cases h1 : r' = r
  · by_cases h2 : c' = c
    · exact absurd (by rw [h1, h2]) h
    · simp [h1, h2]
  · simp [h1]

/-- The BFS state invariant, for maze `m` and goal cell `(nR-1, nC-1)`:
counts are sound (witnessed by a walk from the goal), the queue is two
adjacent levels `D, D+1`, cells already dequeued have all their open
neighbors labeled within `+1`, and the push log is duplicate-free. -/
structure BfsInv (m : Grid) (nR nC : Nat) (st : BfsState) : Prop where
  goal0 : st.1 (nR - 1) (nC - 1) = 0
  range : ∀ r c, st.1 r c ≠ -1 → 0 ≤ st.1 r c
  ingrid : ∀ r c, st.1 r c ≠ -1 → r < nR ∧ c < nC
  sound : ∀ r c, st.1 r c ≠ -1 → ∃ k : Nat, (k : Int) = st.1 r c ∧
    OpenWalk m nR nC (nR - 1, nC - 1) (r, c) k
  qpush : ∀ i ∈ st.2.1, i ∈ st.2.2
  pushed_counted : ∀ i ∈ st.2.2, ∃ r c, i = r * nC + c ∧ c < nC ∧
    st.1 r c ≠ -1
  counted_pushed : ∀ r c, st.1 r c ≠ -1 → (r * nC + c) ∈ st.2.2
  push_nodup : st.2.2.Nodup
  q_nodup : st.2.1.Nodup
  levels : ∃ (D : Int) (q1 q2 : List Nat), 0 ≤ D ∧ st.2.1 = q1 ++ q2 ∧
    (∀ i ∈ q1, st.1 (i / nC) (i % nC) = D) ∧
    (∀ i ∈ q2, st.1 (i / nC) (i % nC) = D + 1)
  frontier : ∀ r c, st.1 r c ≠ -1 → (r * nC + c) ∉ st.2.1 →
    ∀ y : Nat × Nat, openAdj m nR nC (r, c) y →
      st.1 y.1 y.2 ≠ -1 ∧ st.1 y.1 y.2 ≤ st.1 r c + 1
  final_le : ∀ r c, st.1 r c ≠ -1 → (r * nC + c) ∉ st.2.1 →
    ∀ j ∈ st.2.1, st.1 r c ≤ st.1 (j / nC) (j % nC)

theorem bfsInv_init (m : Grid) (nR nC : Nat) (hR : 1 ≤ nR) (hC : 1 ≤ nC) :
    BfsInv m nR nC
      (updateCount (fun _ _ => -1) (nR - 1) (nC - 1) 0,
        [(nR - 1) * nC + (nC - 1)], [(nR - 1) * nC + (nC - 1)]) := by
  have hchar : ∀ r c, updateCount (fun _ _ => -1) (nR - 1) (nC - 1) 0 r c ≠ -1 →
      (r, c) = (nR - 1, nC - 1) := by
    intro r c h
    by_contra hne
    rw [updateCount_other _ _ _ _ hne] at h
    exact h rfl
  have hdec := @decode_idx nC (nR - 1) (nC - 1) (by omega)
  have hself : updateCount (fun _ _ => -1) (nR - 1) (nC - 1) 0 (nR - 1) (nC - 1)
      = 0 := updateCount_self _ _ _ _
  constructor
  · exact hself
  · intro r c h
    obtain ⟨rfl, rfl⟩ : r = nR - 1 ∧ c = nC - 1 := Prod.mk.injEq .. ▸ hchar r c h
    show 0 ≤ updateCount (fun _ _ => -1) (nR - 1) (nC - 1) 0 (nR - 1) (nC - 1)
    rw [hself]
  · intro r c h
    obtain ⟨rfl, rfl⟩ : r = nR - 1 ∧ c = nC - 1 := Prod.mk.injEq .. ▸ hchar r c h
    omega
  · intro r c h
    obtain ⟨rfl, rfl⟩ : r = nR - 1 ∧ c = nC - 1 := Prod.mk.injEq .. ▸ hchar r c h
    refine ⟨0, ?_, rfl⟩
    show (0 : Int) = updateCount (fun _ _ => -1) (nR - 1) (nC - 1) 0 (nR - 1) (nC - 1)
    rw [hself]
  · exact fun i hi => hi
  · intro i hi
    rw [List.mem_singleton.mp hi]
    refine ⟨nR - 1, nC - 1, rfl, by omega, ?_⟩
    show updateCount (fun _ _ => -1) (nR - 1) (nC - 1) 0 (nR - 1) (nC - 1) ≠ -1
    rw [hself]
    omega
  · intro r c h
    obtain ⟨rfl, rfl⟩ : r = nR - 1 ∧ c = nC - 1 := Prod.mk.injEq .. ▸ hchar r c h
    exact List.mem_singleton_self _
  · exact List.nodup_singleton _
  · exact List.nodup_singleton _
  · refine ⟨0, [(nR - 1) * nC + (nC - 1)], [], by omega, by simp, ?_, by simp⟩
    intro i hi
    rw [List.mem_singleton.mp hi]
    show updateCount (fun _ _ => -1) (nR - 1) (nC - 1) 0
      (((nR - 1) * nC + (nC - 1)) / nC) (((nR - 1) * nC + (nC - 1)) % nC) = 0
    rw [hdec.1, hdec.2]
    exact hself
  · intro r c h hq
    obtain ⟨rfl, rfl⟩ : r = nR - 1 ∧ c = nC - 1 := Prod.mk.injEq .. ▸ hchar r c h
    exact absurd (List.mem_singleton_self _) hq
  · intro r c h hq
    obtain ⟨rfl, rfl⟩ : r = nR - 1 ∧ c = nC - 1 := Prod.mk.injEq .. ▸ hchar r c h
    exact absurd (List.mem_singleton_self _) hq

theorem bfsVisit_not_open {nR nC : Nat} {m : Grid} {r c d : Nat}
    (st : BfsState) (h : ¬ (m r c &&& d = 0)) :
    bfsVisit nR nC m r c st d = st := by
  unfold bfsVisit
  rw [if_neg h]

theorem bfsVisit_none {nR nC : Nat} {m : Grid} {r c d : Nat}
    (st : BfsState) (h : m r c &&& d = 0)
    (hgn : getNeighbor r c d nR nC = none) :
    bfsVisit nR nC m r c st d = st := by
  unfold bfsVisit
  rw [if_pos h]
  rw [hgn]

theorem bfsVisit_some_counted {nR nC : Nat} {m : Grid} {r c d a b : Nat}
    (st : BfsState) (h : m r c &&& d = 0)
    (hgn : getNeighbor r c d nR nC = some (a, b)) (hcnt : ¬ (st.1 a b = -1)) :
    bfsVisit nR nC m r c st d = st := by
  unfold bfsVisit
  rw [if_pos h]
  rw [hgn]
  simp only []
  rw [if_neg hcnt]

theorem uncounted_update {nR nC : Nat} {count : Nat → Nat → Int} {a b : Nat}
    (ha : a < nR) (hb : b < nC) (h : count a b = -1) {v : Int} (hv : v ≠ -1) :
    uncounted nR nC count = uncounted nR nC (updateCount count a b v) + 1 := by
  unfold uncounted
  have hmem : ((a, b) : Nat × Nat) ∈ (Finset.range nR ×ˢ Finset.range nC).filter
      (fun p => count p.1 p.2 = -1) := by
    simp only [Finset.mem_filter, Finset.mem_product, Finset.mem_range]
    exact ⟨⟨ha, hb⟩, h⟩
  have hset : (Finset.range nR ×ˢ Finset.range nC).filter
      (fun p => updateCount count a b v p.1 p.2 = -1) =
      ((Finset.range nR ×ˢ Finset.range nC).filter
        (fun p => count p.1 p.2 = -1)).erase (a, b) := by
    ext p
    obtain ⟨p1, p2⟩ := p
    simp only [Finset.mem_filter, Finset.mem_erase, Finset.mem_product,
      Finset.mem_range]
    constructor
    · rintro ⟨⟨hp1, hp2⟩, hpc⟩
      have hne : ((p1, p2) : Nat × Nat) ≠ (a, b) := by
        intro he
        obtain ⟨h1, h2⟩ : p1 = a ∧ p2 = b := Prod.mk.injEq .. ▸ he
        rw [h1, h2, updateCount_self] at hpc
        exact hv hpc
      rw [updateCount_other _ _ _ _ hne] at hpc
      exact ⟨hne, ⟨hp1, hp2⟩, hpc⟩
    · rintro ⟨hne, ⟨hp1, hp2⟩, hpc⟩
      refine ⟨⟨hp1, hp2⟩, ?_⟩
      rw [updateCount_other _ _ _ _ hne]
      exact hpc
  have hpos : 0 < ((Finset.range nR ×ˢ Finset.range nC).filter
      (fun p => count p.1 p.2 = -1)).card :=
    Finset.card_pos.mpr ⟨_, hmem⟩
  rw [hset, Finset.card_erase_of_mem hmem]
  omega

theorem bfsVisit_some_new {nR nC : Nat} {m : Grid} {r c d a b : Nat}
    (st : BfsState) (h : m r c &&& d = 0)
    (hgn : getNeighbor r c d nR nC = some (a, b)) (hcnt : st.1 a b = -1) :
    bfsVisit nR nC m r c st d =
      (updateCount st.1 a b (st.1 r c + 1),
        st.2.1 ++ [a * nC + b], st.2.2 ++ [a * nC + b]) := by
  unfold bfsVisit
  rw [if_pos h]
  rw [hgn]
  simp only []
  rw [if_pos hcnt]

theorem bfsVisit_new_tuple {nR nC : Nat} {m : Grid} {r c d a b : Nat}
    {count : Nat → Nat → Int} {qtail pushes : List Nat}
    (h : m r c &&& d = 0) (hgn : getNeighbor r c d nR nC = some (a, b))
    (hcnt : count a b = -1) :
    bfsVisit nR nC m r c (count, qtail, pushes) d =
      (updateCount count a b (count r c + 1),
        qtail ++ [a * nC + b], pushes ++ [a * nC + b]) :=
  bfsVisit_some_new (count, qtail, pushes) h hgn hcnt

/-- Processing a direction list `L` for the dequeued cell `(r, c)` at level
`D`: some batch `Δ` of previously unvisited open neighbors of `(r, c)` gets
count `D + 1` and is appended, identically, to the queue and the push log;
nothing else changes, and afterwards every open neighbor along `L` is
counted. -/
theorem bfsVisit_fold {nR nC : Nat} {m : Grid} {r c : Nat} {D : Int}
    (hr : r < nR) (hc : c < nC) (hD0 : 0 ≤ D) :
    ∀ L : List Nat, (∀ d ∈ L, d ∈ dirs6) →
    ∀ (count : Nat → Nat → Int) (qtail pushes : List Nat), count r c = D →
    ∃ Δ : List Nat,
      (L.foldl (bfsVisit nR nC m r c) (count, qtail, pushes)).2.1 =
        qtail ++ Δ ∧
      (L.foldl (bfsVisit nR nC m r c) (count, qtail, pushes)).2.2 =
        pushes ++ Δ ∧
      (∀ x y, count x y ≠ -1 →
        (L.foldl (bfsVisit nR nC m r c) (count, qtail, pushes)).1 x y =
          count x y) ∧
      (∀ x y,
        (L.foldl (bfsVisit nR nC m r c) (count, qtail, pushes)).1 x y ≠
          count x y →
        count x y = -1 ∧
        (L.foldl (bfsVisit nR nC m r c) (count, qtail, pushes)).1 x y =
          D + 1 ∧
        openAdj m nR nC (r, c) (x, y) ∧ (x * nC + y) ∈ Δ) ∧
      (∀ i ∈ Δ, ∃ x y, i = x * nC + y ∧ x < nR ∧ y < nC ∧ count x y = -1 ∧
        (L.foldl (bfsVisit nR nC m r c) (count, qtail, pushes)).1 x y =
          D + 1 ∧
        openAdj m nR nC (r, c) (x, y)) ∧
      Δ.Nodup ∧
      (∀ d ∈ L, ∀ y1 y2, m r c &&& d = 0 →
        getNeighbor r c d nR nC = some (y1, y2) →
        (L.foldl (bfsVisit nR nC m r c) (count, qtail, pushes)).1 y1 y2 ≠
          -1 ∧
        (count y1 y2 ≠ -1 ∨
          (L.foldl (bfsVisit nR nC m r c) (count, qtail, pushes)).1 y1 y2 =
            D + 1)) ∧
      uncounted nR nC count =
        uncounted nR nC
          (L.foldl (bfsVisit nR nC m r c) (count, qtail, pushes)).1 +
          Δ.length := by
  intro L
  induction L with
  | nil =>
    intro _ count qtail pushes _
    refine ⟨[], by simp, by simp, fun x y _ => rfl, ?_, by simp,
      List.nodup_nil, by simp, by simp⟩
    intro x y hxy
    exact absurd rfl hxy
  | cons d L' ih =>
    intro hL count qtail pushes hD
    rw [List.foldl_cons]
    by_cases hbit : m r c &&& d = 0
    · rcases hgn : getNeighbor r c d nR nC with _ | ⟨nbR, nbC⟩
      · rw [bfsVisit_none (count, qtail, pushes) hbit hgn]
        obtain ⟨Δ, h1, h2, h3, h4, h5, h6, h7, h8⟩ :=
          ih (fun e he => hL e (List.mem_cons_of_mem d he)) count qtail
            pushes hD
        refine ⟨Δ, h1, h2, h3, h4, h5, h6, ?_, h8⟩
        intro d' hd' y1 y2 hbit' hgn'
        rcases List.mem_cons.mp hd' with rfl | hd'
        · rw [hgn] at hgn'
          exact Option.noConfusion hgn'
        · exact h7 d' hd' y1 y2 hbit' hgn'
      · by_cases hcnt : count nbR nbC = -1
        · rw [bfsVisit_new_tuple hbit hgn hcnt]
          rw [hD]
          have hnb := getNeighbor_target_lt hgn
          have hne : ((nbR, nbC) : Nat × Nat) ≠ (r, c) := by
            intro he
            obtain ⟨e1, e2⟩ : nbR = r ∧ nbC = c := Prod.mk.injEq .. ▸ he
            rw [e1, e2, hD] at hcnt
            omega
          have hD' : updateCount count nbR nbC (D + 1) r c = D := by
            rw [updateCount_other _ _ _ _ (Ne.symm hne)]
            exact hD
          have hcnt' : updateCount count nbR nbC (D + 1) nbR nbC = D + 1 :=
            updateCount_self _ _ _ _
          have hadj : openAdj m nR nC (r, c) (nbR, nbC) :=
            ⟨hr, hc, d, hL d (List.mem_cons_self d L'), hgn, hbit⟩
          obtain ⟨Δ', h1, h2, h3, h4, h5, h6, h7, h8⟩ :=
            ih (fun e he => hL e (List.mem_cons_of_mem d he))
              (updateCount count nbR nbC (D + 1))
              (qtail ++ [nbR * nC + nbC]) (pushes ++ [nbR * nC + nbC]) hD'
          have hresnb :
              (L'.foldl (bfsVisit nR nC m r c)
                (updateCount count nbR nbC (D + 1),
                  qtail ++ [nbR * nC + nbC],
                  pushes ++ [nbR * nC + nbC])).1 nbR nbC = D + 1 := by
            rw [h3 nbR nbC (by rw [hcnt']; omega)]
            exact hcnt'
          have hother : ∀ x y, ((x, y) : Nat × Nat) ≠ (nbR, nbC) →
              updateCount count nbR nbC (D + 1) x y = count x y :=
            fun x y h => updateCount_other _ _ _ _ h
          refine ⟨(nbR * nC + nbC) :: Δ', ?_, ?_, ?_, ?_, ?_, ?_, ?_, ?_⟩
          · rw [h1, List.append_assoc]
            rfl
          · rw [h2, List.append_assoc]
            rfl
          · intro x y hxy
            have hnex : ((x, y) : Nat × Nat) ≠ (nbR, nbC) := by
              intro he
              obtain ⟨e1, e2⟩ : x = nbR ∧ y = nbC := Prod.mk.injEq .. ▸ he
              rw [e1, e2] at hxy
              exact hxy hcnt
            rw [h3 x y (by rw [hother x y hnex]; exact hxy)]
            exact hother x y hnex
          · intro x y hxy
            by_cases hxe : ((x, y) : Nat × Nat) = (nbR, nbC)
            · obtain ⟨e1, e2⟩ : x = nbR ∧ y = nbC := Prod.mk.injEq .. ▸ hxe
              subst e1
              subst e2
              exact ⟨hcnt, hresnb, hadj, List.mem_cons_self _ _⟩
            · rw [← hother x y hxe] at hxy
              obtain ⟨hc1, hc2, hc3, hc4⟩ := h4 x y hxy
              rw [hother x y hxe] at hc1
              exact ⟨hc1, hc2, hc3, List.mem_cons_of_mem _ hc4⟩
          · intro i hi
            rcases List.mem_cons.mp hi with rfl | hi
            · exact ⟨nbR, nbC, rfl, hnb.1, hnb.2, hcnt, hresnb, hadj⟩
            · obtain ⟨x, y, e1, e2, e3, e4, e5, e6⟩ := h5 i hi
              have hnex : ((x, y) : Nat × Nat) ≠ (nbR, nbC) := by
                intro he
                obtain ⟨eA, eB⟩ : x = nbR ∧ y = nbC := Prod.mk.injEq .. ▸ he
                rw [eA, eB, hcnt'] at e4
                omega
              rw [hother x y hnex] at e4
              exact ⟨x, y, e1, e2, e3, e4, e5, e6⟩
          · refine List.Nodup.cons ?_ h6
            intro hmem
            obtain ⟨x, y, e1, e2, e3, e4, e5, e6⟩ := h5 _ hmem
            have heq := idxOf_inj (x := (x, y)) (y := (nbR, nbC)) e3 hnb.2
              (by show x * nC + y = nbR * nC + nbC; rw [← e1])
            obtain ⟨eA, eB⟩ : x = nbR ∧ y = nbC := Prod.mk.injEq .. ▸ heq
            rw [eA, eB, hcnt'] at e4
            omega
          · intro d' hd' y1 y2 hbit' hgn'
            rcases List.mem_cons.mp hd' with rfl | hd'
            · rw [hgn] at hgn'
              obtain ⟨e1, e2⟩ : nbR = y1 ∧ nbC = y2 :=
                Prod.mk.injEq .. ▸ (Option.some.injEq .. ▸ hgn')
              subst e1
              subst e2
              rw [hresnb]
              exact ⟨by omega, Or.inr rfl⟩
            · obtain ⟨hu1, hu2⟩ := h7 d' hd' y1 y2 hbit' hgn'
              refine ⟨hu1, ?_⟩
              rcases hu2 with hu2 | hu2
              · by_cases hye : ((y1, y2) : Nat × Nat) = (nbR, nbC)
                · obtain ⟨e1, e2⟩ : y1 = nbR ∧ y2 = nbC :=
                    Prod.mk.injEq .. ▸ hye
                  subst e1
                  subst e2
                  exact Or.inr hresnb
                · rw [hother y1 y2 hye] at hu2
                  exact Or.inl hu2
              · exact Or.inr hu2
          · have hstep := uncounted_update hnb.1 hnb.2 hcnt
              (v := D + 1) (by omega)
            rw [List.length_cons]
            omega
        · rw [bfsVisit_some_counted (count, qtail, pushes) hbit hgn hcnt]
          obtain ⟨Δ, h1, h2, h3, h4, h5, h6, h7, h8⟩ :=
            ih (fun e he => hL e (List.mem_cons_of_mem d he)) count qtail
              pushes hD
          refine ⟨Δ, h1, h2, h3, h4, h5, h6, ?_, h8⟩
          intro d' hd' y1 y2 hbit' hgn'
          rcases List.mem_cons.mp hd' with rfl | hd'
          · rw [hgn] at hgn'
            obtain ⟨e1, e2⟩ : nbR = y1 ∧ nbC = y2 :=
              Prod.mk.injEq .. ▸ (Option.some.injEq .. ▸ hgn')
            subst e1
            subst e2
            rw [h3 nbR nbC hcnt]
            exact ⟨hcnt, Or.inl hcnt⟩
          · exact h7 d' hd' y1 y2 hbit' hgn'
    · rw [bfsVisit_not_open (count, qtail, pushes) hbit]
      obtain ⟨Δ, h1, h2, h3, h4, h5, h6, h7, h8⟩ :=
        ih (fun e he => hL e (List.mem_cons_of_mem d he)) count qtail
          pushes hD
      refine ⟨Δ, h1, h2, h3, h4, h5, h6, ?_, h8⟩
      intro d' hd' y1 y2 hbit' hgn'
      rcases List.mem_cons.mp hd' with rfl | hd'
      · exact absurd hbit' hbit
      · exact h7 d' hd' y1 y2 hbit' hgn'

/-- Dequeuing the head of the queue and processing its six directions
preserves the BFS invariant and strictly decreases the termination
measure. -/
theorem bfsInv_step {m : Grid} {nR nC : Nat} {count : Nat → Nat → Int}
    {idx : Nat} {rest pushes : List Nat}
    (hinv : BfsInv m nR nC (count, idx :: rest, pushes)) :
    ∀ res : BfsState,
      res = dirs6.foldl (bfsVisit nR nC m (idx / nC) (idx % nC))
        (count, rest, pushes) →
      BfsInv m nR nC res ∧
      res.2.1.length + 2 * uncounted nR nC res.1 <
        (idx :: rest).length + 2 * uncounted nR nC count := by
  have hql : ∀ j ∈ idx :: rest, ∃ a b, j = a * nC + b ∧ a < nR ∧ b < nC ∧
      count a b ≠ -1 ∧ j / nC = a ∧ j % nC = b := by
    intro j hj
    obtain ⟨a, b, e, hb, hcnt⟩ := hinv.pushed_counted j (hinv.qpush j hj)
    have ha := hinv.ingrid a b hcnt
    have hd := @decode_idx nC a b hb
    exact ⟨a, b, e, ha.1, ha.2, hcnt,
      by rw [e]; exact hd.1, by rw [e]; exact hd.2⟩
  obtain ⟨rr, cc, hidxe, hrr, hcc, hcnt0, hdr, hdc⟩ :=
    hql idx (List.mem_cons_self _ _)
  intro res hres
  rw [hdr, hdc] at hres
  obtain ⟨D, q1, q2, hD0, hqdec, hq1, hq2⟩ := hinv.levels
  have hqdec' : idx :: rest = q1 ++ q2 := hqdec
  have hq1' : ∀ i ∈ q1, count (i / nC) (i % nC) = D := hq1
  have hq2' : ∀ i ∈ q2, count (i / nC) (i % nC) = D + 1 := hq2
  obtain ⟨Dc, q1c, q2c, hDc0, hDceq, hrestd, hl1, hl2, hball⟩ :
      ∃ Dc q1c q2c, 0 ≤ Dc ∧ count rr cc = Dc ∧ rest = q1c ++ q2c ∧
        (∀ i ∈ q1c, count (i / nC) (i % nC) = Dc) ∧
        (∀ i ∈ q2c, count (i / nC) (i % nC) = Dc + 1) ∧
        (∀ j ∈ idx :: rest, count (j / nC) (j % nC) = Dc ∨
          count (j / nC) (j % nC) = Dc + 1) := by
    cases q1 with
    | nil =>
      cases q2 with
      | nil => simp at hqdec'
      | cons j q2t =>
        rw [List.nil_append] at hqdec'
        obtain ⟨e1, e2⟩ : idx = j ∧ rest = q2t :=
          List.cons.injEq .. ▸ hqdec'
        refine ⟨D + 1, q2t, [], by omega, ?_,
          by rw [e2, List.append_nil], ?_, by intro i hi; simp at hi, ?_⟩
        · have hh := hq2' j (List.mem_cons_self _ _)
          rw [← e1, hdr, hdc] at hh
          exact hh
        · intro i hi
          exact hq2' i (List.mem_cons_of_mem _ (e2 ▸ hi))
        · intro jj hjj
          left
          exact hq2' jj (hqdec' ▸ hjj)
    | cons j q1t =>
      rw [List.cons_append] at hqdec'
      obtain ⟨e1, e2⟩ : idx = j ∧ rest = q1t ++ q2 :=
        List.cons.injEq .. ▸ hqdec'
      refine ⟨D, q1t, q2, hD0, ?_, e2, ?_, hq2', ?_⟩
      · have hh := hq1' j (List.mem_cons_self _ _)
        rw [← e1, hdr, hdc] at hh
        exact hh
      · intro i hi
        exact hq1' i (List.mem_cons_of_mem _ hi)
      · intro jj hjj
        rw [hqdec'] at hjj
        rcases List.mem_cons.mp hjj with rfl | hjj
        · exact Or.inl (hq1' jj (List.mem_cons_self _ _))
        · rcases List.mem_append.mp hjj with hjj | hjj
          · exact Or.inl (hq1' jj (List.mem_cons_of_mem _ hjj))
          · exact Or.inr (hq2' jj hjj)
  obtain ⟨Δ, hq, hp, hA, hB, hΔm, hnodupΔ, hF, hM⟩ :=
    bfsVisit_fold hrr hcc hDc0 dirs6 (fun d hd => hd) count rest pushes hDceq
  rw [← hres] at hq hp hA hB hΔm hF hM
  have hDne : Dc + 1 ≠ -1 := by omega
  have hdisjPΔ : List.Disjoint pushes Δ := by
    intro i hiP hiΔ
    obtain ⟨a, b, e, hb, hcnt⟩ := hinv.pushed_counted i hiP
    obtain ⟨x, y, e', hx, hy, hxy, _, _⟩ := hΔm i hiΔ
    have heq := idxOf_inj (x := (a, b)) (y := (x, y)) hb hy
      (by show a * nC + b = x * nC + y; rw [← e, ← e'])
    obtain ⟨eA, eB⟩ : a = x ∧ b = y := Prod.mk.injEq .. ▸ heq
    rw [eA, eB] at hcnt
    exact hcnt hxy
  have hnew : ∀ x y, res.1 x y ≠ -1 →
      count x y ≠ -1 ∨
      (count x y = -1 ∧ res.1 x y = Dc + 1 ∧
        openAdj m nR nC (rr, cc) (x, y) ∧ (x * nC + y) ∈ Δ) := by
    intro x y hxy
    by_cases hcnt : count x y = -1
    · right
      have hne : res.1 x y ≠ count x y := by rw [hcnt]; exact hxy
      obtain ⟨h1, h2, h3, h4⟩ := hB x y hne
      exact ⟨hcnt, h2, h3, h4⟩
    · exact Or.inl hcnt
  have hg0 : count (nR - 1) (nC - 1) = 0 := hinv.goal0
  refine ⟨?_, ?_⟩
  · constructor
    · rw [hA (nR - 1) (nC - 1) (by rw [hg0]; omega)]
      exact hg0
    · intro x y hxy
      rcases hnew x y hxy with hc | ⟨_, h2, _, _⟩
      · rw [hA x y hc]
        exact hinv.range x y hc
      · rw [h2]
        omega
    · intro x y hxy
      rcases hnew x y hxy with hc | ⟨_, _, h3, _⟩
      · exact hinv.ingrid x y hc
      · obtain ⟨_, _, d, _, hgn', _⟩ := h3
        exact getNeighbor_target_lt hgn'
    · intro x y hxy
      rcases hnew x y hxy with hc | ⟨_, h2, h3, _⟩
      · obtain ⟨k, hk, hw⟩ := hinv.sound x y hc
        exact ⟨k, by rw [hA x y hc]; exact hk, hw⟩
      · obtain ⟨k0, hk0, hw0⟩ := hinv.sound rr cc hcnt0
        refine ⟨k0 + 1, ?_, OpenWalk_snoc hw0 h3⟩
        rw [h2]
        push_cast
        push_cast at hk0
        rw [hk0, hDceq]
    · intro i hi
      rw [hq] at hi
      rw [hp]
      rcases List.mem_append.mp hi with hi | hi
      · exact List.mem_append_left _
          (hinv.qpush i (List.mem_cons_of_mem _ hi))
      · exact List.mem_append_right _ hi
    · intro i hi
      rw [hp] at hi
      rcases List.mem_append.mp hi with hi | hi
      · obtain ⟨a, b, e, hb, hcnt⟩ := hinv.pushed_counted i hi
        exact ⟨a, b, e, hb, by rw [hA a b hcnt]; exact hcnt⟩
      · obtain ⟨x, y, e, hx, hy, _, h5, _⟩ := hΔm i hi
        exact ⟨x, y, e, hy, by rw [h5]; exact hDne⟩
    · intro x y hxy
      rw [hp]
      rcases hnew x y hxy with hc | ⟨_, _, _, h4⟩
      · exact List.mem_append_left _ (hinv.counted_pushed x y hc)
      · exact List.mem_append_right _ h4
    · rw [hp]
      exact List.Nodup.append hinv.push_nodup hnodupΔ hdisjPΔ
    · rw [hq]
      refine List.Nodup.append (List.Nodup.of_cons hinv.q_nodup) hnodupΔ ?_
      intro i hiR hiΔ
      exact hdisjPΔ (hinv.qpush i (List.mem_cons_of_mem _ hiR)) hiΔ
    · refine ⟨Dc, q1c, q2c ++ Δ, hDc0, ?_, ?_, ?_⟩
      · rw [hq, hrestd, List.append_assoc]
      · intro i hi
        have hh := hl1 i hi
        have hcnt : count (i / nC) (i % nC) ≠ -1 := by rw [hh]; omega
        rw [hA _ _ hcnt]
        exact hh
      · intro i hi
        rcases List.mem_append.mp hi with hi | hi
        · have hh := hl2 i hi
          have hcnt : count (i / nC) (i % nC) ≠ -1 := by rw [hh]; omega
          rw [hA _ _ hcnt]
          exact hh
        · obtain ⟨x, y, e, hx, hy, _, h5, _⟩ := hΔm i hi
          have hd := @decode_idx nC x y hy
          rw [e, hd.1, hd.2]
          exact h5
    · intro a b hab hnotin y hadj
      rw [hq] at hnotin
      rcases hnew a b hab with hc | ⟨_, _, _, h4⟩
      · have hresab := hA a b hc
        have hb' := (hinv.ingrid a b hc).2
        obtain ⟨y1, y2⟩ := y
        show res.1 y1 y2 ≠ -1 ∧ res.1 y1 y2 ≤ res.1 a b + 1
        by_cases hidx : a * nC + b = idx
        · have heq := idxOf_inj (x := (a, b)) (y := (rr, cc)) hb' hcc
            (by show a * nC + b = rr * nC + cc; rw [hidx, hidxe])
          obtain ⟨eA, eB⟩ : a = rr ∧ b = cc := Prod.mk.injEq .. ▸ heq
          rw [eA, eB] at hadj ⊢
          obtain ⟨_, _, d, hd, hgn', hbit'⟩ := hadj
          obtain ⟨hr1, hr2⟩ := hF d hd y1 y2 hbit' hgn'
          refine ⟨hr1, ?_⟩
          rw [hA rr cc hcnt0, hDceq]
          rcases hr2 with hcy | hcy
          · rw [hA y1 y2 hcy]
            have hylt := getNeighbor_target_lt hgn'
            have hyd := @decode_idx nC y1 y2 hylt.2
            by_cases hmem : y1 * nC + y2 ∈ idx :: rest
            · rcases hball _ hmem with hh | hh
              · rw [hyd.1, hyd.2] at hh
                rw [hh]
                omega
              · rw [hyd.1, hyd.2] at hh
                rw [hh]
            · have hfl : count y1 y2 ≤ count (idx / nC) (idx % nC) :=
                hinv.final_le y1 y2 hcy hmem idx (List.mem_cons_self _ _)
              rw [hdr, hdc, hDceq] at hfl
              omega
          · rw [hcy]
        · have hnin : a * nC + b ∉ idx :: rest := by
            intro hmem
            rcases List.mem_cons.mp hmem with he | he
            · exact hidx he
            · exact hnotin (List.mem_append_left _ he)
          have hold := hinv.frontier a b hc hnin (y1, y2) hadj
          have hyc : count y1 y2 ≠ -1 := hold.1
          refine ⟨by rw [hA y1 y2 hyc]; exact hyc, ?_⟩
          rw [hA y1 y2 hyc, hresab]
          exact hold.2
      · exact absurd (List.mem_append_right rest h4) hnotin
    · intro a b hab hnotin j hj
      rw [hq] at hnotin hj
      rcases hnew a b hab with hc | ⟨_, _, _, h4⟩
      · have hresab := hA a b hc
        have hb' := (hinv.ingrid a b hc).2
        rcases List.mem_append.mp hj with hj | hj
        · obtain ⟨aj, bj, ej, _, hbj, hcntj, hdj1, hdj2⟩ :=
            hql j (List.mem_cons_of_mem _ hj)
          rw [hdj1, hdj2, hA aj bj hcntj, hresab]
          by_cases hidx : a * nC + b = idx
          · have heq := idxOf_inj (x := (a, b)) (y := (rr, cc)) hb' hcc
              (by show a * nC + b = rr * nC + cc; rw [hidx, hidxe])
            obtain ⟨eA, eB⟩ : a = rr ∧ b = cc := Prod.mk.injEq .. ▸ heq
            rw [eA, eB, hDceq]
            have hh := hball j (List.mem_cons_of_mem _ hj)
            rw [hdj1, hdj2] at hh
            rcases hh with hh | hh <;> rw [hh] <;> omega
          · have hnin : a * nC + b ∉ idx :: rest := by
              intro hmem
              rcases List.mem_cons.mp hmem with he | he
              · exact hidx he
              · exact hnotin (List.mem_append_left _ he)
            have hfl := hinv.final_le a b hc hnin j (List.mem_cons_of_mem _ hj)
            rw [hdj1, hdj2] at hfl
            exact hfl
        · obtain ⟨x, y, e, hx, hy, _, h5, _⟩ := hΔm j hj
          have hd := @decode_idx nC x y hy
          rw [e, hd.1, hd.2, h5, hresab]
          by_cases hidx : a * nC + b = idx
          · have heq := idxOf_inj (x := (a, b)) (y := (rr, cc)) hb' hcc
              (by show a * nC + b = rr * nC + cc; rw [hidx, hidxe])
            obtain ⟨eA, eB⟩ : a = rr ∧ b = cc := Prod.mk.injEq .. ▸ heq
            rw [eA, eB, hDceq]
            omega
          · have hnin : a * nC + b ∉ idx :: rest := by
              intro hmem
              rcases List.mem_cons.mp hmem with he | he
              · exact hidx he
              · exact hnotin (List.mem_append_left _ he)
            have hfl : count a b ≤ count (idx / nC) (idx % nC) :=
              hinv.final_le a b hc hnin idx (List.mem_cons_self _ _)
            rw [hdr, hdc, hDceq] at hfl
            omega
      · exact absurd (List.mem_append_right rest h4) hnotin
  · rw [hq, List.length_append, List.length_cons]
    omega

theorem bfsLoop_nil {nR nC : Nat} {m : Grid} {fuel : Nat}
    {count : Nat → Nat → Int} {pushes : List Nat} :
    bfsLoop nR nC m (fuel + 1) (count, [], pushes) = (count, [], pushes) :=
  rfl

theorem bfsLoop_cons {nR nC : Nat} {m : Grid} {fuel : Nat}
    {count : Nat → Nat → Int} {idx : Nat} {rest pushes : List Nat} :
    bfsLoop nR nC m (fuel + 1) (count, idx :: rest, pushes) =
      bfsLoop nR nC m fuel
        (dirs6.foldl (bfsVisit nR nC m (idx / nC) (idx % nC))
          (count, rest, pushes)) :=
  rfl

/-- Running the BFS loop with fuel at least the termination measure
`|queue| + 2·(number of uncounted cells)` preserves the invariant and
drains the queue. -/
theorem bfsLoop_spec {m : Grid} {nR nC : Nat} :
    ∀ (fuel : Nat) (st : BfsState), BfsInv m nR nC st →
      st.2.1.length + 2 * uncounted nR nC st.1 ≤ fuel →
      BfsInv m nR nC (bfsLoop nR nC m fuel st) ∧
      (bfsLoop nR nC m fuel st).2.1 = [] := by
  intro fuel
  induction fuel with
  | zero =>
    intro st hinv hm
    have hq : st.2.1 = [] := List.length_eq_zero.mp (by omega)
    exact ⟨hinv, hq⟩
  | succ fuel ih =>
    intro st hinv hm
    obtain ⟨count, q, pushes⟩ := st
    cases q with
    | nil =>
      rw [bfsLoop_nil]
      exact ⟨hinv, rfl⟩
    | cons idx rest =>
      rw [bfsLoop_cons]
      obtain ⟨hinv', hlt⟩ := bfsInv_step hinv _ rfl
      refine ih _ hinv' ?_
      have hm' : (idx :: rest).length + 2 * uncounted nR nC count ≤
          fuel + 1 := hm
      omega

theorem OpenWalk_decomp {m : Grid} {nR nC : Nat} {y : Nat × Nat} :
    ∀ (k : Nat) (x : Nat × Nat), OpenWalk m nR nC x y (k + 1) →
      ∃ z, OpenWalk m nR nC x z k ∧ openAdj m nR nC z y := by
  intro k
  induction k with
  | zero =>
    intro x h
    obtain ⟨z, hadj, hzy⟩ := h
    have hzy' : z = y := hzy
    exact ⟨x, rfl, hzy' ▸ hadj⟩
  | succ k ih =>
    intro x h
    obtain ⟨z, hadj, hw⟩ := h
    obtain ⟨w, hw1, hw2⟩ := ih z hw
    exact ⟨w, ⟨z, hadj, hw1⟩, hw2⟩

theorem OpenWalk_clearVisited (g : Grid) (nR nC : Nat) (y : Nat × Nat) :
    ∀ (k : Nat) (x : Nat × Nat),
      OpenWalk (clearVisited g nR nC) nR nC x y k ↔ OpenWalk g nR nC x y k := by
  intro k
  induction k with
  | zero => intro x; exact Iff.rfl
  | succ k ih =>
    intro x
    constructor
    · rintro ⟨z, hadj, hw⟩
      exact ⟨z, (clearVisited_openAdj g nR nC x z).mp hadj, (ih z).mp hw⟩
    · rintro ⟨z, hadj, hw⟩
      exact ⟨z, (clearVisited_openAdj g nR nC x z).mpr hadj, (ih z).mpr hw⟩

theorem uncounted_init_lt {nR nC : Nat} (hR : 1 ≤ nR) (hC : 1 ≤ nC) :
    uncounted nR nC (updateCount (fun _ _ => -1) (nR - 1) (nC - 1) 0) <
      nR * nC := by
  unfold uncounted
  have hsub := Finset.filter_subset
    (fun p : Nat × Nat =>
      updateCount (fun _ _ => -1) (nR - 1) (nC - 1) 0 p.1 p.2 = -1)
    (Finset.range nR ×ˢ Finset.range nC)
  have hgin : ((nR - 1, nC - 1) : Nat × Nat) ∈
      Finset.range nR ×ˢ Finset.range nC := by
    simp only [Finset.mem_product, Finset.mem_range]
    omega
  have hgout : ((nR - 1, nC - 1) : Nat × Nat) ∉
      (Finset.range nR ×ˢ Finset.range nC).filter
        (fun p =>
          updateCount (fun _ _ => -1) (nR - 1) (nC - 1) 0 p.1 p.2 = -1) := by
    simp only [Finset.mem_filter]
    rintro ⟨-, hmem⟩
    have hm' : updateCount (fun _ _ => -1) (nR - 1) (nC - 1) 0
        (nR - 1) (nC - 1) = -1 := hmem
    rw [updateCount_self] at hm'
    omega
  calc ((Finset.range nR ×ˢ Finset.range nC).filter
      (fun p =>
        updateCount (fun _ _ => -1) (nR - 1) (nC - 1) 0 p.1 p.2 = -1)).card
      < (Finset.range nR ×ˢ Finset.range nC).card :=
        Finset.card_lt_card
          ((Finset.ssubset_iff_of_subset hsub).mpr ⟨_, hgin, hgout⟩)
    _ = nR * nC := by
        rw [Finset.card_product, Finset.card_range, Finset.card_range]

/-- C4: in the solver's distance-labeling phase the goal cell
`(nR-1, nC-1)` gets count 0; each cell enters the BFS queue at most once
(the push log is duplicate-free); a cell reachable from the goal through
open passages gets the length of a shortest open walk from it to the goal
(the count bounds every such walk from below and is attained by one);
unreachable cells keep the sentinel `-1`. -/
theorem solveMazeBFS_distances (g : Grid) (nR nC : Nat)
    (hR : 1 ≤ nR) (hC : 1 ≤ nC) (hsym : WallSymm g nR nC) :
    solveCounts g nR nC (nR - 1) (nC - 1) = 0 ∧
    (solveCountsFull g nR nC).2.2.Nodup ∧
    ∀ r c, r < nR → c < nC →
      (∀ k : Nat, OpenWalk g nR nC (r, c) (nR - 1, nC - 1) k →
        solveCounts g nR nC r c ≠ -1 ∧
        solveCounts g nR nC r c ≤ (k : Int)) ∧
      (solveCounts g nR nC r c ≠ -1 →
        ∃ k : Nat, (k : Int) = solveCounts g nR nC r c ∧
          OpenWalk g nR nC (r, c) (nR - 1, nC - 1) k) := by
  have hsym' : WallSymm (clearVisited g nR nC) nR nC :=
    clearVisited_WallSymm hsym
  obtain ⟨hfin, hqnil⟩ := bfsLoop_spec (m := clearVisited g nR nC)
    (2 * (nR * nC))
    (updateCount (fun _ _ => -1) (nR - 1) (nC - 1) 0,
      [(nR - 1) * nC + (nC - 1)], [(nR - 1) * nC + (nC - 1)])
    (bfsInv_init (clearVisited g nR nC) nR nC hR hC)
    (by
      show 1 + 2 * uncounted nR nC
        (updateCount (fun _ _ => -1) (nR - 1) (nC - 1) 0) ≤ 2 * (nR * nC)
      have hu := uncounted_init_lt hR hC
      omega)
  have hfc : solveCountsFull g nR nC =
      bfsLoop nR nC (clearVisited g nR nC) (2 * (nR * nC))
        (updateCount (fun _ _ => -1) (nR - 1) (nC - 1) 0,
          [(nR - 1) * nC + (nC - 1)], [(nR - 1) * nC + (nC - 1)]) := rfl
  rw [← hfc] at hfin hqnil
  have hbound : ∀ (k : Nat) (x : Nat × Nat),
      OpenWalk (clearVisited g nR nC) nR nC (nR - 1, nC - 1) x k →
      (solveCountsFull g nR nC).1 x.1 x.2 ≠ -1 ∧
      (solveCountsFull g nR nC).1 x.1 x.2 ≤ (k : Int) := by
    intro k
    induction k with
    | zero =>
      intro x hx
      have hx' : ((nR - 1, nC - 1) : Nat × Nat) = x := hx
      rw [← hx']
      show (solveCountsFull g nR nC).1 (nR - 1) (nC - 1) ≠ -1 ∧
        (solveCountsFull g nR nC).1 (nR - 1) (nC - 1) ≤ ((0 : Nat) : Int)
      rw [hfin.goal0]
      omega
    | succ k ih =>
      intro x hx
      obtain ⟨z, hwz, hadj⟩ := OpenWalk_decomp k (nR - 1, nC - 1) hx
      obtain ⟨hz1, hz2⟩ := ih z hwz
      have hfr := hfin.frontier z.1 z.2 hz1
        (by rw [hqnil]; exact List.not_mem_nil _) x hadj
      refine ⟨hfr.1, ?_⟩
      have hle := hfr.2
      omega
  refine ⟨hfin.goal0, hfin.push_nodup, ?_⟩
  intro r c hr hc
  constructor
  · intro k hwalk
    have hw1 : OpenWalk (clearVisited g nR nC) nR nC (r, c)
        (nR - 1, nC - 1) k :=
      (OpenWalk_clearVisited g nR nC _ k (r, c)).mpr hwalk
    have hw2 := OpenWalk_symm hsym' hw1
    exact hbound k (r, c) hw2
  · intro hne
    obtain ⟨k, hk, hw⟩ := hfin.sound r c hne
    refine ⟨k, hk, ?_⟩
    have hw1 := OpenWalk_symm hsym' hw
    exact (OpenWalk_clearVisited g nR nC _ k (r, c)).mp hw1

theorem solveMazeBFS_distances_witness :
    (1 ≤ 1 ∧ WallSymm (fun _ _ => 63) 1 1) ∧
    (solveCounts (fun _ _ => 63) 1 1 0 0 = 0 ∧
      (solveCountsFull (fun _ _ => 63) 1 1).2.2.Nodup ∧
      ∀ r c, r < 1 → c < 1 →
        (∀ k : Nat, OpenWalk (fun _ _ => 63) 1 1 (r, c) (0, 0) k →
          solveCounts (fun _ _ => 63) 1 1 r c ≠ -1 ∧
          solveCounts (fun _ _ => 63) 1 1 r c ≤ (k : Int)) ∧
        (solveCounts (fun _ _ => 63) 1 1 r c ≠ -1 →
          ∃ k : Nat, (k : Int) = solveCounts (fun _ _ => 63) 1 1 r c ∧
            OpenWalk (fun _ _ => 63) 1 1 (r, c) (0, 0) k)) := by
  have hsym : WallSymm (fun _ _ => 63) 1 1 := by
    intro r c d r2 c2 hr hc hd hn
    obtain rfl : r = 0 := by omega
    obtain rfl : c = 0 := by omega
    have hnone : getNeighbor 0 0 d 1 1 = none := by
      fin_cases hd <;> rfl
    rw [hnone] at hn
    exact Option.noConfusion hn
  exact ⟨⟨le_refl 1, hsym⟩,
    solveMazeBFS_distances (fun _ _ => 63) 1 1 (le_refl 1) (le_refl 1) hsym⟩

/-! ## C5: the path-trace loop -/

/-- The BFS phase of the solver ends with the invariant holding and the
queue drained. -/
theorem solveCountsFull_inv (g : Grid) (nR nC : Nat)
    (hR : 1 ≤ nR) (hC : 1 ≤ nC) :
    BfsInv (clearVisited g nR nC) nR nC (solveCountsFull g nR nC) ∧
    (solveCountsFull g nR nC).2.1 = [] := by
  obtain ⟨hfin, hqnil⟩ := bfsLoop_spec (m := clearVisited g nR nC)
    (2 * (nR * nC))
    (updateCount (fun _ _ => -1) (nR - 1) (nC - 1) 0,
      [(nR - 1) * nC + (nC - 1)], [(nR - 1) * nC + (nC - 1)])
    (bfsInv_init (clearVisited g nR nC) nR nC hR hC)
    (by
      show 1 + 2 * uncounted nR nC
        (updateCount (fun _ _ => -1) (nR - 1) (nC - 1) 0) ≤ 2 * (nR * nC)
      have hu := uncounted_init_lt hR hC
      omega)
  have hfc : solveCountsFull g nR nC =
      bfsLoop nR nC (clearVisited g nR nC) (2 * (nR * nC))
        (updateCount (fun _ _ => -1) (nR - 1) (nC - 1) 0,
          [(nR - 1) * nC + (nC - 1)], [(nR - 1) * nC + (nC - 1)]) := rfl
  rw [← hfc] at hfin hqnil
  exact ⟨hfin, hqnil⟩

/-- The computed count never exceeds the length of any open walk from the
goal. -/
theorem solveCounts_le_walk (g : Grid) (nR nC : Nat)
    (hR : 1 ≤ nR) (hC : 1 ≤ nC) :
    ∀ (k : Nat) (x : Nat × Nat),
      OpenWalk (clearVisited g nR nC) nR nC (nR - 1, nC - 1) x k →
      solveCounts g nR nC x.1 x.2 ≠ -1 ∧
      solveCounts g nR nC x.1 x.2 ≤ (k : Int) := by
  obtain ⟨hfin, hqnil⟩ := solveCountsFull_inv g nR nC hR hC
  intro k
  induction k with
  | zero =>
    intro x hx
    have hx' : ((nR - 1, nC - 1) : Nat × Nat) = x := hx
    rw [← hx']
    show (solveCountsFull g nR nC).1 (nR - 1) (nC - 1) ≠ -1 ∧
      (solveCountsFull g nR nC).1 (nR - 1) (nC - 1) ≤ ((0 : Nat) : Int)
    rw [hfin.goal0]
    omega
  | succ k ih =>
    intro x hx
    obtain ⟨z, hwz, hadj⟩ := OpenWalk_decomp k (nR - 1, nC - 1) hx
    obtain ⟨hz1, hz2⟩ := ih z hwz
    have hsc : ∀ X Y, solveCounts g nR nC X Y =
        (solveCountsFull g nR nC).1 X Y := fun _ _ => rfl
    have hfr := hfin.frontier z.1 z.2 hz1
      (by rw [hqnil]; exact List.not_mem_nil _) x hadj
    rw [← hsc z.1 z.2, ← hsc x.1 x.2] at hfr
    refine ⟨hfr.1, ?_⟩
    have hle := hfr.2
    omega

theorem lor_land_self (v a : Nat) : (v ||| a) &&& a = a := by
  apply Nat.eq_of_testBit_eq
  intro i
  simp only [Nat.testBit_land, Nat.testBit_lor]
  cases hv : v.testBit i <;> cases ha : a.testBit i <;> simp

theorem land63_dir {d : Nat} (hd : d ∈ dirs6) (v : Nat) :
    (v &&& 63) &&& d = v &&& d := by
  rw [Nat.land_assoc]
  fin_cases hd <;> rfl

/-- Two mazes with the same wall bits have the same open-passage
adjacency. -/
theorem openAdj_of_walls_eq {m1 m2 : Grid} {nR nC : Nat}
    (h : ∀ X Y, m1 X Y &&& 63 = m2 X Y &&& 63) (x y : Nat × Nat) :
    openAdj m1 nR nC x y ↔ openAdj m2 nR nC x y := by
  unfold openAdj
  constructor <;> rintro ⟨h1, h2, d, hd, hn, hbit⟩ <;>
    refine ⟨h1, h2, d, hd, hn, ?_⟩
  · rw [← land63_dir hd, ← h, land63_dir hd]
    exact hbit
  · rw [← land63_dir hd, h, land63_dir hd]
    exact hbit

theorem mem_of_getLast? : ∀ {l : List (Nat × Nat)} {a : Nat × Nat},
    l.getLast? = some a → a ∈ l := by
  intro l
  induction l with
  | nil => intro a h; exact Option.noConfusion h
  | cons x t ih =>
    intro a h
    cases t with
    | nil =>
      have : x = a := Option.some.injEq .. ▸ h
      rw [this]
      exact List.mem_singleton_self _
    | cons y t' =>
      rw [List.getLast?_cons_cons] at h
      exact List.mem_cons_of_mem _ (ih h)

/-- A descending trace chain: each cell is an open neighbor of the previous
one and its count is exactly one less. -/
def DescChain (count : Nat → Nat → Int) (g : Grid) (nR nC : Nat) :
    (Nat × Nat) → List (Nat × Nat) → Prop
  | _, [] => True
  | x, z :: p => openAdj g nR nC x z ∧ count z.1 z.2 = count x.1 x.2 - 1 ∧
      DescChain count g nR nC z p

theorem DescChain_chain' {count : Nat → Nat → Int} {g : Grid} {nR nC : Nat} :
    ∀ (p : List (Nat × Nat)) (x : Nat × Nat), DescChain count g nR nC x p →
      List.Chain' (openAdj g nR nC) (x :: p) := by
  intro p
  induction p with
  | nil => intro x _; simp
  | cons z p ih =>
    intro x h
    obtain ⟨h1, _, h3⟩ := h
    exact List.chain'_cons.mpr ⟨h1, ih z h3⟩

theorem DescChain_get {count : Nat → Nat → Int} {g : Grid} {nR nC : Nat} :
    ∀ (p : List (Nat × Nat)) (x : Nat × Nat), DescChain count g nR nC x p →
      ∀ i (hi : i < p.length),
        count (p.get ⟨i, hi⟩).1 (p.get ⟨i, hi⟩).2 =
          count x.1 x.2 - (i + 1) := by
  intro p
  induction p with
  | nil => intro x _ i hi; exact absurd hi (by simp)
  | cons z p ih =>
    intro x h i hi
    obtain ⟨_, h2, h3⟩ := h
    cases i with
    | zero =>
      show count z.1 z.2 = count x.1 x.2 - (0 + 1)
      rw [h2]
      omega
    | succ i =>
      show count ((z :: p).get ⟨i + 1, hi⟩).1 ((z :: p).get ⟨i + 1, hi⟩).2 =
        count x.1 x.2 - (i + 1 + 1)
      have hi' : i < p.length := by
        have := hi
        simp only [List.length_cons] at this
        omega
      have hgc : (z :: p).get ⟨i + 1, hi⟩ = p.get ⟨i, hi'⟩ := rfl
      rw [hgc, ih z h3 i hi', h2]
      push_cast
      ring

theorem DescChain_last {count : Nat → Nat → Int} {g : Grid} {nR nC : Nat} :
    ∀ (p : List (Nat × Nat)) (x y : Nat × Nat), DescChain count g nR nC x p →
      (x :: p).getLast? = some y →
      count y.1 y.2 = count x.1 x.2 - p.length := by
  intro p
  induction p with
  | nil =>
    intro x y _ hl
    have : x = y := Option.some.injEq .. ▸ hl
    rw [← this]
    simp
  | cons z p ih =>
    intro x y h hl
    obtain ⟨_, h2, h3⟩ := h
    rw [List.getLast?_cons_cons] at hl
    have := ih z y h3 hl
    rw [this, h2]
    simp only [List.length_cons]
    push_cast
    ring

theorem DescChain_ingrid {count : Nat → Nat → Int} {g : Grid} {nR nC : Nat} :
    ∀ (p : List (Nat × Nat)) (x : Nat × Nat), DescChain count g nR nC x p →
      ∀ z ∈ p, z.1 < nR ∧ z.2 < nC := by
  intro p
  induction p with
  | nil => intro x _ z hz; exact absurd hz (List.not_mem_nil _)
  | cons w p ih =>
    intro x h z hz
    obtain ⟨h1, _, h3⟩ := h
    rcases List.mem_cons.mp hz with rfl | hz
    · obtain ⟨_, _, d, _, hn, _⟩ := h1
      obtain ⟨z1, z2⟩ := z
      exact getNeighbor_target_lt hn
    · exact ih w h3 z hz

theorem scanDirs_skip_closed {maze : Grid} {count : Nat → Nat → Int}
    {nR nC r c d : Nat} {ds : List Nat} (hbit : ¬ (maze r c &&& d = 0)) :
    scanDirs maze count nR nC r c (d :: ds) =
      scanDirs maze count nR nC r c ds := by
  conv_lhs => unfold scanDirs
  rw [if_neg hbit]

theorem scanDirs_skip_none {maze : Grid} {count : Nat → Nat → Int}
    {nR nC r c d : Nat} {ds : List Nat} (hbit : maze r c &&& d = 0)
    (hgn : getNeighbor r c d nR nC = none) :
    scanDirs maze count nR nC r c (d :: ds) =
      scanDirs maze count nR nC r c ds := by
  conv_lhs => unfold scanDirs
  rw [if_pos hbit]
  rw [hgn]

theorem scanDirs_hit {maze : Grid} {count : Nat → Nat → Int}
    {nR nC r c d a b : Nat} {ds : List Nat} (hbit : maze r c &&& d = 0)
    (hgn : getNeighbor r c d nR nC = some (a, b))
    (hcnt : count a b = count r c - 1) :
    scanDirs maze count nR nC r c (d :: ds) = some (a, b) := by
  unfold scanDirs
  rw [if_pos hbit]
  rw [hgn]
  simp only []
  rw [if_pos hcnt]

theorem scanDirs_skip_count {maze : Grid} {count : Nat → Nat → Int}
    {nR nC r c d a b : Nat} {ds : List Nat} (hbit : maze r c &&& d = 0)
    (hgn : getNeighbor r c d nR nC = some (a, b))
    (hcnt : ¬ (count a b = count r c - 1)) :
    scanDirs maze count nR nC r c (d :: ds) =
      scanDirs maze count nR nC r c ds := by
  conv_lhs => unfold scanDirs
  rw [if_pos hbit]
  rw [hgn]
  simp only []
  rw [if_neg hcnt]

theorem scanDirs_sound {maze : Grid} {count : Nat → Nat → Int}
    {nR nC r c : Nat} :
    ∀ (L : List Nat) (a b : Nat),
      scanDirs maze count nR nC r c L = some (a, b) →
      ∃ d ∈ L, maze r c &&& d = 0 ∧ getNeighbor r c d nR nC = some (a, b) ∧
        count a b = count r c - 1 := by
  intro L
  induction L with
  | nil => intro a b h; exact Option.noConfusion h
  | cons d ds ih =>
    intro a b h
    by_cases hbit : maze r c &&& d = 0
    · rcases hgn : getNeighbor r c d nR nC with _ | ⟨nbR, nbC⟩
      · rw [scanDirs_skip_none hbit hgn] at h
        obtain ⟨e, he, hrest⟩ := ih a b h
        exact ⟨e, List.mem_cons_of_mem _ he, hrest⟩
      · by_cases hcnt : count nbR nbC = count r c - 1
        · rw [scanDirs_hit hbit hgn hcnt] at h
          obtain ⟨e1, e2⟩ : nbR = a ∧ nbC = b :=
            Prod.mk.injEq .. ▸ (Option.some.injEq .. ▸ h)
          subst e1
          subst e2
          exact ⟨d, List.mem_cons_self _ _, hbit, hgn, hcnt⟩
        · rw [scanDirs_skip_count hbit hgn hcnt] at h
          obtain ⟨e, he, hrest⟩ := ih a b h
          exact ⟨e, List.mem_cons_of_mem _ he, hrest⟩
    · rw [scanDirs_skip_closed hbit] at h
      obtain ⟨e, he, hrest⟩ := ih a b h
      exact ⟨e, List.mem_cons_of_mem _ he, hrest⟩

theorem scanDirs_complete {maze : Grid} {count : Nat → Nat → Int}
    {nR nC r c : Nat} :
    ∀ L : List Nat,
      (∃ d ∈ L, maze r c &&& d = 0 ∧ ∃ a b,
        getNeighbor r c d nR nC = some (a, b) ∧
        count a b = count r c - 1) →
      ∃ w, scanDirs maze count nR nC r c L = some w := by
  intro L
  induction L with
  | nil =>
    rintro ⟨d, hd, _⟩
    exact absurd hd (List.not_mem_nil _)
  | cons d ds ih =>
    rintro ⟨d0, hd0, hbit0, a0, b0, hgn0, hcnt0⟩
    by_cases hbit : maze r c &&& d = 0
    · rcases hgn : getNeighbor r c d nR nC with _ | ⟨nbR, nbC⟩
      · rw [scanDirs_skip_none hbit hgn]
        apply ih
        rcases List.mem_cons.mp hd0 with rfl | hd0
        · rw [hgn] at hgn0
          exact Option.noConfusion hgn0
        · exact ⟨d0, hd0, hbit0, a0, b0, hgn0, hcnt0⟩
      · by_cases hcnt : count nbR nbC = count r c - 1
        · exact ⟨(nbR, nbC), scanDirs_hit hbit hgn hcnt⟩
        · rw [scanDirs_skip_count hbit hgn hcnt]
          apply ih
          rcases List.mem_cons.mp hd0 with rfl | hd0
          · rw [hgn] at hgn0
            obtain ⟨e1, e2⟩ : nbR = a0 ∧ nbC = b0 :=
              Prod.mk.injEq .. ▸ (Option.some.injEq .. ▸ hgn0)
            subst e1
            subst e2
            exact absurd hcnt0 hcnt
          · exact ⟨d0, hd0, hbit0, a0, b0, hgn0, hcnt0⟩
    · rw [scanDirs_skip_closed hbit]
      apply ih
      rcases List.mem_cons.mp hd0 with rfl | hd0
      · exact absurd hbit0 hbit
      · exact ⟨d0, hd0, hbit0, a0, b0, hgn0, hcnt0⟩

theorem traceLoop_succ {nR nC : Nat} {count : Nat → Nat → Int} {fuel : Nat}
    {maze : Grid} {r c : Nat} :
    traceLoop nR nC count (fuel + 1) maze r c =
      if count r c ≠ 0 then
        match scanDirs maze count nR nC r c dirs6 with
        | some (nbR, nbC) =>
          traceLoop nR nC count fuel
            (setCell maze nbR nbC (maze nbR nbC ||| VISITED)) nbR nbC
        | none => maze
      else maze := rfl

/-- Correctness of the trace loop, under the hypothesis (established from
the BFS result) that every cell with positive count has an open neighbor
with count exactly one less: starting at a cell of count `v` with fuel
`v + 1`, the loop visits a descending chain of `v` further cells, marks
exactly those cells `VISITED` on top of whatever was already marked, and
touches no wall bits. -/
theorem traceLoop_spec {g : Grid} {nR nC : Nat} {count : Nat → Nat → Int}
    (hdec : ∀ r c, r < nR → c < nC → 0 < count r c →
      ∃ w : Nat × Nat, openAdj g nR nC (r, c) w ∧
        count w.1 w.2 = count r c - 1) :
    ∀ (v : Nat) (mz : Grid) (r c : Nat) (L : List (Nat × Nat)),
      r < nR → c < nC → count r c = (v : Int) →
      (∀ X Y, mz X Y &&& 63 = g X Y &&& 63) →
      (∀ X Y, X < nR → Y < nC → (mz X Y &&& VISITED ≠ 0 ↔ (X, Y) ∈ L)) →
      ∃ p : List (Nat × Nat),
        p.length = v ∧
        DescChain count g nR nC (r, c) p ∧
        (∀ X Y, traceLoop nR nC count (v + 1) mz r c X Y &&& 63 =
          g X Y &&& 63) ∧
        (∀ X Y, X < nR → Y < nC →
          (traceLoop nR nC count (v + 1) mz r c X Y &&& VISITED ≠ 0 ↔
            (X, Y) ∈ L ++ p)) := by
  intro v
  induction v with
  | zero =>
    intro mz r c L hr hc hv hwe hmi
    have hstop : traceLoop nR nC count 1 mz r c = mz := by
      rw [traceLoop_succ, if_neg (not_not.mpr (by rw [hv]; rfl))]
    refine ⟨[], rfl, trivial, ?_, ?_⟩
    · intro X Y
      rw [hstop]
      exact hwe X Y
    · intro X Y hX hY
      rw [hstop, List.append_nil]
      exact hmi X Y hX hY
  | succ v ih =>
    intro mz r c L hr hc hv hwe hmi
    have hpos : 0 < count r c := by rw [hv]; omega
    have hne0 : count r c ≠ 0 := by rw [hv]; omega
    obtain ⟨w, hadjw, hcntw⟩ := hdec r c hr hc hpos
    obtain ⟨_, _, d, hd, hgn, hbitg⟩ := hadjw
    have hbitm : mz r c &&& d = 0 := by
      rw [← land63_dir hd, hwe, land63_dir hd]
      exact hbitg
    obtain ⟨w1, w2⟩ := w
    obtain ⟨wr, hscan⟩ := @scanDirs_complete mz count nR nC r c dirs6
      ⟨d, hd, hbitm, w1, w2, hgn, hcntw⟩
    obtain ⟨a, b⟩ := wr
    obtain ⟨d', hd', hbit', hgn', hcnt'⟩ := scanDirs_sound dirs6 a b hscan
    have hab := getNeighbor_target_lt hgn'
    have hadjab : openAdj g nR nC (r, c) (a, b) :=
      ⟨hr, hc, d', hd', hgn', by
        rw [← land63_dir hd', ← hwe, land63_dir hd']
        exact hbit'⟩
    have hcab : count a b = (v : Int) := by
      rw [hcnt', hv]
      push_cast
      ring
    have hwe' : ∀ X Y,
        setCell mz a b (mz a b ||| VISITED) X Y &&& 63 = g X Y &&& 63 := by
      intro X Y
      by_cases hxy : ((X, Y) : Nat × Nat) = (a, b)
      · obtain ⟨e1, e2⟩ : X = a ∧ Y = b := Prod.mk.injEq .. ▸ hxy
        rw [e1, e2, setCell_self,
          lor_land_of_land_eq_zero _ _ _ (by decide)]
        exact hwe a b
      · rw [setCell_other _ _ _ _ _ _ hxy]
        exact hwe X Y
    have hmi' : ∀ X Y, X < nR → Y < nC →
        (setCell mz a b (mz a b ||| VISITED) X Y &&& VISITED ≠ 0 ↔
          (X, Y) ∈ L ++ [(a, b)]) := by
      intro X Y hX hY
      by_cases hxy : ((X, Y) : Nat × Nat) = (a, b)
      · obtain ⟨e1, e2⟩ : X = a ∧ Y = b := Prod.mk.injEq .. ▸ hxy
        rw [e1, e2, setCell_self, lor_land_self]
        exact ⟨fun _ => List.mem_append_right _ (List.mem_singleton_self _),
          fun _ => by decide⟩
      · rw [setCell_other _ _ _ _ _ _ hxy, hmi X Y hX hY]
        constructor
        · exact fun hm => List.mem_append_left _ hm
        · intro hm
          rcases List.mem_append.mp hm with hm | hm
          · exact hm
          · exact absurd (List.mem_singleton.mp hm) hxy
    obtain ⟨p', hlen, hdesc, hwalls, hmarks⟩ :=
      ih (setCell mz a b (mz a b ||| VISITED)) a b (L ++ [(a, b)])
        hab.1 hab.2 hcab hwe' hmi'
    have hrun : traceLoop nR nC count (v + 1 + 1) mz r c =
        traceLoop nR nC count (v + 1)
          (setCell mz a b (mz a b ||| VISITED)) a b := by
      rw [traceLoop_succ, if_pos hne0, hscan]
    refine ⟨(a, b) :: p', by simp [hlen], ⟨hadjab, hcnt', hdesc⟩, ?_, ?_⟩
    · intro X Y
      rw [hrun]
      exact hwalls X Y
    · intro X Y hX hY
      rw [hrun, hmarks X Y hX hY, List.append_assoc, List.singleton_append]

theorem minus_symm {m : Grid} {nR nC : Nat} (hsym : WallSymm m nR nC)
    (A B u v : Nat × Nat)
    (h : openAdj m nR nC u v ∧ ¬(u = A ∧ v = B) ∧ ¬(u = B ∧ v = A)) :
    openAdj m nR nC v u ∧ ¬(v = A ∧ u = B) ∧ ¬(v = B ∧ u = A) := by
  obtain ⟨h1, h2, h3⟩ := h
  exact ⟨openAdj_symm hsym h1, fun hp => h3 ⟨hp.2, hp.1⟩,
    fun hp => h2 ⟨hp.2, hp.1⟩⟩

/-- A chain of open hops whose vertices all avoid `A` yields reachability
in the graph with the edge `{A, B}` deleted. -/
theorem chain_reach_avoid {m : Grid} {nR nC : Nat} {A B : Nat × Nat} :
    ∀ (l : List (Nat × Nat)) (z Y : Nat × Nat),
      List.Chain' (openAdj m nR nC) (z :: l) →
      (z :: l).getLast? = some Y →
      (∀ w ∈ z :: l, w ≠ A) →
      Relation.ReflTransGen (fun u v => openAdj m nR nC u v ∧
        ¬(u = A ∧ v = B) ∧ ¬(u = B ∧ v = A)) z Y := by
  intro l
  induction l with
  | nil =>
    intro z Y _ hl _
    have hzy : z = Y := Option.some.injEq .. ▸ hl
    exact hzy ▸ Relation.ReflTransGen.refl
  | cons w l ih =>
    intro z Y hch hl havoid
    obtain ⟨hzw, hch'⟩ := List.chain'_cons.mp hch
    rw [List.getLast?_cons_cons] at hl
    refine Relation.ReflTransGen.head ⟨hzw, ?_, ?_⟩ (ih w Y hch' hl ?_)
    · rintro ⟨hz, -⟩
      exact havoid z (List.mem_cons_self _ _) hz
    · rintro ⟨-, hw⟩
      exact havoid w (List.mem_cons_of_mem _ (List.mem_cons_self _ _)) hw
    · intro u hu
      exact havoid u (List.mem_cons_of_mem _ hu)

/-- In a maze whose every open passage is a bridge, two duplicate-free
open-passage chains with the same endpoints coincide. -/
theorem unique_chain {m : Grid} {nR nC : Nat} (hsym : WallSymm m nR nC)
    (hacyc : ∀ x y, openAdj m nR nC x y →
      ¬ Relation.ReflTransGen (fun u v => openAdj m nR nC u v ∧
        ¬(u = x ∧ v = y) ∧ ¬(u = y ∧ v = x)) x y) :
    ∀ (n : Nat) (q1 q2 : List (Nat × Nat)) (a b : Nat × Nat),
      q1.length ≤ n →
      List.Chain' (openAdj m nR nC) q1 → q1.head? = some a →
      q1.getLast? = some b → q1.Nodup →
      List.Chain' (openAdj m nR nC) q2 → q2.head? = some a →
      q2.getLast? = some b → q2.Nodup →
      q1 = q2 := by
  intro n
  induction n with
  | zero =>
    intro q1 q2 a b hn _ hh1 _ _ _ _ _ _
    cases q1 with
    | nil => exact Option.noConfusion hh1
    | cons x t => simp at hn
  | succ n ih =>
    intro q1 q2 a b hn hch1 hh1 hl1 hnd1 hch2 hh2 hl2 hnd2
    cases q1 with
    | nil => exact Option.noConfusion hh1
    | cons a1 t1 =>
      have ha1 : a = a1 := (Option.some.injEq .. ▸ hh1 : a1 = a).symm
      subst ha1
      cases q2 with
      | nil => exact Option.noConfusion hh2
      | cons a2 t2 =>
        have ha2 : a = a2 := (Option.some.injEq .. ▸ hh2 : a2 = a).symm
        subst ha2
        cases t1 with
        | nil =>
          have hb : a = b := Option.some.injEq .. ▸ hl1
          cases t2 with
          | nil => rfl
          | cons z2 t2' =>
            rw [List.getLast?_cons_cons] at hl2
            have hmem : b ∈ z2 :: t2' := mem_of_getLast? hl2
            rw [← hb] at hmem
            exact absurd hmem ((List.nodup_cons.mp hnd2).1)
        | cons z1 t1' =>
          rw [List.getLast?_cons_cons] at hl1
          have hbmem1 : b ∈ z1 :: t1' := mem_of_getLast? hl1
          have hanin1 : a ∉ z1 :: t1' := (List.nodup_cons.mp hnd1).1
          cases t2 with
          | nil =>
            have hb : a = b := Option.some.injEq .. ▸ hl2
            rw [← hb] at hbmem1
            exact absurd hbmem1 hanin1
          | cons z2 t2' =>
            rw [List.getLast?_cons_cons] at hl2
            have hanin2 : a ∉ z2 :: t2' := (List.nodup_cons.mp hnd2).1
            obtain ⟨hadj1, hch1'⟩ := List.chain'_cons.mp hch1
            obtain ⟨hadj2, hch2'⟩ := List.chain'_cons.mp hch2
            have hz12 : z1 = z2 := by
              by_contra hzz
              have hr2 := chain_reach_avoid (A := a) (B := z1) t2' z2 b
                hch2' hl2 (fun w hw he => hanin2 (he ▸ hw))
              have hr1 := chain_reach_avoid (A := a) (B := z1) t1' z1 b
                hch1' hl1 (fun w hw he => hanin1 (he ▸ hw))
              have hrev := Relation.ReflTransGen.symmetric
                (fun u v h => minus_symm hsym a z1 u v h) hr1
              have hne1 : ¬(a = z1) := by
                obtain ⟨-, -, d1, -, hgn1, -⟩ := hadj1
                obtain ⟨z11, z12⟩ := z1
                intro he
                exact getNeighbor_target_ne hgn1 he.symm
              have hstep : openAdj m nR nC a z2 ∧
                  ¬(a = a ∧ z2 = z1) ∧ ¬(a = z1 ∧ z2 = a) :=
                ⟨hadj2, fun hp => hzz hp.2.symm, fun hp => hne1 hp.1⟩
              have htotal := Relation.ReflTransGen.head
                (r := fun u v => openAdj m nR nC u v ∧
                  ¬(u = a ∧ v = z1) ∧ ¬(u = z1 ∧ v = a))
                hstep (hr2.trans hrev)
              exact hacyc a z1 hadj1 htotal
            subst hz12
            have hrec := ih (z1 :: t1') (z1 :: t2') z1 b
              (by simp only [List.length_cons] at hn ⊢; omega)
              hch1' rfl hl1 ((List.nodup_cons.mp hnd1).2)
              hch2' rfl hl2 ((List.nodup_cons.mp hnd2).2)
            rw [hrec]

/-- C5: when the start cell `(0,0)` has an assigned distance, the trace
phase marks exactly `distance[start] + 1` distinct cells; they form a path
from the start to the goal whose consecutive cells are open-adjacent and
whose distances decrease by exactly 1 down to 0; and when every open
passage of the grid is a bridge (a spanning-tree grid, as generation
produces), this marked path is the unique duplicate-free open-passage path
from start to goal. -/
theorem solveMazeBFS_path (g : Grid) (nR nC : Nat)
    (hR : 1 ≤ nR) (hC : 1 ≤ nC) (hsym : WallSymm g nR nC)
    (hstart : solveCounts g nR nC 0 0 ≠ -1)
    (hacyc : ∀ x y, openAdj g nR nC x y →
      ¬ Relation.ReflTransGen (fun u v => openAdj g nR nC u v ∧
        ¬(u = x ∧ v = y) ∧ ¬(u = y ∧ v = x)) x y) :
    ∃ p : List (Nat × Nat),
      p.length = (solveCounts g nR nC 0 0).toNat + 1 ∧
      p.head? = some (0, 0) ∧
      p.getLast? = some (nR - 1, nC - 1) ∧
      List.Chain' (openAdj g nR nC) p ∧
      (∀ i (hi : i < p.length),
        solveCounts g nR nC (p.get ⟨i, hi⟩).1 (p.get ⟨i, hi⟩).2 =
          solveCounts g nR nC 0 0 - i) ∧
      p.Nodup ∧
      (∀ X Y, X < nR → Y < nC →
        (solveMazeBFS g nR nC X Y &&& VISITED ≠ 0 ↔ (X, Y) ∈ p)) ∧
      (∀ q : List (Nat × Nat), List.Chain' (openAdj g nR nC) q →
        q.head? = some (0, 0) → q.getLast? = some (nR - 1, nC - 1) →
        q.Nodup → q = p) := by
  obtain ⟨hfin, hqnil⟩ := solveCountsFull_inv g nR nC hR hC
  have hnonneg : 0 ≤ solveCounts g nR nC 0 0 := hfin.range 0 0 hstart
  obtain ⟨N, hN⟩ : ∃ N : Nat, solveCounts g nR nC 0 0 = (N : Int) :=
    ⟨(solveCounts g nR nC 0 0).toNat, (Int.toNat_of_nonneg hnonneg).symm⟩
  have hfuel : (solveCounts g nR nC 0 0).toNat = N := by
    rw [hN]
    omega
  have hzero : ∀ x y, solveCounts g nR nC x y = 0 →
      ((x, y) : Nat × Nat) = (nR - 1, nC - 1) := by
    intro x y h0
    have h0' : (solveCountsFull g nR nC).1 x y = 0 := h0
    obtain ⟨k, hk, hw⟩ := hfin.sound x y (by rw [h0']; omega)
    have hk0 : k = 0 := by omega
    subst hk0
    have hgoal : ((nR - 1, nC - 1) : Nat × Nat) = (x, y) := hw
    exact hgoal.symm
  have hdec : ∀ r c, r < nR → c < nC → 0 < solveCounts g nR nC r c →
      ∃ w : Nat × Nat, openAdj g nR nC (r, c) w ∧
        solveCounts g nR nC w.1 w.2 = solveCounts g nR nC r c - 1 := by
    intro r c hr hc hpos
    have hne : solveCounts g nR nC r c ≠ -1 := by omega
    obtain ⟨k, hk, hw⟩ := hfin.sound r c hne
    have hpos' : 0 < (solveCountsFull g nR nC).1 r c := hpos
    have hk1 : 1 ≤ k := by omega
    obtain ⟨z, hwz, hadjz⟩ := OpenWalk_decomp (k - 1) (nR - 1, nC - 1) (by
      have hkk : k - 1 + 1 = k := by omega
      rw [hkk]
      exact hw)
    obtain ⟨hzne, hzle⟩ := solveCounts_le_walk g nR nC hR hC (k - 1) z hwz
    have hzne' : (solveCountsFull g nR nC).1 z.1 z.2 ≠ -1 := hzne
    have hfr := hfin.frontier z.1 z.2 hzne'
      (by rw [hqnil]; exact List.not_mem_nil _) (r, c) hadjz
    refine ⟨z, ?_, ?_⟩
    · have h1 := openAdj_symm (clearVisited_WallSymm hsym) hadjz
      exact (clearVisited_openAdj g nR nC (r, c) z).mp h1
    · have e1 : solveCounts g nR nC z.1 z.2 =
        (solveCountsFull g nR nC).1 z.1 z.2 := rfl
      have e2 : solveCounts g nR nC r c =
        (solveCountsFull g nR nC).1 r c := rfl
      have hfr2 : (solveCountsFull g nR nC).1 r c ≤
          (solveCountsFull g nR nC).1 z.1 z.2 + 1 := hfr.2
      omega
  have hcv63 : ∀ A B2, clearVisited g nR nC A B2 &&& 63 = g A B2 &&& 63 := by
    intro A B2
    unfold clearVisited
    split_ifs with h
    · rw [Nat.land_assoc]
      have h63 : (255 ^^^ VISITED) &&& 63 = 63 := by decide
      rw [h63]
    · rfl
  have hwe0 : ∀ X Y,
      setCell (clearVisited g nR nC) 0 0
        (clearVisited g nR nC 0 0 ||| VISITED) X Y &&& 63 =
      g X Y &&& 63 := by
    intro X Y
    by_cases hxy : ((X, Y) : Nat × Nat) = (0, 0)
    · obtain ⟨e1, e2⟩ : X = 0 ∧ Y = 0 := Prod.mk.injEq .. ▸ hxy
      rw [e1, e2, setCell_self,
        lor_land_of_land_eq_zero _ _ _ (by decide)]
      exact hcv63 0 0
    · rw [setCell_other _ _ _ _ _ _ hxy]
      exact hcv63 X Y
  have hmi0 : ∀ X Y, X < nR → Y < nC →
      (setCell (clearVisited g nR nC) 0 0
        (clearVisited g nR nC 0 0 ||| VISITED) X Y &&& VISITED ≠ 0 ↔
        (X, Y) ∈ ([((0 : Nat), (0 : Nat))] : List (Nat × Nat))) := by
    intro X Y hX hY
    by_cases hxy : ((X, Y) : Nat × Nat) = (0, 0)
    · obtain ⟨e1, e2⟩ : X = 0 ∧ Y = 0 := Prod.mk.injEq .. ▸ hxy
      rw [e1, e2, setCell_self, lor_land_self]
      exact ⟨fun _ => List.mem_singleton_self _, fun _ => by decide⟩
    · rw [setCell_other _ _ _ _ _ _ hxy]
      have hcvv : clearVisited g nR nC X Y &&& VISITED = 0 := by
        unfold clearVisited
        rw [if_pos ⟨hX, hY⟩]
        exact land_kill _ (by decide)
      rw [hcvv]
      constructor
      · intro h
        exact absurd rfl h
      · intro hm
        exact absurd (List.mem_singleton.mp hm) hxy
  obtain ⟨p', hlen, hdesc, hwalls, hmarks⟩ :=
    traceLoop_spec hdec N
      (setCell (clearVisited g nR nC) 0 0
        (clearVisited g nR nC 0 0 ||| VISITED)) 0 0
      [((0 : Nat), (0 : Nat))] (by omega) (by omega) hN hwe0 hmi0
  have hrun : solveMazeBFS g nR nC =
      traceLoop nR nC (solveCounts g nR nC)
        ((solveCounts g nR nC 0 0).toNat + 1)
        (setCell (clearVisited g nR nC) 0 0
          (clearVisited g nR nC 0 0 ||| VISITED)) 0 0 := by
    unfold solveMazeBFS
    rw [if_neg (by omega : ¬(nR = 0 ∨ nC = 0)), if_neg hstart]
  obtain ⟨y0, hgl⟩ := Option.isSome_iff_exists.mp
    (List.getLast?_isSome.mpr (show ((0, 0) :: p') ≠ [] by simp))
  have hylast := DescChain_last p' (0, 0) y0 hdesc hgl
  have hy_ing : y0.1 < nR ∧ y0.2 < nC := by
    rcases List.mem_cons.mp (mem_of_getLast? hgl) with rfl | hmem
    · exact ⟨by show (0 : Nat) < nR; omega, by show (0 : Nat) < nC; omega⟩
    · exact DescChain_ingrid p' (0, 0) hdesc y0 hmem
  have hylast2 : solveCounts g nR nC y0.1 y0.2 =
      solveCounts g nR nC 0 0 - (p'.length : Int) := hylast
  have hy0 : solveCounts g nR nC y0.1 y0.2 = 0 := by omega
  have hygoal : y0 = (nR - 1, nC - 1) := hzero y0.1 y0.2 hy0
  have hlast3 : ((0, 0) :: p').getLast? = some (nR - 1, nC - 1) := by
    rw [hgl, hygoal]
  have hchain : List.Chain' (openAdj g nR nC) ((0, 0) :: p') :=
    DescChain_chain' p' (0, 0) hdesc
  have hidx : ∀ i (hi : i < ((0, 0) :: p').length),
      solveCounts g nR nC (((0, 0) :: p').get ⟨i, hi⟩).1
        (((0, 0) :: p').get ⟨i, hi⟩).2 =
      solveCounts g nR nC 0 0 - i := by
    intro i hi
    cases i with
    | zero =>
      show solveCounts g nR nC 0 0 =
        solveCounts g nR nC 0 0 - ((0 : Nat) : Int)
      omega
    | succ i =>
      have hi' : i < p'.length := by
        simp only [List.length_cons] at hi
        omega
      have hgc : ((0, 0) :: p').get ⟨i + 1, hi⟩ = p'.get ⟨i, hi'⟩ := rfl
      rw [hgc]
      have hg : solveCounts g nR nC (p'.get ⟨i, hi'⟩).1
          (p'.get ⟨i, hi'⟩).2 =
          solveCounts g nR nC 0 0 - ((i : Int) + 1) :=
        DescChain_get p' (0, 0) hdesc i hi'
      omega
  have hnodup : ((0, 0) :: p').Nodup := by
    rw [List.nodup_iff_injective_get]
    intro a b hab
    obtain ⟨i, hi⟩ := a
    obtain ⟨j, hj⟩ := b
    have h1 := hidx i hi
    have h2 := hidx j hj
    rw [hab] at h1
    exact Fin.ext (show i = j by omega)
  refine ⟨(0, 0) :: p', by rw [List.length_cons, hlen, hfuel], rfl, hlast3,
    hchain, hidx, hnodup, ?_, ?_⟩
  · intro X Y hX hY
    rw [hrun, hfuel]
    exact (hmarks X Y hX hY).trans (by rw [List.singleton_append])
  · intro q hq1 hq2 hq3 hq4
    exact unique_chain hsym hacyc q.length q ((0, 0) :: p') (0, 0)
      (nR - 1, nC - 1) (le_refl _) hq1 hq2 hq3 hq4 hchain rfl hlast3 hnodup

theorem solveMazeBFS_path_witness :
    (1 ≤ 1 ∧ WallSymm (fun _ _ => 63) 1 1 ∧
      solveCounts (fun _ _ => 63) 1 1 0 0 ≠ -1 ∧
      (∀ x y : Nat × Nat, openAdj (fun _ _ => 63) 1 1 x y →
        ¬ Relation.ReflTransGen (fun u v =>
            openAdj (fun _ _ => 63) 1 1 u v ∧
            ¬(u = x ∧ v = y) ∧ ¬(u = y ∧ v = x)) x y)) ∧
    (∃ p : List (Nat × Nat),
      p.length = (solveCounts (fun _ _ => 63) 1 1 0 0).toNat + 1 ∧
      p.head? = some (0, 0) ∧
      p.getLast? = some (0, 0) ∧
      List.Chain' (openAdj (fun _ _ => 63) 1 1) p ∧
      (∀ i (hi : i < p.length),
        solveCounts (fun _ _ => 63) 1 1 (p.get ⟨i, hi⟩).1
          (p.get ⟨i, hi⟩).2 =
          solveCounts (fun _ _ => 63) 1 1 0 0 - i) ∧
      p.Nodup ∧
      (∀ X Y, X < 1 → Y < 1 →
        (solveMazeBFS (fun _ _ => 63) 1 1 X Y &&& VISITED ≠ 0 ↔
          (X, Y) ∈ p)) ∧
      (∀ q : List (Nat × Nat),
        List.Chain' (openAdj (fun _ _ => 63) 1 1) q →
        q.head? = some (0, 0) → q.getLast? = some (0, 0) →
        q.Nodup → q = p)) := by
  have hsym : WallSymm (fun _ _ => 63) 1 1 := by
    intro r c d r2 c2 hr hc hd hn
    obtain rfl : r = 0 := by omega
    obtain rfl : c = 0 := by omega
    have hnone : getNeighbor 0 0 d 1 1 = none := by
      fin_cases hd <;> rfl
    rw [hnone] at hn
    exact Option.noConfusion hn
  have hstart : solveCounts (fun _ _ => 63) 1 1 0 0 ≠ -1 := by
    have h : solveCounts (fun _ _ => 63) 1 1 0 0 = 0 := rfl
    rw [h]
    omega
  have hacyc : ∀ x y : Nat × Nat, openAdj (fun _ _ => 63) 1 1 x y →
      ¬ Relation.ReflTransGen (fun u v =>
          openAdj (fun _ _ => 63) 1 1 u v ∧
          ¬(u = x ∧ v = y) ∧ ¬(u = y ∧ v = x)) x y := by
    intro x y hxy _
    obtain ⟨hx1, hx2, d, hd, hn, -⟩ := hxy
    obtain ⟨x1, x2⟩ := x
    have h1 : x1 < 1 := hx1
    have h2 : x2 < 1 := hx2
    obtain rfl : x1 = 0 := by omega
    obtain rfl : x2 = 0 := by omega
    have hn' : getNeighbor 0 0 d 1 1 = some y := hn
    have hnone : getNeighbor 0 0 d 1 1 = none := by
      fin_cases hd <;> rfl
    rw [hnone] at hn'
    exact Option.noConfusion hn'
  exact ⟨⟨le_refl 1, hsym, hstart, hacyc⟩,
    solveMazeBFS_path (fun _ _ => 63) 1 1 (le_refl 1) (le_refl 1)
      hsym hstart hacyc⟩

end HexMaze
